import Mathlib

/-!
SPLATT coordinate tensors and the completion predictor.

A shallow embedding of `src/coo.c` (deduplication, empty-slice compaction, mode
unfolding) and of the per-nonzero predictor of `src/completion/completion.c`.

C arrays are lists, read with a default (`getD`) and written with `List.set`;
`idx_t` values are natural numbers, reduced modulo `2 ^ 64` at the places where
the unsigned arithmetic of the source can wrap; `val_t` values are rationals
(exact arithmetic).
-/

namespace Splatt

/-! ## Data model -/

/-- Modelled from the spec: the modulus of the index type `idx_t`, "a machine
index type (unsigned integer wide enough for total nonzero count)"; the header
declaring it is not among the sources, the library default is 64 bits. -/
def idx_mod : Nat := 2 ^ 64

/-- Modelled from the spec: the bound `MAX_NMODES` on the number of modes, "a
constant `MaxModes` bounds mode count (typical: 8)"; its header is not among the
sources. -/
def MAX_NMODES : Nat := 8

/-- Modelled from the spec: the values of the tile flag of a tensor; only the two
that the sources name are listed (`SPLATT_NOTILE` in `coo.c`, `SPLATT_DENSETILE` in
`cmd_tucker.c`), the enumeration itself is not among the sources. -/
inductive splatt_tile_type where
  | SPLATT_NOTILE
  | SPLATT_DENSETILE
deriving DecidableEq, Repr

/-- The coordinate tensor `splatt_coo` (a.k.a. `sptensor_t`): `ind[m][n]` is the
index of nonzero `n` in mode `m`; `indmap[m]` is `none` for a `NULL` pointer. -/
structure splatt_coo where
  nmodes : Nat
  dims : List Nat
  nnz : Nat
  ind : List (List Nat)
  vals : List ℚ
  indmap : List (Option (List Nat))
  tiled : splatt_tile_type := splatt_tile_type.SPLATT_NOTILE
deriving DecidableEq, Repr

/-- The read `ind[m][n]`. -/
def rd (ind : List (List Nat)) (m n : Nat) : Nat := (ind.getD m []).getD n 0

/-- The write `ind[m][n] = v`. -/
def wr (ind : List (List Nat)) (m n v : Nat) : List (List Nat) :=
  ind.set m ((ind.getD m []).set n v)

/-- The coordinate of nonzero `n`: its index in every mode. -/
def coord (tt : splatt_coo) (n : Nat) : List Nat :=
  (List.range tt.nmodes).map (fun m => rd tt.ind m n)

/-- Nonzero `n` as a (coordinate, value) pair. -/
def entry (tt : splatt_coo) (n : Nat) : List Nat × ℚ := (coord tt n, tt.vals.getD n 0)

/-- The nonzeros of a tensor, positions `0 .. nnz-1`, as (coordinate, value) pairs. -/
def entries (tt : splatt_coo) : List (List Nat × ℚ) := (List.range tt.nnz).map (entry tt)

/-- The sum of the values of the entries of `es` at coordinate `c`. -/
def vsum (c : List Nat) (es : List (List Nat × ℚ)) : ℚ :=
  ((es.filter (fun e => e.1 = c)).map Prod.snd).sum

/-- The arrays of the tensor have the sizes its header announces. -/
def shaped (tt : splatt_coo) : Prop :=
  tt.dims.length = tt.nmodes ∧ tt.ind.length = tt.nmodes ∧
  (∀ l ∈ tt.ind, l.length = tt.nnz) ∧ tt.vals.length = tt.nnz ∧
  tt.nmodes ≤ tt.indmap.length

/-- The input invariant `ind[m][n] < dims[m]`. -/
def in_range (tt : splatt_coo) : Prop :=
  ∀ m < tt.nmodes, ∀ n < tt.nnz, rd tt.ind m n < tt.dims.getD m 0

instance (tt : splatt_coo) : Decidable (shaped tt) := by
  unfold shaped; infer_instance

instance (tt : splatt_coo) : Decidable (in_range tt) := by
  unfold in_range; infer_instance

/-! ## Sorting -/

/-- Lexicographic comparison of index tuples, first component most significant. -/
def lex_le : List Nat → List Nat → Bool
  | [], _ => true
  | _ :: _, [] => false
  | a :: as, b :: bs => decide (a < b) || (a == b && lex_le as bs)

/-- Strict lexicographic order on coordinates. -/
def lex_lt (a b : List Nat) : Prop := lex_le a b = true ∧ a ≠ b

/-- The sort key of nonzero `n` for `tt_sort(tt, mode, NULL)`: the indices in the
modes `mode, mode+1, ..., nmodes-1, 0, ..., mode-1`. -/
def sort_key (tt : splatt_coo) (mode n : Nat) : List Nat :=
  (List.range tt.nmodes).map (fun m => rd tt.ind ((mode + m) % tt.nmodes) n)

/-- The order in which `tt_sort(tt, mode, NULL)` arranges the positions of the
nonzeros: a stable insertion sort by `sort_key`. -/
def sort_perm (tt : splatt_coo) (mode : Nat) : List Nat :=
  (List.range tt.nnz).insertionSort
    (fun a b => lex_le (sort_key tt mode a) (sort_key tt mode b) = true)

/-- Modelled from the spec: `tt_sort(tt, mode, NULL)`, whose source file is not
among the sources. `remove_dups` "stably sorts by lexicographic coordinate order
(mode 0 major)"; for another mode the nonzeros are sorted with `ind[mode]` as
primary key and the following modes (cyclically) as secondary keys. The sort is a
stable insertion sort of the positions; every index array and the value array
are permuted alike. -/
def tt_sort (tt : splatt_coo) (mode : Nat) : splatt_coo :=
  let perm := sort_perm tt mode
  { tt with
    ind := (List.range tt.nmodes).map (fun m => perm.map (fun p => rd tt.ind m p))
    vals := perm.map (fun p => tt.vals.getD p 0) }

/-! ## `tt_remove_dups` -/

/-- The test `p_same_coord(tt, i, j)`: nonzeros `i` and `j` have the same index in
every mode (with the unrolled three-mode case of the source). -/
def p_same_coord (tt : splatt_coo) (i j : Nat) : Bool :=
  if tt.nmodes = 3 then
    (rd tt.ind 0 i == rd tt.ind 0 j) && (rd tt.ind 1 i == rd tt.ind 1 j) &&
      (rd tt.ind 2 i == rd tt.ind 2 j)
  else
    (List.range tt.nmodes).all (fun m => rd tt.ind m i == rd tt.ind m j)

/-- One iteration of the scan of `tt_remove_dups`, at loop counter `nnz`; the state
is the tensor (mutated in place) and `newnnz`. -/
def dups_body (nmodes : Nat) (st : splatt_coo × Nat) (nnz : Nat) : splatt_coo × Nat :=
  if p_same_coord st.1 st.2 nnz then
    ({ st.1 with vals := st.1.vals.set st.2 (st.1.vals.getD st.2 0 + st.1.vals.getD nnz 0) },
      st.2)
  else
    let newnnz := st.2 + 1
    let ind := (List.range nmodes).foldl (fun ind m => wr ind m newnnz (rd ind m nnz)) st.1.ind
    ({ st.1 with ind := ind, vals := st.1.vals.set newnnz (st.1.vals.getD nnz 0) }, newnnz)

/-- The function `tt_remove_dups`: the tensor afterwards and the returned count. -/
def tt_remove_dups (tt : splatt_coo) : splatt_coo × Nat :=
  let tt := tt_sort tt 0
  let nmodes := tt.nmodes
  let st := (List.range' 1 (tt.nnz - 1)).foldl (dups_body nmodes) (tt, 0)
  let newnnz := st.2 + 1
  let diff := (st.1.nnz + idx_mod - newnnz) % idx_mod
  ({ st.1 with nnz := newnnz }, diff)

/-! ## `tt_remove_empty` -/

/-- One step of the marking loop of `tt_remove_empty` in a mode whose index array
is `indm`; the state is `scounts` and the counter `dim_sizes[m]`. -/
def mark_body (indm : List Nat) (st : List Nat × Nat) (n : Nat) : List Nat × Nat :=
  if st.1.getD (indm.getD n 0) 0 = 0 then (st.1.set (indm.getD n 0) 1, st.2 + 1) else st

/-- One step of the scan that turns the marks into compacted labels; the state is
`scounts` and `ptr`. -/
def scan_body (st : List Nat × Nat) (i : Nat) : List Nat × Nat :=
  if st.1.getD i 0 = 1 then (st.1.set i st.2, st.2 + 1) else st

/-- One step of the relabelling loop; the state is `indmap[m]` and `ind[m]`. The
result is `none` when `assert(local < dim_sizes[m])` fails. -/
def relabel_body (scounts : List Nat) (dim_size : Nat) (st : List Nat × List Nat) (n : Nat) :
    Option (List Nat × List Nat) :=
  let global := st.2.getD n 0
  let loc := scounts.getD global 0
  if loc < dim_size then some (st.1.set loc global, st.2.set n loc) else none

/-- The largest entry of `dims`, as the first loop of `tt_remove_empty` computes it. -/
def max_dim (tt : splatt_coo) : Nat :=
  (List.range tt.nmodes).foldl
    (fun maxdim m => if tt.dims.getD m 0 > maxdim then tt.dims.getD m 0 else maxdim) 0

/-- The byte count `maxdim * sizeof(*scounts)` that `tt_remove_empty` asks of
`splatt_malloc`, before any wrap-around; an `idx_t` has 8 bytes. -/
def scounts_bytes (tt : splatt_coo) : Nat := max_dim tt * 8


/-- The body of the loop over the modes in `tt_remove_empty`; the state is the
tensor and `nremoved`. -/
def empty_body (maxdim : Nat) (st : splatt_coo × Nat) (m : Nat) : Option (splatt_coo × Nat) :=
  let tt := st.1
  let mk := (List.range tt.nnz).foldl (mark_body (tt.ind.getD m [])) (List.replicate maxdim 0, 0)
  let dim_size := mk.2
  if dim_size = tt.dims.getD m 0 then
    some ({ tt with indmap := tt.indmap.set m none }, st.2)
  else
    let nremoved := (st.2 + (tt.dims.getD m 0 + idx_mod - dim_size) % idx_mod) % idx_mod
    let scounts := ((List.range (tt.dims.getD m 0)).foldl scan_body (mk.1, 0)).1
    ((List.range tt.nnz).foldlM (relabel_body scounts dim_size)
        (List.replicate dim_size 0, tt.ind.getD m [])).map
      (fun r => ({ tt with dims := tt.dims.set m dim_size, ind := tt.ind.set m r.2,
                           indmap := tt.indmap.set m (some r.1) }, nremoved))

/-- The function `tt_remove_empty`: the tensor afterwards and the returned count, or
`none` when an assertion fails. -/
def tt_remove_empty (tt : splatt_coo) : Option (splatt_coo × Nat) :=
  (List.range tt.nmodes).foldlM (empty_body (max_dim tt)) (tt, 0)

/-! ## `tt_unfold` -/

/-- The CSR matrix `spmatrix_t`: `I` rows, `J` columns. -/
structure spmatrix_t where
  I : Nat
  J : Nat
  nnz : Nat
  rowptr : List Nat
  colind : List Nat
  vals : List ℚ
deriving DecidableEq, Repr

/-- Modelled from the spec: `spmat_alloc(nrows, ncols, nnz)`, whose source file is
not among the sources: a CSR matrix of the given shape with a row pointer array of
`nrows + 1` entries and `nnz` column indices and values. -/
def spmat_alloc (nrows ncols nnz : Nat) : spmatrix_t :=
  { I := nrows, J := ncols, nnz := nnz, rowptr := List.replicate (nrows + 1) 0,
    colind := List.replicate nnz 0, vals := List.replicate nnz 0 }

/-- The column count computed by the first loop of `tt_unfold`. -/
def unfold_ncols (tt : splatt_coo) (mode : Nat) : Nat :=
  (List.range' 1 (tt.nmodes - 1)).foldl
    (fun ncols m => (ncols * tt.dims.getD ((mode + m) % tt.nmodes) 0) % idx_mod) 1

/-- One step of the column loop of `tt_unfold` for nonzero `n`; the state is
`col` and `mult`. -/
def col_body (tt : splatt_coo) (mode n : Nat) (st : Nat × Nat) (m : Nat) : Nat × Nat :=
  let off := tt.nmodes - 1 - m
  if off = mode then st
  else ((st.1 + (rd tt.ind off n * st.2) % idx_mod) % idx_mod,
        (st.2 * tt.dims.getD off 0) % idx_mod)

/-- The column index `tt_unfold` computes for nonzero `n`. -/
def unfold_col (tt : splatt_coo) (mode n : Nat) : Nat :=
  ((List.range tt.nmodes).foldl (col_body tt mode n) (0, 1)).1

/-- The loop `while(row <= top) rowptr[row++] = n`, run for at most `fuel` steps;
the state is `rowptr` and `row`. -/
def fill_rows : Nat → List Nat × Nat → Nat → Nat → List Nat × Nat
  | 0, st, _, _ => st
  | fuel + 1, st, top, n =>
    if st.2 ≤ top then fill_rows fuel (st.1.set st.2 n, st.2 + 1) top n else st

/-- One iteration of the loop over the nonzeros in `tt_unfold`; the state is the
matrix and `row`. The inner `while` gets `top + 1` steps of fuel, which always
suffice (`fill_rows_exit`). -/
def unfold_body (tt : splatt_coo) (mode : Nat) (st : spmatrix_t × Nat) (n : Nat) :
    spmatrix_t × Nat :=
  let top := rd tt.ind mode n
  let rr := fill_rows (top + 1) (st.1.rowptr, st.2) top n
  ({ st.1 with rowptr := rr.1, vals := st.1.vals.set n (tt.vals.getD n 0),
               colind := st.1.colind.set n (unfold_col tt mode n) }, rr.2)

/-- The function `tt_unfold`: the tensor afterwards (sorted) and the matrix. -/
def tt_unfold (tt : splatt_coo) (mode : Nat) : splatt_coo × spmatrix_t :=
  let nrows := tt.dims.getD mode 0
  let ncols := unfold_ncols tt mode
  let tt := tt_sort tt mode
  let mat := spmat_alloc nrows ncols tt.nnz
  let st := (List.range tt.nnz).foldl (unfold_body tt mode) (mat, 0)
  let rowptr := (List.range' st.2 (nrows + 1 - st.2)).foldl (fun rp r => rp.set r tt.nnz) st.1.rowptr
  (tt, { st.1 with rowptr := rowptr })

/-! ## `coo_frobsq`, `tt_get_slices`, `tt_get_hist` -/

/-- The function `coo_frobsq`: the squares of the values, accumulated from 0 (the
reduction of the parallel loop, in exact arithmetic). -/
def coo_frobsq (tensor : splatt_coo) : ℚ :=
  (List.range tensor.nnz).foldl
    (fun norm n => norm + tensor.vals.getD n 0 * tensor.vals.getD n 0) 0

/-- Modelled from the spec: the macro `SS_MIN`, the smaller of two values; the
header defining it is not among the sources. -/
def SS_MIN (x y : Nat) : Nat := if x < y then x else y

/-- Modelled from the spec: the macro `SS_MAX`, the larger of two values; the
header defining it is not among the sources. -/
def SS_MAX (x y : Nat) : Nat := if x > y then x else y

/-- One step of the first loop of `tt_get_slices`; the state is `minidx` and
`maxidx`. -/
def minmax_body (inds : List Nat) (st : Nat × Nat) (n : Nat) : Nat × Nat :=
  (SS_MIN st.1 (inds.getD n 0), SS_MAX st.2 (inds.getD n 0))

/-- One step of the marking loop of `tt_get_slices`; the state is `slice_mkrs` and
`found`. The result is `none` when `assert(inds[n] >= minidx)` fails. -/
def slice_mark_body (inds : List Nat) (minidx : Nat) (st : List Nat × Nat) (n : Nat) :
    Option (List Nat × Nat) :=
  if inds.getD n 0 ≥ minidx then
    let idx := inds.getD n 0 - minidx
    if st.1.getD idx 0 = 0 then some (st.1.set idx 1, st.2 + 1) else some st
  else none

/-- One step of the copying loop of `tt_get_slices`; the state is `slices` and
`ptr`. -/
def slice_copy_body (slice_mkrs : List Nat) (minidx : Nat) (st : List Nat × Nat) (i : Nat) :
    List Nat × Nat :=
  if slice_mkrs.getD i 0 = 1 then (st.1.set st.2 ((i + minidx) % idx_mod), st.2 + 1) else st

/-- The function `tt_get_slices`: the returned array and `*nunique`, or `none` when
the assertion fails. -/
def tt_get_slices (tt : splatt_coo) (m : Nat) : Option (List Nat × Nat) :=
  let nnz := tt.nnz
  let inds := tt.ind.getD m []
  let mm := (List.range nnz).foldl (minmax_body inds) (tt.dims.getD m 0, 0)
  let minidx := mm.1
  let maxidx := mm.2
  let maxrange := ((1 + maxidx) % idx_mod + idx_mod - minidx) % idx_mod
  ((List.range nnz).foldlM (slice_mark_body inds minidx) (List.replicate maxrange 0, 0)).map
    (fun mk =>
      let found := mk.2
      let cp := (List.range maxrange).foldl (slice_copy_body mk.1 minidx)
        (List.replicate found 0, 0)
      (cp.1, found))

/-- The function `tt_get_hist` (the atomic increments of the parallel loop, one
after the other). -/
def tt_get_hist (tt : splatt_coo) (mode : Nat) : List Nat :=
  (List.range tt.nnz).foldl
    (fun hist x => hist.set (rd tt.ind mode x) (hist.getD (rd tt.ind mode x) 0 + 1))
    (List.replicate (tt.dims.getD mode 0) 0)

/-! ## `tt_fill` and `tt_free` -/

/-- The inner loop of `tt_fill` for mode `m`, at loop counter `i`. -/
def fill_body (inds : List (List Nat)) (m : Nat) (tt : splatt_coo) (i : Nat) : splatt_coo :=
  { tt with dims := tt.dims.set m (SS_MAX (tt.dims.getD m 0) ((1 + rd inds m i) % idx_mod)) }

/-- The body of the loop over the modes in `tt_fill`. -/
def fill_mode (inds : List (List Nat)) (nnz : Nat) (tt : splatt_coo) (m : Nat) : splatt_coo :=
  let tt := { tt with indmap := tt.indmap.set m none }
  let tt := { tt with dims := tt.dims.set m ((1 + rd inds m 0) % idx_mod) }
  (List.range' 1 (nnz - 1)).foldl (fill_body inds m) tt

/-- The function `tt_fill`: the tensor `tt` after it has been given `nnz` nonzeros in
`nmodes` modes with the index arrays `inds` and the values `vals`; `dims` is a fresh
array of `nmodes` entries. -/
def tt_fill (tt : splatt_coo) (nnz nmodes : Nat) (inds : List (List Nat)) (vals : List ℚ) :
    splatt_coo :=
  let tt := { tt with
    tiled := splatt_tile_type.SPLATT_NOTILE, nnz := nnz, vals := vals, ind := inds,
    nmodes := nmodes, dims := List.replicate nmodes 0 }
  (List.range nmodes).foldl (fill_mode inds nnz) tt

/-- A pointer to a tensor: the object it points to and whether that object is still
allocated. -/
structure tt_ref where
  live : Bool
  obj : splatt_coo
deriving DecidableEq, Repr

/-- The function `tt_free`: it zeroes `nnz` and `nmodes`, releases every array of
the tensor and the tensor itself; nothing may be read through the pointer afterwards. -/
def tt_free (tt : tt_ref) : tt_ref :=
  { live := false, obj := { tt.obj with nnz := 0, nmodes := 0 } }

/-! ## `splatt_tucker_cmd` -/

/-- Modelled from the spec: "Exit status: 0 on success", the value of `EXIT_SUCCESS`. -/
def EXIT_SUCCESS : Int := 0

/-- Modelled from the spec: "nonzero on parse, I/O, or numerical failure", the value
of `EXIT_FAILURE`. -/
def EXIT_FAILURE : Int := 1

/-- What `splatt_tucker_cmd` meets outside itself, after its arguments are parsed:
the outcome of the calls it makes to functions that are not among the sources, and
the fields of `args`. -/
structure tucker_env where
  /-- The result of `tt_read(args.ifname)`; `none` is `NULL`. -/
  read_result : Option splatt_coo
  /-- Whether `which_verb >= SPLATT_VERBOSITY_LOW`. -/
  verbose : Bool
  /-- The value of `args.nfactors`. -/
  nfactors : Nat
  /-- The value of the constant `SPLATT_SUCCESS`. -/
  SPLATT_SUCCESS : Int
  /-- The value returned by `splatt_tucker_hooi`. -/
  hooi_ret : Int
  /-- The value of `args.write`. -/
  write : Int

/-- The calls `splatt_tucker_cmd` makes, in order. `vec_write len` writes `len`
values to `core.mat`; `mat_write k I J rowmajor` writes a matrix with `I` rows and
`J` columns to `mode<k>.mat`. -/
inductive tucker_event where
  | print_header
  | tt_read
  | stats_tt
  | splatt_tucker_hooi (nfactors : List Nat) (nmodes : Nat)
  | fprintf_stderr
  | tt_free
  | vec_write (len : Nat)
  | mat_write (k I J rowmajor : Nat)
  | splatt_free_tucker
  | free_opts
deriving DecidableEq, Repr

/-- How a run of `splatt_tucker_cmd` ends: it returns a status, or it reads through
the tensor pointer after `tt_free` has released the tensor, from where on the run has
no defined behaviour and no defined return value. -/
inductive tucker_outcome where
  | returned (status : Int)
  | undefined
deriving DecidableEq, Repr

/-- The read `tt->dims[m]` through the pointer `tt`: it has a value only while the
tensor is allocated; through a freed pointer the read is undefined (`none`). -/
def read_dims (tt : tt_ref) (m : Nat) : Option Nat :=
  if tt.live then some (tt.obj.dims.getD m 0) else none

/-- One step of the loop filling `nfactors`; the state is `core_size` and
`nfactors`. -/
def core_body (env : tucker_env) (st : Nat × List Nat) (m : Nat) : Nat × List Nat :=
  ((st.1 * env.nfactors) % idx_mod, st.2.set m env.nfactors)

/-- One iteration of the loop that writes the factor matrices, at mode `m`. The
state says whether the run is still defined, and lists the calls made so far. The
iteration reads `tmpmat.I = tt->dims[m]` and then calls `mat_write`; when the read is
undefined the run is undefined from there on and makes no further defined call. -/
def write_body (tt : tt_ref) (nfactors : List Nat) (st : Bool × List tucker_event) (m : Nat) :
    Bool × List tucker_event :=
  if st.1 then
    match read_dims tt m with
    | some I => (true, st.2 ++ [tucker_event.mat_write (m + 1) I (nfactors.getD m 0) 1])
    | none => (false, st.2)
  else st

/-- The function `splatt_tucker_cmd` from `print_header()` on: how the run ends and
the calls it made up to there. -/
def splatt_tucker_cmd (env : tucker_env) : tucker_outcome × List tucker_event :=
  let ev := [tucker_event.print_header, tucker_event.tt_read]
  match env.read_result with
  | none => (tucker_outcome.returned EXIT_FAILURE, ev)
  | some t =>
    let tt : tt_ref := { live := true, obj := t }
    let ev := if env.verbose then ev ++ [tucker_event.stats_tt] else ev
    let st := (List.range tt.obj.nmodes).foldl (core_body env) (1, List.replicate MAX_NMODES 0)
    let core_size := st.1
    let nfactors := st.2
    let ev := ev ++ [tucker_event.splatt_tucker_hooi nfactors tt.obj.nmodes]
    if env.hooi_ret ≠ env.SPLATT_SUCCESS then
      (tucker_outcome.returned EXIT_FAILURE, ev ++ [tucker_event.fprintf_stderr])
    else
      let nmodes := tt.obj.nmodes
      let tt := tt_free tt
      let ev := ev ++ [tucker_event.tt_free]
      let ws :=
        if env.write = 1 then
          (List.range nmodes).foldl (write_body tt nfactors)
            (true, ev ++ [tucker_event.vec_write core_size])
        else (true, ev)
      if ws.1 then
        (tucker_outcome.returned EXIT_SUCCESS,
          ws.2 ++ [tucker_event.splatt_free_tucker, tucker_event.free_opts])
      else (tucker_outcome.undefined, ws.2)


/-! ## Rebuilding a coordinate tensor from an unfolding

The inverse of the unfolding is not part of the sources; it follows the words of the
specification: the row of an entry is read off `rowptr`, the other indices come from
the column by "the inverse mixed-radix encoding", successive `mod`/`div` by `dims[k]`
for `k = nmodes-1` down to `0`, skipping `mode`. -/

/-- The row of the CSR entry at position `p`: the number of rows that end at or
before `p`. -/
def csr_row (mat : spmatrix_t) (p : Nat) : Nat :=
  (List.range mat.I).countP (fun r => decide (mat.rowptr.getD (r + 1) 0 ≤ p))

/-- One step of the inverse mixed-radix encoding; the state is what is left of the
column and the coordinate being filled in. -/
def decode_body (dims : List Nat) (nmodes mode : Nat) (st : Nat × List Nat) (m : Nat) :
    Nat × List Nat :=
  let off := nmodes - 1 - m
  if off = mode then st
  else (st.1 / dims.getD off 0, st.2.set off (st.1 % dims.getD off 0))

/-- The coordinate of the matrix entry `(row, col)` of the unfolding along `mode`. -/
def decode_coord (dims : List Nat) (nmodes mode row col : Nat) : List Nat :=
  ((List.range nmodes).foldl (decode_body dims nmodes mode)
    (col, (List.replicate nmodes 0).set mode row)).2

/-- The (coordinate, value) pairs rebuilt from the unfolding `mat` along `mode`. -/
def rebuild (dims : List Nat) (nmodes mode : Nat) (mat : spmatrix_t) : List (List Nat × ℚ) :=
  (List.range mat.nnz).map (fun p =>
    (decode_coord dims nmodes mode (csr_row mat p) (mat.colind.getD p 0), mat.vals.getD p 0))

/-! ## The predictor of `completion.c` -/

/-- The factor model `tc_model`: `factors[m]` is a `dims[m] × rank` row-major matrix. -/
structure tc_model where
  rank : Nat
  nmodes : Nat
  dims : List Nat
  factors : List (List ℚ)
deriving DecidableEq, Repr

/-- The read `model->factors[m][x]`. -/
def fac (model : tc_model) (m x : Nat) : ℚ := (model.factors.getD m []).getD x 0

/-- The statements of `p_predict_val3` after its assertion: the three-way pointwise
product of the rows `i`, `j`, `k` of the three factors, summed over the rank. -/
def p_predict_val3_body (model : tc_model) (test : splatt_coo) (index : Nat) : ℚ :=
  let nfactors := model.rank
  let i := rd test.ind 0 index
  let j := rd test.ind 1 index
  let k := rd test.ind 2 index
  (List.range nfactors).foldl
    (fun est f => est + fac model 0 (i * nfactors + f) * fac model 1 (j * nfactors + f) *
      fac model 2 (k * nfactors + f)) 0

/-- The function `p_predict_val3`: it starts with `assert(test->nmodes == 0)` and is
`none` when that assertion fails. -/
def p_predict_val3 (model : tc_model) (test : splatt_coo) (index : Nat) : Option ℚ :=
  if test.nmodes = 0 then some (p_predict_val3_body model test index) else none

/-- The general path of `tc_predict_val`, the statements after the dispatch on
`test->nmodes == 3`: the scratch `buffer` is initialised from the row of the mode-0
factor, multiplied pointwise by the row of each later factor, and summed. -/
def tc_predict_val_loop (model : tc_model) (test : splatt_coo) (index : Nat)
    (buffer : List ℚ) : ℚ :=
  let nfactors := model.rank
  let row_id := rd test.ind 0 index
  let buffer := (List.range nfactors).foldl
    (fun buf f => buf.set f (fac model 0 (row_id * nfactors + f))) buffer
  let nmodes := model.nmodes
  let buffer := (List.range' 1 (nmodes - 1)).foldl
    (fun buf m =>
      let row_id := rd test.ind m index
      (List.range nfactors).foldl
        (fun buf f => buf.set f (buf.getD f 0 * fac model m (row_id * nfactors + f))) buf)
    buffer
  (List.range nfactors).foldl (fun est f => est + buffer.getD f 0) 0

/-- The function `tc_predict_val` with scratch space `buffer`; `none` when an
assertion fails. -/
def tc_predict_val (model : tc_model) (test : splatt_coo) (index : Nat) (buffer : List ℚ) :
    Option ℚ :=
  if test.nmodes = 3 then p_predict_val3 model test index
  else some (tc_predict_val_loop model test index buffer)

/-! ## Auxiliary definitions for the proofs

Closed forms of what the loops compute, and the predicates their invariants use. -/

/-- The index arrays are `K` arrays of `N` entries each. -/
def ishape (ind : List (List Nat)) (K N : Nat) : Prop :=
  ind.length = K ∧ ∀ m < K, (ind.getD m []).length = N

/-- The state of the scan of `tt_remove_dups` keeps the sizes of the arrays. -/
def dups_ok (K N : Nat) (tt : splatt_coo) : Prop :=
  tt.nmodes = K ∧ ishape tt.ind K N ∧ tt.vals.length = N

/-- The set of the first `n` entries of an index array. -/
def seen (indm : List Nat) (n : Nat) : Finset Nat :=
  (Finset.range n).image (fun k => indm.getD k 0)

/-- The number of members of `S` below `i`: the compacted label of slice `i`. -/
def slice_rank (S : Finset Nat) (i : Nat) : Nat := ((Finset.range i).filter (fun j => j ∈ S)).card

/-- What `tt_remove_empty` leaves in mode `m`, in terms of the tensor `tt` before the
call: `d`, `i` and `im` are the entries of `dims`, `ind` and `indmap` afterwards. -/
def mode_post (tt : splatt_coo) (m : Nat) (d : Option Nat) (i : Option (List Nat))
    (im : Option (Option (List Nat))) : Prop :=
  d = some (seen (tt.ind.getD m []) tt.nnz).card ∧
  ((seen (tt.ind.getD m []) tt.nnz).card = tt.dims.getD m 0 →
    i = some (tt.ind.getD m []) ∧ im = some none) ∧
  ((seen (tt.ind.getD m []) tt.nnz).card ≠ tt.dims.getD m 0 →
    i = some ((tt.ind.getD m []).map (slice_rank (seen (tt.ind.getD m []) tt.nnz))) ∧
    ∃ imap, im = some (some imap) ∧ imap.length = (seen (tt.ind.getD m []) tt.nnz).card ∧
      ∀ g ∈ seen (tt.ind.getD m []) tt.nnz,
        imap.getD (slice_rank (seen (tt.ind.getD m []) tt.nnz) g) 0 = g)

/-- The value of `nremoved` after the first `t` modes. -/
def removed_upto (tt : splatt_coo) : Nat → Nat
  | 0 => 0
  | t + 1 =>
    if (seen (tt.ind.getD t []) tt.nnz).card = tt.dims.getD t 0 then removed_upto tt t
    else (removed_upto tt t +
      (tt.dims.getD t 0 + idx_mod - (seen (tt.ind.getD t []) tt.nnz).card) % idx_mod) % idx_mod

/-- The value of `dims[m]` in `tt_fill` after the inner loop has reached the loop
counter `k` (and before it: the initial `1 + inds[m][0]`). -/
def fill_dim (inds : List (List Nat)) (m : Nat) : Nat → Nat
  | 0 => (1 + rd inds m 0) % idx_mod
  | k + 1 => SS_MAX (fill_dim inds m k) ((1 + rd inds m (k + 1)) % idx_mod)

/-- The number of nonzeros whose index in `mode` is below `r`. -/
def row_start (tt : splatt_coo) (mode r : Nat) : Nat :=
  ((Finset.range tt.nnz).filter (fun p => rd tt.ind mode p < r)).card

/-- `mult` after `t` steps of the column loop of `tt_unfold`, without wrap-around. -/
def mult_upto (tt : splatt_coo) (mode : Nat) : Nat → Nat
  | 0 => 1
  | t + 1 =>
    if tt.nmodes - 1 - t = mode then mult_upto tt mode t
    else mult_upto tt mode t * tt.dims.getD (tt.nmodes - 1 - t) 0

/-- `col` after `t` steps of the column loop of `tt_unfold`, without wrap-around. -/
def col_upto (tt : splatt_coo) (mode n : Nat) : Nat → Nat
  | 0 => 0
  | t + 1 =>
    if tt.nmodes - 1 - t = mode then col_upto tt mode n t
    else col_upto tt mode n t + rd tt.ind (tt.nmodes - 1 - t) n * mult_upto tt mode t

/-- The mixed-radix number formed by the indices of nonzero `n` in the modes below
`k` other than `mode`, the highest of these modes least significant. -/
def col_high (tt : splatt_coo) (mode n : Nat) : Nat → Nat
  | 0 => 0
  | k + 1 =>
    if k = mode then col_high tt mode n k
    else rd tt.ind k n + tt.dims.getD k 0 * col_high tt mode n k

/-- Merging a run-length scan: `cur` is the entry being accumulated, the list holds
the entries still to be read. Equal neighbours are merged and their values added. -/
def collapse_from : List (List Nat × ℚ) → List Nat × ℚ → List (List Nat × ℚ)
  | [], cur => [cur]
  | e :: rest, cur =>
    if cur.1 = e.1 then collapse_from rest (cur.1, cur.2 + e.2)
    else cur :: collapse_from rest e

/-! ## Example inputs -/

/-- The tensor of spec scenario 4. -/
def dup_example : splatt_coo :=
  { nmodes := 3, dims := [2, 1, 1], nnz := 3,
    ind := [[0, 0, 1], [0, 0, 0], [0, 0, 0]], vals := [1, 5/2, 4], indmap := [none, none, none] }

/-- The tensor of spec scenario 5. -/
def empty_example : splatt_coo :=
  { nmodes := 2, dims := [10, 10], nnz := 4,
    ind := [[5, 2, 7, 5], [0, 1, 0, 3]], vals := [1, 2, 3, 4], indmap := [none, none] }

/-- The tensor that `tt_remove_empty` makes of `empty_example`. -/
def compacted_example : splatt_coo :=
  { nmodes := 2, dims := [3, 3], nnz := 4,
    ind := [[1, 0, 2, 1], [0, 1, 0, 2]], vals := [1, 2, 3, 4],
    indmap := [some [2, 5, 7], some [0, 1, 3]] }


/-- The tensor of spec scenario 6, `T[i,j,k] = 4i+2j+k`, stored in a scrambled order. -/
def unfold_example : splatt_coo :=
  { nmodes := 3, dims := [2, 2, 2], nnz := 8,
    ind := [[1, 0, 1, 0, 1, 0, 1, 0], [1, 1, 0, 0, 1, 1, 0, 0], [1, 1, 1, 1, 0, 0, 0, 0]],
    vals := [7, 3, 5, 1, 6, 2, 4, 0], indmap := [none, none, none] }

/-- A tensor with empty slices in mode 0 (rows 2, 3 and 4 of its unfolding). -/
def sparse_example : splatt_coo :=
  { nmodes := 3, dims := [5, 2, 2], nnz := 5,
    ind := [[1, 0, 1, 0, 1], [1, 1, 0, 0, 1], [1, 1, 1, 1, 0]],
    vals := [7, 3, 5, 1, 6], indmap := [none, none, none] }

/-- A tensor whose unfolding along mode 0 has `2 ^ 65` columns. -/
def wide_example : splatt_coo :=
  { nmodes := 3, dims := [1, 2 ^ 33, 2 ^ 32], nnz := 2,
    ind := [[0, 0], [0, 2 ^ 32], [0, 0]], vals := [1, 2], indmap := [none, none, none] }

/-- A tensor without nonzeros. -/
def zero_example : splatt_coo :=
  { nmodes := 3, dims := [2, 1, 1], nnz := 0, ind := [[], [], []], vals := [],
    indmap := [none, none, none] }

/-- A run of the Tucker command on `dup_example` with rank 2, writing enabled and a
successful HOOI. -/
def tucker_example : tucker_env :=
  { read_result := some dup_example, verbose := false, nfactors := 2, SPLATT_SUCCESS := 1,
    hooi_ret := 1, write := 1 }

/-- Index arrays of one nonzero in one mode whose index is the largest `idx_t`. -/
def top_index_example : List (List Nat) := [[2 ^ 64 - 1]]


/-- A rank-2 model with three modes. -/
def model_example : tc_model :=
  { rank := 2, nmodes := 3, dims := [2, 1, 1], factors := [[1, 2, 3, 4], [5, 6], [7, 8]] }

/-! ## Reading and writing arrays -/

theorem getD_set_nat (l : List Nat) (i j v : Nat) (h : i < l.length) :
    (l.set i v).getD j 0 = if j = i then v else l.getD j 0 := by
  simp only [List.getD_eq_getElem?_getD, List.getElem?_set, h, if_true]
  by_cases hij : i = j
  · subst hij; simp
  · have : ¬ j = i := fun e => hij e.symm
    simp [hij, this]

theorem getD_set_rat (l : List ℚ) (i j : Nat) (v : ℚ) (h : i < l.length) :
    (l.set i v).getD j 0 = if j = i then v else l.getD j 0 := by
  simp only [List.getD_eq_getElem?_getD, List.getElem?_set, h, if_true]
  by_cases hij : i = j
  · subst hij; simp
  · have : ¬ j = i := fun e => hij e.symm
    simp [hij, this]

theorem wr_ishape {ind : List (List Nat)} {K N : Nat} (h : ishape ind K N) (m n v : Nat) :
    ishape (wr ind m n v) K N := by
  obtain ⟨h1, h2⟩ := h
  refine ⟨by simp [wr, h1], fun m' hm' => ?_⟩
  unfold wr
  simp only [List.getD_eq_getElem?_getD, List.getElem?_set]
  by_cases hm : m = m'
  · subst hm
    have := h2 m hm'
    have hlt : m < ind.length := by omega
    simp only [List.getD_eq_getElem?_getD, List.getElem?_eq_getElem hlt] at this
    simpa [h1, hm'] using this
  · simp only [hm, if_false]
    have := h2 m' hm'
    simpa only [List.getD_eq_getElem?_getD] using this

theorem rd_wr {ind : List (List Nat)} {K N : Nat} (h : ishape ind K N) (m n v m' n' : Nat)
    (hm : m < K) (hn : n < N) :
    rd (wr ind m n v) m' n' = if m' = m ∧ n' = n then v else rd ind m' n' := by
  obtain ⟨h1, h2⟩ := h
  unfold rd wr
  by_cases hmm : m = m'
  · subst hmm
    have hl : (ind.getD m []).length = N := h2 m hm
    have : (ind.set m ((ind.getD m []).set n v)).getD m [] = (ind.getD m []).set n v := by
      simp [List.getD_eq_getElem?_getD, List.getElem?_set, h1, hm]
    rw [this, getD_set_nat _ _ _ _ (by omega)]
    simp
  · have : (ind.set m ((ind.getD m []).set n v)).getD m' [] = ind.getD m' [] := by
      simp [List.getD_eq_getElem?_getD, List.getElem?_set, hmm]
    rw [this]
    have : ¬ m' = m := fun e => hmm e.symm
    simp [this]

/-- The loop copying nonzero `src` onto position `tgt` in the first `K'` modes. -/
theorem copy_loop {K N : Nat} (tgt src : Nat) (htgt : tgt < N) (K' : Nat) :
    ∀ (ind : List (List Nat)), ishape ind K N → K' ≤ K →
      ishape ((List.range K').foldl (fun ind m => wr ind m tgt (rd ind m src)) ind) K N ∧
      ∀ m p, rd ((List.range K').foldl (fun ind m => wr ind m tgt (rd ind m src)) ind) m p =
        if m < K' ∧ p = tgt then rd ind m src else rd ind m p := by
  induction K' with
  | zero => intro ind h _; exact ⟨h, by simp⟩
  | succ k ih =>
    intro ind h hk
    obtain ⟨ih1, ih2⟩ := ih ind h (by omega)
    rw [List.range_succ, List.foldl_append]
    simp only [List.foldl_cons, List.foldl_nil]
    refine ⟨wr_ishape ih1 _ _ _, fun m p => ?_⟩
    rw [rd_wr ih1 k tgt _ m p (by omega) htgt, ih2 k src, ih2 m p]
    by_cases hmk : m = k
    · subst hmk
      by_cases hp : p = tgt <;> simp [hp]
    · by_cases hp : p = tgt
      · have : (m < k + 1) = (m < k) := by
          apply propext; constructor <;> intro h' <;> omega
        simp [hmk, hp, this]
      · simp [hmk, hp]

/-! ## Lexicographic order -/

theorem lex_le_refl : ∀ a : List Nat, lex_le a a = true
  | [] => rfl
  | a :: as => by simp [lex_le, lex_le_refl as]

theorem lex_le_total : ∀ a b : List Nat, lex_le a b = true ∨ lex_le b a = true
  | [], _ => Or.inl rfl
  | _ :: _, [] => Or.inr rfl
  | a :: as, b :: bs => by
    simp only [lex_le, Bool.or_eq_true, decide_eq_true_eq, Bool.and_eq_true, beq_iff_eq]
    rcases Nat.lt_trichotomy a b with h | h | h
    · exact Or.inl (Or.inl h)
    · rcases lex_le_total as bs with h' | h'
      · exact Or.inl (Or.inr ⟨h, h'⟩)
      · exact Or.inr (Or.inr ⟨h.symm, h'⟩)
    · exact Or.inr (Or.inl h)

theorem lex_le_trans : ∀ a b c : List Nat, lex_le a b = true → lex_le b c = true →
    lex_le a c = true
  | [], _, _ => fun _ _ => rfl
  | _ :: _, [], _ => fun h _ => by simp [lex_le] at h
  | _ :: _, _ :: _, [] => fun _ h => by simp [lex_le] at h
  | a :: as, b :: bs, c :: cs => by
    simp only [lex_le, Bool.or_eq_true, decide_eq_true_eq, Bool.and_eq_true, beq_iff_eq]
    intro h1 h2
    rcases h1 with h1 | ⟨h1, h1'⟩
    · rcases h2 with h2 | ⟨h2, _⟩
      · exact Or.inl (by omega)
      · exact Or.inl (by omega)
    · rcases h2 with h2 | ⟨h2, h2'⟩
      · exact Or.inl (by omega)
      · exact Or.inr ⟨by omega, lex_le_trans as bs cs h1' h2'⟩

theorem lex_le_antisymm : ∀ a b : List Nat, lex_le a b = true → lex_le b a = true → a = b
  | [], [] => fun _ _ => rfl
  | [], _ :: _ => fun _ h => by simp [lex_le] at h
  | _ :: _, [] => fun h _ => by simp [lex_le] at h
  | a :: as, b :: bs => by
    simp only [lex_le, Bool.or_eq_true, decide_eq_true_eq, Bool.and_eq_true, beq_iff_eq]
    intro h1 h2
    rcases h1 with h1 | ⟨h1, h1'⟩
    · rcases h2 with h2 | ⟨h2, _⟩ <;> omega
    · rcases h2 with h2 | ⟨_, h2'⟩
      · omega
      · rw [h1, lex_le_antisymm as bs h1' h2']

/-! ## The sort -/

theorem map_getD_range {β : Type} (l : List Nat) (f : Nat → β) :
    (List.range l.length).map (fun i => f (l.getD i 0)) = l.map f := by
  apply List.ext_getElem
  · simp
  · intro n h1 h2
    simp only [List.length_map] at h2
    simp [List.getElem?_eq_getElem h2]

theorem length_sort_perm (tt : splatt_coo) (mode : Nat) :
    (sort_perm tt mode).length = tt.nnz := by
  simp [sort_perm, List.length_insertionSort]

theorem sort_perm_perm (tt : splatt_coo) (mode : Nat) :
    (sort_perm tt mode).Perm (List.range tt.nnz) :=
  List.perm_insertionSort _ _

theorem tt_sort_ishape (tt : splatt_coo) (mode : Nat) :
    ishape (tt_sort tt mode).ind tt.nmodes tt.nnz := by
  refine ⟨by simp [tt_sort], fun m hm => ?_⟩
  simp [tt_sort, List.getD_eq_getElem?_getD, hm, length_sort_perm]

theorem tt_sort_vals_length (tt : splatt_coo) (mode : Nat) :
    (tt_sort tt mode).vals.length = tt.nnz := by
  simp [tt_sort, length_sort_perm]

theorem rd_tt_sort (tt : splatt_coo) (mode m i : Nat) (hm : m < tt.nmodes) (hi : i < tt.nnz) :
    rd (tt_sort tt mode).ind m i = rd tt.ind m ((sort_perm tt mode).getD i 0) := by
  have hl := length_sort_perm tt mode
  simp [tt_sort, rd, List.getD_eq_getElem?_getD, hm, List.getElem?_eq_getElem (hl ▸ hi)]

theorem entry_tt_sort (tt : splatt_coo) (mode i : Nat) (hi : i < tt.nnz) :
    entry (tt_sort tt mode) i = entry tt ((sort_perm tt mode).getD i 0) := by
  have hl := length_sort_perm tt mode
  unfold entry coord
  congr 1
  · apply List.map_congr_left
    intro m hm
    exact rd_tt_sort tt mode m i (List.mem_range.mp hm) hi
  · simp [tt_sort, List.getD_eq_getElem?_getD, List.getElem?_eq_getElem (hl ▸ hi)]

theorem entries_tt_sort (tt : splatt_coo) (mode : Nat) :
    entries (tt_sort tt mode) = (sort_perm tt mode).map (entry tt) := by
  rw [← map_getD_range (sort_perm tt mode) (entry tt), length_sort_perm]
  unfold entries
  apply List.map_congr_left
  intro i hi
  exact entry_tt_sort tt mode i (List.mem_range.mp hi)

theorem entries_tt_sort_perm (tt : splatt_coo) (mode : Nat) :
    (entries (tt_sort tt mode)).Perm (entries tt) := by
  rw [entries_tt_sort]
  exact (sort_perm_perm tt mode).map _

theorem sort_key_zero (tt : splatt_coo) (n : Nat) : sort_key tt 0 n = coord tt n := by
  unfold sort_key coord
  apply List.map_congr_left
  intro m hm
  simp [Nat.mod_eq_of_lt (List.mem_range.mp hm)]

instance lex_key_total (f : Nat → List Nat) :
    IsTotal Nat (fun a b => lex_le (f a) (f b) = true) :=
  ⟨fun a b => lex_le_total (f a) (f b)⟩

instance lex_key_trans (f : Nat → List Nat) :
    IsTrans Nat (fun a b => lex_le (f a) (f b) = true) :=
  ⟨fun a b c => lex_le_trans (f a) (f b) (f c)⟩

theorem sort_perm_sorted (tt : splatt_coo) (mode : Nat) :
    (sort_perm tt mode).Pairwise
      (fun a b => lex_le (sort_key tt mode a) (sort_key tt mode b) = true) :=
  List.sorted_insertionSort (fun a b => lex_le (sort_key tt mode a) (sort_key tt mode b) = true) _

theorem entries_tt_sort_sorted (tt : splatt_coo) :
    ((entries (tt_sort tt 0)).map Prod.fst).Pairwise (fun a b => lex_le a b = true) := by
  rw [entries_tt_sort, List.map_map, List.pairwise_map]
  have := sort_perm_sorted tt 0
  simp only [sort_key_zero] at this
  exact this

/-! ## The scan of `tt_remove_dups` -/

theorem p_same_coord_iff (tt : splatt_coo) (i j : Nat) :
    p_same_coord tt i j = true ↔ coord tt i = coord tt j := by
  unfold p_same_coord coord
  by_cases h3 : tt.nmodes = 3
  · simp [h3, List.range_succ, and_assoc]
  · simp only [h3, if_false, List.all_eq_true, beq_iff_eq, List.map_inj_left]

theorem tt_sort_dups_ok (tt : splatt_coo) (mode : Nat) :
    dups_ok tt.nmodes tt.nnz (tt_sort tt mode) :=
  ⟨rfl, tt_sort_ishape tt mode, tt_sort_vals_length tt mode⟩

theorem dups_body_spec {K N : Nat} (st : splatt_coo × Nat) (k : Nat) (h : dups_ok K N st.1)
    (hwk : st.2 < k) (hk : k < N) :
    dups_ok K N (dups_body K st k).1 ∧ (dups_body K st k).1.nnz = st.1.nnz ∧
    (dups_body K st k).1.dims = st.1.dims ∧ (dups_body K st k).1.indmap = st.1.indmap ∧
    ((coord st.1 st.2 = coord st.1 k ∧ (dups_body K st k).2 = st.2 ∧
        ∀ p, entry (dups_body K st k).1 p =
          if p = st.2 then (coord st.1 st.2, (entry st.1 st.2).2 + (entry st.1 k).2)
          else entry st.1 p) ∨
     (coord st.1 st.2 ≠ coord st.1 k ∧ (dups_body K st k).2 = st.2 + 1 ∧
        ∀ p, entry (dups_body K st k).1 p =
          if p = st.2 + 1 then entry st.1 k else entry st.1 p)) := by
  obtain ⟨hK, hsh, hv⟩ := h
  by_cases hs : p_same_coord st.1 st.2 k = true
  · have hc := (p_same_coord_iff _ _ _).mp hs
    have hb : dups_body K st k =
        ({ st.1 with vals := st.1.vals.set st.2 (st.1.vals.getD st.2 0 + st.1.vals.getD k 0) },
          st.2) := by
      simp [dups_body, hs]
    rw [hb]
    refine ⟨⟨hK, hsh, by simp [hv]⟩, rfl, rfl, rfl, Or.inl ⟨hc, rfl, fun p => ?_⟩⟩
    simp only [entry, coord]
    rw [getD_set_rat _ _ _ _ (by omega)]
    by_cases hp : p = st.2
    · simp [hp]
    · simp [hp]
  · have hc : coord st.1 st.2 ≠ coord st.1 k := fun e => hs ((p_same_coord_iff _ _ _).mpr e)
    have hb : dups_body K st k =
        ({ st.1 with
            ind := (List.range K).foldl (fun ind m => wr ind m (st.2 + 1) (rd ind m k)) st.1.ind
            vals := st.1.vals.set (st.2 + 1) (st.1.vals.getD k 0) }, st.2 + 1) := by
      simp [dups_body, hs]
    obtain ⟨c1, c2⟩ := copy_loop (st.2 + 1) k (by omega : st.2 + 1 < N) K st.1.ind hsh (le_refl K)
    rw [hb]
    refine ⟨⟨hK, c1, by simp [hv]⟩, rfl, rfl, rfl, Or.inr ⟨hc, rfl, fun p => ?_⟩⟩
    simp only [entry, coord]
    rw [getD_set_rat _ _ _ _ (by omega)]
    by_cases hp : p = st.2 + 1
    · simp only [hp, if_true, Prod.mk.injEq, and_true]
      apply List.map_congr_left
      intro m hm
      rw [c2]
      simp [hK ▸ List.mem_range.mp hm]
    · simp only [hp, if_false, Prod.mk.injEq, and_true]
      apply List.map_congr_left
      intro m _
      rw [c2]
      simp [hp]

theorem dups_loop {K N : Nat} : ∀ (n k : Nat) (st : splatt_coo × Nat), dups_ok K N st.1 →
    st.2 < k → k + n = N →
    dups_ok K N ((List.range' k n).foldl (dups_body K) st).1 ∧
    ((List.range' k n).foldl (dups_body K) st).1.nnz = st.1.nnz ∧
    ((List.range' k n).foldl (dups_body K) st).1.dims = st.1.dims ∧
    ((List.range' k n).foldl (dups_body K) st).1.indmap = st.1.indmap ∧
    (List.range (((List.range' k n).foldl (dups_body K) st).2 + 1)).map
        (entry ((List.range' k n).foldl (dups_body K) st).1) =
      (List.range st.2).map (entry st.1) ++
        collapse_from ((List.range' k n).map (entry st.1)) (entry st.1 st.2) := by
  intro n
  induction n with
  | zero =>
    intro k st h _ _
    refine ⟨h, rfl, rfl, rfl, ?_⟩
    simp [collapse_from, List.range_succ]
  | succ n ih =>
    intro k st h hwk hkn
    rw [List.range'_succ, List.foldl_cons]
    obtain ⟨b1, b2, b3, b4, b5⟩ := dups_body_spec st k h hwk (by omega)
    rcases b5 with ⟨hc, hw, he⟩ | ⟨hc, hw, he⟩
    · obtain ⟨i1, i2, i3, i4, i5⟩ := ih (k + 1) (dups_body K st k) b1 (by omega) (by omega)
      refine ⟨i1, i2.trans b2, i3.trans b3, i4.trans b4, ?_⟩
      rw [i5, hw]
      have e1 : (List.range st.2).map (entry (dups_body K st k).1) =
          (List.range st.2).map (entry st.1) := by
        apply List.map_congr_left
        intro p hp
        have := List.mem_range.mp hp
        rw [he, if_neg (by omega)]
      have e2 : (List.range' (k + 1) n).map (entry (dups_body K st k).1) =
          (List.range' (k + 1) n).map (entry st.1) := by
        apply List.map_congr_left
        intro p hp
        have := (List.mem_range'_1.mp hp).1
        rw [he, if_neg (by omega)]
      rw [e1, e2, he, if_pos rfl, List.map_cons, collapse_from]
      have : (entry st.1 st.2).1 = (entry st.1 k).1 := hc
      rw [if_pos this]
      rfl
    · obtain ⟨i1, i2, i3, i4, i5⟩ := ih (k + 1) (dups_body K st k) b1 (by omega) (by omega)
      refine ⟨i1, i2.trans b2, i3.trans b3, i4.trans b4, ?_⟩
      rw [i5, hw]
      have e1 : (List.range (st.2 + 1)).map (entry (dups_body K st k).1) =
          (List.range (st.2 + 1)).map (entry st.1) := by
        apply List.map_congr_left
        intro p hp
        have := List.mem_range.mp hp
        rw [he, if_neg (by omega)]
      have e2 : (List.range' (k + 1) n).map (entry (dups_body K st k).1) =
          (List.range' (k + 1) n).map (entry st.1) := by
        apply List.map_congr_left
        intro p hp
        have := (List.mem_range'_1.mp hp).1
        rw [he, if_neg (by omega)]
      rw [e1, e2, he, if_pos rfl, List.map_cons, collapse_from]
      have : ¬ (entry st.1 st.2).1 = (entry st.1 k).1 := hc
      rw [if_neg this, List.range_succ, List.map_append]
      simp

/-! ## Merging runs of equal coordinates -/

theorem vsum_cons (c : List Nat) (e : List Nat × ℚ) (es : List (List Nat × ℚ)) :
    vsum c (e :: es) = (if e.1 = c then e.2 else 0) + vsum c es := by
  unfold vsum
  by_cases h : e.1 = c <;> simp [List.filter_cons, h]

theorem vsum_collapse_from (c : List Nat) : ∀ (es : List (List Nat × ℚ)) (cur : List Nat × ℚ),
    vsum c (collapse_from es cur) = vsum c (cur :: es)
  | [], cur => by simp [collapse_from]
  | e :: rest, cur => by
    unfold collapse_from
    by_cases h : cur.1 = e.1
    · rw [if_pos h, vsum_collapse_from c rest, vsum_cons, vsum_cons, vsum_cons, ← h]
      by_cases hc : cur.1 = c <;> simp [hc, add_assoc]
    · rw [if_neg h, vsum_cons, vsum_collapse_from c rest, vsum_cons c cur]

theorem mem_collapse_from (c : List Nat) : ∀ (es : List (List Nat × ℚ)) (cur : List Nat × ℚ),
    c ∈ (collapse_from es cur).map Prod.fst ↔ c = cur.1 ∨ c ∈ es.map Prod.fst
  | [], cur => by simp [collapse_from]
  | e :: rest, cur => by
    unfold collapse_from
    by_cases h : cur.1 = e.1
    · rw [if_pos h, mem_collapse_from c rest, List.map_cons, List.mem_cons, ← h]
      simp only []
      tauto
    · rw [if_neg h, List.map_cons, List.mem_cons, mem_collapse_from c rest, List.map_cons,
        List.mem_cons]

theorem length_collapse_from : ∀ (es : List (List Nat × ℚ)) (cur : List Nat × ℚ),
    1 ≤ (collapse_from es cur).length ∧ (collapse_from es cur).length ≤ es.length + 1
  | [], cur => by simp [collapse_from]
  | e :: rest, cur => by
    unfold collapse_from
    by_cases h : cur.1 = e.1
    · rw [if_pos h]
      have := length_collapse_from rest (cur.1, cur.2 + e.2)
      simp only [List.length_cons]
      omega
    · rw [if_neg h]
      have := length_collapse_from rest e
      simp only [List.length_cons]
      omega

theorem sorted_collapse_from : ∀ (es : List (List Nat × ℚ)) (cur : List Nat × ℚ),
    (cur.1 :: es.map Prod.fst).Pairwise (fun a b => lex_le a b = true) →
    ((collapse_from es cur).map Prod.fst).Pairwise lex_lt
  | [], cur => by simp [collapse_from]
  | e :: rest, cur => by
    intro hs
    unfold collapse_from
    rw [List.map_cons, List.pairwise_cons, List.pairwise_cons] at hs
    obtain ⟨h1, h2, h3⟩ := hs
    by_cases h : cur.1 = e.1
    · rw [if_pos h]
      apply sorted_collapse_from rest
      rw [List.pairwise_cons]
      exact ⟨fun b hb => h1 b (List.mem_cons_of_mem _ hb), h3⟩
    · rw [if_neg h, List.map_cons, List.pairwise_cons]
      refine ⟨fun b hb => ?_, sorted_collapse_from rest e (List.pairwise_cons.mpr ⟨h2, h3⟩)⟩
      rcases (mem_collapse_from b rest e).mp hb with hb | hb
      · exact ⟨h1 b (by simp [hb]), by rw [hb]; exact h⟩
      · refine ⟨h1 b (List.mem_cons_of_mem _ hb), fun hcb => h ?_⟩
        apply lex_le_antisymm
        · exact h1 e.1 (List.mem_cons_self _ _)
        · rw [hcb]; exact h2 b hb

theorem nodup_of_lex_lt {l : List (List Nat)} (h : l.Pairwise lex_lt) : l.Nodup :=
  h.imp (fun hab => hab.2)

/-! ## `tt_remove_dups` as a whole -/

theorem entries_pos (tt : splatt_coo) (h : 1 ≤ tt.nnz) :
    entries tt = entry tt 0 :: (List.range' 1 (tt.nnz - 1)).map (entry tt) := by
  unfold entries
  obtain ⟨n, hn⟩ : ∃ n, tt.nnz = n + 1 := ⟨tt.nnz - 1, by omega⟩
  rw [hn, List.range_eq_range', List.range'_succ]
  simp

theorem tt_remove_dups_frame (tt : splatt_coo) (h : 1 ≤ tt.nnz) :
    (tt_remove_dups tt).1.nmodes = tt.nmodes ∧ (tt_remove_dups tt).1.dims = tt.dims ∧
    (tt_remove_dups tt).1.indmap = tt.indmap ∧
    entries (tt_remove_dups tt).1 =
      collapse_from ((List.range' 1 (tt.nnz - 1)).map (entry (tt_sort tt 0)))
        (entry (tt_sort tt 0) 0) ∧
    (tt_remove_dups tt).2 = (tt.nnz + idx_mod - (tt_remove_dups tt).1.nnz) % idx_mod := by
  have hl := dups_loop (tt.nnz - 1) 1 (tt_sort tt 0, 0) (tt_sort_dups_ok tt 0)
    (by simp) (by omega)
  obtain ⟨⟨l1, _, _⟩, l2, l3, l4, l5⟩ := hl
  have hn : (tt_sort tt 0).nnz = tt.nnz := rfl
  have hm : (tt_sort tt 0).nmodes = tt.nmodes := rfl
  refine ⟨l1, l3, l4, ?_, ?_⟩
  · simp only [List.range_zero, List.map_nil, List.nil_append] at l5
    rw [← l5]
    rfl
  · show (_ + idx_mod - _) % idx_mod = _
    rw [hn, hm, l2]
    rfl

theorem tt_remove_dups_sorted (tt : splatt_coo) (h : 1 ≤ tt.nnz) :
    ((entries (tt_remove_dups tt).1).map Prod.fst).Pairwise lex_lt := by
  rw [(tt_remove_dups_frame tt h).2.2.2.1]
  apply sorted_collapse_from
  have := entries_tt_sort_sorted tt
  rw [entries_pos (tt_sort tt 0) h, List.map_cons] at this
  exact this

theorem tt_remove_dups_mem (tt : splatt_coo) (h : 1 ≤ tt.nnz) (c : List Nat) :
    c ∈ (entries (tt_remove_dups tt).1).map Prod.fst ↔ c ∈ (entries tt).map Prod.fst := by
  rw [(tt_remove_dups_frame tt h).2.2.2.1, mem_collapse_from,
    ← ((entries_tt_sort_perm tt 0).map Prod.fst).mem_iff, entries_pos (tt_sort tt 0) h,
    List.map_cons, List.mem_cons]
  rfl

theorem vsum_perm (c : List Nat) {l₁ l₂ : List (List Nat × ℚ)} (h : l₁.Perm l₂) :
    vsum c l₁ = vsum c l₂ :=
  ((h.filter _).map _).sum_eq

theorem tt_remove_dups_vsum (tt : splatt_coo) (h : 1 ≤ tt.nnz) (c : List Nat) :
    vsum c (entries (tt_remove_dups tt).1) = vsum c (entries tt) := by
  rw [(tt_remove_dups_frame tt h).2.2.2.1, vsum_collapse_from,
    ← vsum_perm c (entries_tt_sort_perm tt 0), entries_pos (tt_sort tt 0) h]
  rfl

theorem vsum_of_nodup : ∀ (l : List (List Nat × ℚ)), (l.map Prod.fst).Nodup →
    ∀ e ∈ l, vsum e.1 l = e.2
  | [], _, e, he => by simp at he
  | a :: l, hn, e, he => by
    rw [List.map_cons, List.nodup_cons] at hn
    rw [vsum_cons]
    rcases List.mem_cons.mp he with rfl | hel
    · have : vsum e.1 l = 0 := by
        unfold vsum
        rw [List.filter_eq_nil_iff.mpr]
        · simp
        · intro x hx
          simp only [decide_eq_true_eq]
          intro hxe
          exact hn.1 (hxe ▸ List.mem_map_of_mem Prod.fst hx)
      simp [this]
    · have hne : ¬ a.1 = e.1 := fun hae => hn.1 (hae ▸ List.mem_map_of_mem Prod.fst hel)
      rw [if_neg hne, vsum_of_nodup l hn.2 e hel, zero_add]

theorem length_entries (tt : splatt_coo) : (entries tt).length = tt.nnz := by
  simp [entries]

theorem tt_remove_dups_nnz_le (tt : splatt_coo) (h : 1 ≤ tt.nnz) :
    1 ≤ (tt_remove_dups tt).1.nnz ∧ (tt_remove_dups tt).1.nnz ≤ tt.nnz := by
  rw [← length_entries (tt_remove_dups tt).1, (tt_remove_dups_frame tt h).2.2.2.1]
  have := length_collapse_from ((List.range' 1 (tt.nnz - 1)).map (entry (tt_sort tt 0)))
    (entry (tt_sort tt 0) 0)
  simp only [List.length_map, List.length_range'] at this
  omega

/-! ## Claims on `tt_remove_dups` -/

/-- C1: after `tt_remove_dups` on a tensor with at least one nonzero, two distinct
positions below the new `nnz` differ in the index of at least one mode. -/
theorem tt_remove_dups_distinct (tt : splatt_coo) (h : 1 ≤ tt.nnz) (i j : Nat)
    (hi : i < (tt_remove_dups tt).1.nnz) (hj : j < (tt_remove_dups tt).1.nnz) (hij : i ≠ j) :
    ∃ m, m < (tt_remove_dups tt).1.nmodes ∧
      rd (tt_remove_dups tt).1.ind m i ≠ rd (tt_remove_dups tt).1.ind m j := by
  have hnd := nodup_of_lex_lt (tt_remove_dups_sorted tt h)
  unfold entries at hnd
  rw [List.map_map] at hnd
  have hinj := List.inj_on_of_nodup_map hnd (List.mem_range.mpr hi) (List.mem_range.mpr hj)
  by_contra hall
  push_neg at hall
  apply hij
  apply hinj
  show coord _ i = coord _ j
  unfold coord
  apply List.map_congr_left
  intro m hm
  exact hall m (List.mem_range.mp hm)

/-- C2: after `tt_remove_dups` on a tensor with at least one nonzero, the coordinates
of the surviving entries are strictly ascending in lexicographic order, they are
exactly the coordinates occurring in the input, and each surviving value is the sum
of the values of all input entries at that coordinate. -/
theorem tt_remove_dups_sums (tt : splatt_coo) (h : 1 ≤ tt.nnz) :
    ((entries (tt_remove_dups tt).1).map Prod.fst).Pairwise lex_lt ∧
    (∀ c, c ∈ (entries (tt_remove_dups tt).1).map Prod.fst ↔ c ∈ (entries tt).map Prod.fst) ∧
    (∀ e ∈ entries (tt_remove_dups tt).1, e.2 = vsum e.1 (entries tt)) := by
  refine ⟨tt_remove_dups_sorted tt h, tt_remove_dups_mem tt h, fun e he => ?_⟩
  rw [← tt_remove_dups_vsum tt h,
    vsum_of_nodup _ (nodup_of_lex_lt (tt_remove_dups_sorted tt h)) e he]

/-- C3: on a tensor with at least one nonzero (and `nnz` an `idx_t` value),
`tt_remove_dups` returns the old `nnz` minus the new one, and the new `nnz` is the
number of distinct coordinates of the input. -/
theorem tt_remove_dups_count (tt : splatt_coo) (h : 1 ≤ tt.nnz) (hlt : tt.nnz < idx_mod) :
    (tt_remove_dups tt).2 = tt.nnz - (tt_remove_dups tt).1.nnz ∧
    (tt_remove_dups tt).1.nnz ≤ tt.nnz ∧
    (tt_remove_dups tt).1.nnz = ((entries tt).map Prod.fst).toFinset.card := by
  obtain ⟨h1, h2⟩ := tt_remove_dups_nnz_le tt h
  refine ⟨?_, h2, ?_⟩
  · rw [(tt_remove_dups_frame tt h).2.2.2.2]
    have : tt.nnz + idx_mod - (tt_remove_dups tt).1.nnz =
        (tt.nnz - (tt_remove_dups tt).1.nnz) + idx_mod := by omega
    rw [this, Nat.add_mod_right, Nat.mod_eq_of_lt (by omega)]
  · have hnd := nodup_of_lex_lt (tt_remove_dups_sorted tt h)
    rw [← length_entries (tt_remove_dups tt).1, ← List.length_map (entries _) Prod.fst,
      ← List.toFinset_card_of_nodup hnd]
    congr 1
    ext c
    simp only [List.mem_toFinset]
    exact tt_remove_dups_mem tt h c

theorem tt_remove_dups_distinct_witness :
    1 ≤ dup_example.nnz ∧ 0 < (tt_remove_dups dup_example).1.nnz ∧
    1 < (tt_remove_dups dup_example).1.nnz ∧
    ∃ m, m < (tt_remove_dups dup_example).1.nmodes ∧
      rd (tt_remove_dups dup_example).1.ind m 0 ≠ rd (tt_remove_dups dup_example).1.ind m 1 :=
  ⟨by decide, by decide, by decide,
    tt_remove_dups_distinct dup_example (by decide) 0 1 (by decide) (by decide) (by decide)⟩

theorem tt_remove_dups_sums_witness :
    1 ≤ dup_example.nnz ∧
    (((entries (tt_remove_dups dup_example).1).map Prod.fst).Pairwise lex_lt ∧
     (∀ c, c ∈ (entries (tt_remove_dups dup_example).1).map Prod.fst ↔
        c ∈ (entries dup_example).map Prod.fst) ∧
     (∀ e ∈ entries (tt_remove_dups dup_example).1, e.2 = vsum e.1 (entries dup_example))) ∧
    (tt_remove_dups dup_example).1.nnz = 2 ∧
    (tt_remove_dups dup_example).1.vals.getD 0 0 = 7 / 2 ∧
    entries (tt_remove_dups dup_example).1 = [([0, 0, 0], 7 / 2), ([1, 0, 0], 4)] :=
  ⟨by decide, tt_remove_dups_sums dup_example (by decide), by decide,
    by with_unfolding_all decide, by with_unfolding_all decide⟩

theorem tt_remove_dups_count_witness :
    1 ≤ dup_example.nnz ∧ dup_example.nnz < idx_mod ∧
    ((tt_remove_dups dup_example).2 = dup_example.nnz - (tt_remove_dups dup_example).1.nnz ∧
     (tt_remove_dups dup_example).1.nnz ≤ dup_example.nnz ∧
     (tt_remove_dups dup_example).1.nnz =
       ((entries dup_example).map Prod.fst).toFinset.card) ∧
    (tt_remove_dups dup_example).2 = 1 :=
  ⟨by decide, by decide, tt_remove_dups_count dup_example (by decide) (by decide), by decide⟩

/-! ## Slice labels -/

theorem seen_succ (indm : List Nat) (n : Nat) :
    seen indm (n + 1) = insert (indm.getD n 0) (seen indm n) := by
  simp [seen, Finset.range_succ, Finset.image_insert]

theorem mem_seen {indm : List Nat} {n g : Nat} :
    g ∈ seen indm n ↔ ∃ k < n, indm.getD k 0 = g := by
  simp [seen]

theorem slice_rank_succ (S : Finset Nat) (i : Nat) :
    slice_rank S (i + 1) = slice_rank S i + (if i ∈ S then 1 else 0) := by
  unfold slice_rank
  rw [Finset.range_succ, Finset.filter_insert]
  by_cases h : i ∈ S
  · rw [if_pos h, if_pos h, Finset.card_insert_of_not_mem (by simp)]
  · rw [if_neg h, if_neg h, Nat.add_zero]

theorem slice_rank_mono (S : Finset Nat) {i j : Nat} (h : i ≤ j) :
    slice_rank S i ≤ slice_rank S j := by
  unfold slice_rank
  apply Finset.card_le_card
  intro x hx
  simp only [Finset.mem_filter, Finset.mem_range] at hx ⊢
  exact ⟨by omega, hx.2⟩

theorem slice_rank_lt (S : Finset Nat) {i j : Nat} (hi : i ∈ S) (h : i < j) :
    slice_rank S i < slice_rank S j := by
  have h1 := slice_rank_succ S i
  rw [if_pos hi] at h1
  have h2 := slice_rank_mono S (show i + 1 ≤ j from h)
  omega

theorem slice_rank_inj (S : Finset Nat) {i j : Nat} (hi : i ∈ S) (hj : j ∈ S)
    (h : slice_rank S i = slice_rank S j) : i = j := by
  rcases Nat.lt_trichotomy i j with hlt | heq | hlt
  · have := slice_rank_lt S hi hlt; omega
  · exact heq
  · have := slice_rank_lt S hj hlt; omega

theorem slice_rank_le_card (S : Finset Nat) (i : Nat) : slice_rank S i ≤ S.card := by
  unfold slice_rank
  apply Finset.card_le_card
  intro x hx
  exact (Finset.mem_filter.mp hx).2

theorem slice_rank_lt_card (S : Finset Nat) {i : Nat} (hi : i ∈ S) : slice_rank S i < S.card :=
  lt_of_lt_of_le (slice_rank_lt S hi (Nat.lt_succ_self i)) (slice_rank_le_card S (i + 1))

theorem slice_rank_of_bound (S : Finset Nat) (D : Nat) (h : ∀ g ∈ S, g < D) :
    slice_rank S D = S.card := by
  unfold slice_rank
  congr 1
  ext x
  simp only [Finset.mem_filter, Finset.mem_range]
  exact ⟨fun hx => hx.2, fun hx => ⟨h x hx, hx⟩⟩

theorem slice_rank_surj (S : Finset Nat) : ∀ (t v : Nat), v < slice_rank S t →
    ∃ g, g < t ∧ g ∈ S ∧ slice_rank S g = v
  | 0, v, h => by simp [slice_rank] at h
  | t + 1, v, h => by
    rw [slice_rank_succ] at h
    by_cases hv : v < slice_rank S t
    · obtain ⟨g, h1, h2, h3⟩ := slice_rank_surj S t v hv
      exact ⟨g, by omega, h2, h3⟩
    · by_cases ht : t ∈ S
      · rw [if_pos ht] at h
        exact ⟨t, by omega, ht, by omega⟩
      · rw [if_neg ht] at h
        omega

theorem seen_eq_range (S : Finset Nat) (D : Nat) (h : ∀ g ∈ S, g < D) (hc : S.card = D) :
    S = Finset.range D := by
  apply Finset.eq_of_subset_of_card_le
  · intro x hx
    exact Finset.mem_range.mpr (h x hx)
  · simp [hc]

/-! ## The loops of `tt_remove_empty` -/

theorem mark_loop (indm : List Nat) (M : Nat) : ∀ n, (∀ k < n, indm.getD k 0 < M) →
    ((List.range n).foldl (mark_body indm) (List.replicate M 0, 0)).1.length = M ∧
    (∀ i, ((List.range n).foldl (mark_body indm) (List.replicate M 0, 0)).1.getD i 0 =
      if i ∈ seen indm n then 1 else 0) ∧
    ((List.range n).foldl (mark_body indm) (List.replicate M 0, 0)).2 = (seen indm n).card := by
  intro n
  induction n with
  | zero =>
    intro _
    refine ⟨by simp, fun i => ?_, by simp [seen]⟩
    simp only [List.range_zero, List.foldl_nil, seen, Finset.range_zero, Finset.image_empty,
      Finset.not_mem_empty, if_false, List.getD_eq_getElem?_getD, List.getElem?_replicate]
    by_cases h : i < M <;> simp [h]
  | succ n ih =>
    intro hb
    obtain ⟨h1, h2, h3⟩ := ih (fun k hk => hb k (by omega))
    rw [List.range_succ, List.foldl_append, List.foldl_cons, List.foldl_nil, seen_succ]
    generalize (List.range n).foldl (mark_body indm) (List.replicate M 0, 0) = r at h1 h2 h3
    have hg := hb n (by omega)
    unfold mark_body
    rw [h2]
    by_cases hs : indm.getD n 0 ∈ seen indm n
    · rw [if_pos hs, if_neg (by simp), Finset.insert_eq_of_mem hs]
      exact ⟨h1, h2, h3⟩
    · rw [if_neg hs, if_pos rfl]
      refine ⟨by simp [h1], fun i => ?_, ?_⟩
      · show (r.1.set _ 1).getD i 0 = _
        rw [getD_set_nat _ _ _ _ (by omega), h2]
        by_cases hi : i = indm.getD n 0
        · rw [if_pos hi, if_pos (by rw [hi]; exact Finset.mem_insert_self _ _)]
        · rw [if_neg hi]
          simp only [Finset.mem_insert, hi, false_or]
      · show r.2 + 1 = _
        rw [Finset.card_insert_of_not_mem hs, h3]

theorem scan_loop (mk : List Nat) (S : Finset Nat) (M : Nat) (hlen : mk.length = M)
    (hmk : ∀ i, mk.getD i 0 = if i ∈ S then 1 else 0) : ∀ t, t ≤ M →
    ((List.range t).foldl scan_body (mk, 0)).1.length = M ∧
    (∀ i, t ≤ i → ((List.range t).foldl scan_body (mk, 0)).1.getD i 0 = mk.getD i 0) ∧
    (∀ i, i < t → i ∈ S →
      ((List.range t).foldl scan_body (mk, 0)).1.getD i 0 = slice_rank S i) ∧
    ((List.range t).foldl scan_body (mk, 0)).2 = slice_rank S t := by
  intro t
  induction t with
  | zero =>
    intro _
    exact ⟨hlen, fun _ _ => rfl, fun i hi => absurd hi (Nat.not_lt_zero i), by simp [slice_rank]⟩
  | succ t ih =>
    intro ht
    obtain ⟨h1, h2, h3, h4⟩ := ih (by omega)
    rw [List.range_succ, List.foldl_append, List.foldl_cons, List.foldl_nil, slice_rank_succ]
    generalize (List.range t).foldl scan_body (mk, 0) = r at h1 h2 h3 h4
    unfold scan_body
    rw [h2 t (le_refl t), hmk t]
    by_cases hs : t ∈ S
    · rw [if_pos hs, if_pos rfl]
      refine ⟨by simp [h1], fun i hi => ?_, fun i hi hiS => ?_, by simp [h4]⟩
      · show (r.1.set t r.2).getD i 0 = _
        rw [getD_set_nat _ _ _ _ (by omega), if_neg (by omega), h2 i (by omega)]
      · show (r.1.set t r.2).getD i 0 = _
        rw [getD_set_nat _ _ _ _ (by omega)]
        by_cases hit : i = t
        · rw [if_pos hit, h4, hit]
        · rw [if_neg hit, h3 i (by omega) hiS]
    · rw [if_neg hs, if_neg (by simp)]
      refine ⟨h1, fun i hi => h2 i (by omega), fun i hi hiS => ?_, by simp [h4]⟩
      have : i ≠ t := fun e => hs (e ▸ hiS)
      exact h3 i (by omega) hiS

theorem list_ext_getD {l₁ l₂ : List Nat} (hl : l₁.length = l₂.length)
    (h : ∀ k, k < l₁.length → l₁.getD k 0 = l₂.getD k 0) : l₁ = l₂ := by
  apply List.ext_getElem hl
  intro k h1 h2
  have := h k h1
  rwa [List.getD_eq_getElem _ _ h1, List.getD_eq_getElem _ _ h2] at this

theorem getD_map_nat (l : List Nat) (f : Nat → Nat) (k : Nat) (hk : k < l.length) :
    (l.map f).getD k 0 = f (l.getD k 0) := by
  simp [List.getD_eq_getElem?_getD, List.getElem?_eq_getElem hk]

theorem relabel_loop (sc indm : List Nat) (N dsz : Nat) (S : Finset Nat)
    (hlen : indm.length = N) (hS : ∀ k, k < N → indm.getD k 0 ∈ S)
    (hsc : ∀ g ∈ S, sc.getD g 0 = slice_rank S g) (hr : ∀ g ∈ S, slice_rank S g < dsz)
    (im0 : List Nat) (him : im0.length = dsz) :
    ∀ n, n ≤ N → ∃ r, (List.range n).foldlM (relabel_body sc dsz) (im0, indm) = some r ∧
      r.1.length = dsz ∧ r.2.length = N ∧
      (∀ k, k < n → r.2.getD k 0 = slice_rank S (indm.getD k 0)) ∧
      (∀ k, n ≤ k → r.2.getD k 0 = indm.getD k 0) ∧
      (∀ k, k < n → r.1.getD (slice_rank S (indm.getD k 0)) 0 = indm.getD k 0) := by
  intro n
  induction n with
  | zero =>
    intro _
    exact ⟨(im0, indm), rfl, him, hlen, fun k hk => absurd hk (Nat.not_lt_zero k),
      fun _ _ => rfl, fun k hk => absurd hk (Nat.not_lt_zero k)⟩
  | succ n ih =>
    intro hn
    obtain ⟨r, h0, h1, h2, h3, h4, h5⟩ := ih (by omega)
    have hg : r.2.getD n 0 = indm.getD n 0 := h4 n (le_refl n)
    have hgS := hS n (by omega)
    have hstep : relabel_body sc dsz r n =
        some (r.1.set (slice_rank S (indm.getD n 0)) (indm.getD n 0),
          r.2.set n (slice_rank S (indm.getD n 0))) := by
      unfold relabel_body
      simp only [hg, hsc _ hgS, hr _ hgS, if_true]
    refine ⟨(r.1.set (slice_rank S (indm.getD n 0)) (indm.getD n 0),
      r.2.set n (slice_rank S (indm.getD n 0))), ?_, ?_, ?_, ?_, ?_, ?_⟩
    · rw [List.range_succ, List.foldlM_append, h0]
      simp [hstep]
    · simp [h1]
    · simp [h2]
    · intro k hk
      show (r.2.set n _).getD k 0 = _
      rw [getD_set_nat _ _ _ _ (by omega)]
      by_cases hkn : k = n
      · rw [if_pos hkn, hkn]
      · rw [if_neg hkn, h3 k (by omega)]
    · intro k hk
      show (r.2.set n _).getD k 0 = _
      rw [getD_set_nat _ _ _ _ (by omega), if_neg (by omega), h4 k (by omega)]
    · intro k hk
      show (r.1.set _ _).getD _ 0 = _
      rw [getD_set_nat _ _ _ _ (by rw [h1]; exact hr _ hgS)]
      by_cases hkn : slice_rank S (indm.getD k 0) = slice_rank S (indm.getD n 0)
      · rw [if_pos hkn]
        exact (slice_rank_inj S (hS k (by omega)) hgS hkn).symm
      · rw [if_neg hkn]
        have : k ≠ n := fun e => hkn (by rw [e])
        exact h5 k (by omega)

theorem le_max_dim_aux (dims : List Nat) : ∀ t,
    (∀ m, m < t → dims.getD m 0 ≤ (List.range t).foldl
      (fun maxdim m => if dims.getD m 0 > maxdim then dims.getD m 0 else maxdim) 0) := by
  intro t
  induction t with
  | zero => intro m hm; omega
  | succ t ih =>
    intro m hm
    rw [List.range_succ, List.foldl_append, List.foldl_cons, List.foldl_nil]
    generalize (List.range t).foldl
      (fun maxdim m => if dims.getD m 0 > maxdim then dims.getD m 0 else maxdim) 0 = x at ih
    by_cases hmt : m = t
    · subst hmt
      split <;> omega
    · have := ih m (by omega)
      split <;> omega

theorem le_max_dim (tt : splatt_coo) (m : Nat) (hm : m < tt.nmodes) :
    tt.dims.getD m 0 ≤ max_dim tt :=
  le_max_dim_aux tt.dims tt.nmodes m hm

/-- What one iteration of the loop over the modes does. -/
theorem empty_body_spec (tt : splatt_coo) (nrem m M : Nat)
    (hlen : (tt.ind.getD m []).length = tt.nnz)
    (hr : ∀ n, n < tt.nnz → rd tt.ind m n < tt.dims.getD m 0) (hM : tt.dims.getD m 0 ≤ M) :
    ((seen (tt.ind.getD m []) tt.nnz).card = tt.dims.getD m 0 →
      empty_body M (tt, nrem) m = some ({ tt with indmap := tt.indmap.set m none }, nrem)) ∧
    ((seen (tt.ind.getD m []) tt.nnz).card ≠ tt.dims.getD m 0 →
      ∃ imap, imap.length = (seen (tt.ind.getD m []) tt.nnz).card ∧
        (∀ g ∈ seen (tt.ind.getD m []) tt.nnz,
          imap.getD (slice_rank (seen (tt.ind.getD m []) tt.nnz) g) 0 = g) ∧
        empty_body M (tt, nrem) m =
          some ({ tt with
                  dims := tt.dims.set m (seen (tt.ind.getD m []) tt.nnz).card
                  ind := tt.ind.set m
                    ((tt.ind.getD m []).map (slice_rank (seen (tt.ind.getD m []) tt.nnz)))
                  indmap := tt.indmap.set m (some imap) },
            (nrem + (tt.dims.getD m 0 + idx_mod - (seen (tt.ind.getD m []) tt.nnz).card)
              % idx_mod) % idx_mod)) := by
  have hb : ∀ k, k < tt.nnz → (tt.ind.getD m []).getD k 0 < M := fun k hk =>
    lt_of_lt_of_le (hr k hk) hM
  obtain ⟨m1, m2, m3⟩ := mark_loop (tt.ind.getD m []) M tt.nnz hb
  constructor
  · intro hc
    unfold empty_body
    simp only [m3, hc, if_true]
  · intro hc
    have hSD : ∀ g ∈ seen (tt.ind.getD m []) tt.nnz, g < tt.dims.getD m 0 := by
      intro g hg
      obtain ⟨k, hk, rfl⟩ := mem_seen.mp hg
      exact hr k hk
    obtain ⟨s1, s2, s3, s4⟩ := scan_loop _ (seen (tt.ind.getD m []) tt.nnz) M m1 m2
      (tt.dims.getD m 0) hM
    obtain ⟨r, r0, r1, r2, r3, r4, r5⟩ := relabel_loop
      ((List.range (tt.dims.getD m 0)).foldl scan_body
        (((List.range tt.nnz).foldl (mark_body (tt.ind.getD m [])) (List.replicate M 0, 0)).1,
          0)).1
      (tt.ind.getD m []) tt.nnz (seen (tt.ind.getD m []) tt.nnz).card
      (seen (tt.ind.getD m []) tt.nnz) hlen
      (fun k hk => mem_seen.mpr ⟨k, hk, rfl⟩)
      (fun g hg => s3 g (hSD g hg) hg)
      (fun g hg => slice_rank_lt_card _ hg)
      (List.replicate (seen (tt.ind.getD m []) tt.nnz).card 0) (by simp) tt.nnz (le_refl _)
    have hr2 : r.2 = (tt.ind.getD m []).map (slice_rank (seen (tt.ind.getD m []) tt.nnz)) := by
      apply list_ext_getD (by rw [r2, List.length_map, hlen])
      intro k hk
      rw [r3 k (by omega), getD_map_nat _ _ _ (by omega)]
    refine ⟨r.1, r1, fun g hg => ?_, ?_⟩
    · obtain ⟨k, hk, rfl⟩ := mem_seen.mp hg
      exact r5 k hk
    · unfold empty_body
      simp only [m3, hc, if_false, r0, Option.map_some', hr2]

theorem getD_of_getElem?_eq {α : Type} {l₁ l₂ : List α} {m : Nat} (d : α)
    (h : l₁[m]? = l₂[m]?) : l₁.getD m d = l₂.getD m d := by
  rw [List.getD_eq_getElem?_getD, List.getD_eq_getElem?_getD, h]

theorem shaped_ind_length {tt : splatt_coo} (hs : shaped tt) {m : Nat} (hm : m < tt.nmodes) :
    (tt.ind.getD m []).length = tt.nnz := by
  obtain ⟨_, h2, h3, _, _⟩ := hs
  have hlt : m < tt.ind.length := by omega
  rw [List.getD_eq_getElem _ _ hlt]
  exact h3 _ (List.getElem_mem _)

/-- The loop over the modes of `tt_remove_empty`, after `t` iterations. -/
theorem empty_loop (tt : splatt_coo) (hs : shaped tt) (hr : in_range tt) : ∀ t, t ≤ tt.nmodes →
    ∃ st, (List.range t).foldlM (empty_body (max_dim tt)) (tt, 0) = some st ∧
      st.1.nnz = tt.nnz ∧ st.1.nmodes = tt.nmodes ∧ st.1.vals = tt.vals ∧
      st.1.dims.length = tt.dims.length ∧ st.1.ind.length = tt.ind.length ∧
      st.1.indmap.length = tt.indmap.length ∧
      (∀ m, t ≤ m → st.1.dims[m]? = tt.dims[m]? ∧ st.1.ind[m]? = tt.ind[m]? ∧
        st.1.indmap[m]? = tt.indmap[m]?) ∧
      (∀ m, m < t → mode_post tt m st.1.dims[m]? st.1.ind[m]? st.1.indmap[m]?) ∧
      st.2 = removed_upto tt t := by
  intro t
  induction t with
  | zero =>
    intro _
    exact ⟨(tt, 0), rfl, rfl, rfl, rfl, rfl, rfl, rfl, fun _ _ => ⟨rfl, rfl, rfl⟩,
      fun m hm => absurd hm (Nat.not_lt_zero m), rfl⟩
  | succ t ih =>
    intro ht
    obtain ⟨st, h0, h1, h2, h3, h4, h5, h6, h7, h8, h9⟩ := ih (by omega)
    obtain ⟨u, nrem⟩ := st
    simp only at h1 h2 h3 h4 h5 h6 h7 h8 h9
    have hs' := hs
    obtain ⟨s1, s2, _, _, s5⟩ := hs'
    have hu_ind : u.ind.getD t [] = tt.ind.getD t [] := getD_of_getElem?_eq [] (h7 t (le_refl t)).2.1
    have hu_dims : u.dims.getD t 0 = tt.dims.getD t 0 := getD_of_getElem?_eq 0 (h7 t (le_refl t)).1
    have hlen : (u.ind.getD t []).length = u.nnz := by
      rw [hu_ind, h1]
      exact shaped_ind_length hs (by omega)
    have hrng : ∀ n, n < u.nnz → rd u.ind t n < u.dims.getD t 0 := by
      intro n hn
      have := hr t (by omega) n (by omega)
      unfold rd at this ⊢
      rw [hu_ind, hu_dims]
      exact this
    have hM : u.dims.getD t 0 ≤ max_dim tt := by
      rw [hu_dims]
      exact le_max_dim tt t (by omega)
    obtain ⟨e1, e2⟩ := empty_body_spec u nrem t (max_dim tt) hlen hrng hM
    have hseen : seen (u.ind.getD t []) u.nnz = seen (tt.ind.getD t []) tt.nnz := by
      rw [hu_ind, h1]
    rw [hseen, hu_dims] at e1
    rw [hseen, hu_ind, hu_dims] at e2
    have htd : t < u.dims.length := by omega
    have hti : t < u.ind.length := by omega
    have htm : t < u.indmap.length := by omega
    by_cases hc : (seen (tt.ind.getD t []) tt.nnz).card = tt.dims.getD t 0
    · refine ⟨({ u with indmap := u.indmap.set t none }, nrem), ?_, h1, h2, h3, h4, h5,
        by simp [h6], fun m hm => ?_, fun m hm => ?_, ?_⟩
      · rw [List.range_succ, List.foldlM_append, h0]
        simp [e1 hc]
      · obtain ⟨a, b, c⟩ := h7 m (by omega)
        refine ⟨a, b, ?_⟩
        show (u.indmap.set t none)[m]? = _
        rw [List.getElem?_set_ne (by omega), c]
      · by_cases hmt : m = t
        · subst hmt
          refine ⟨?_, fun _ => ⟨?_, ?_⟩, fun hne => absurd hc hne⟩
          · rw [(h7 m (le_refl m)).1, hc]
            simp [List.getD_eq_getElem?_getD,
              List.getElem?_eq_getElem (show m < tt.dims.length by omega)]
          · rw [(h7 m (le_refl m)).2.1]
            simp [List.getD_eq_getElem?_getD,
              List.getElem?_eq_getElem (show m < tt.ind.length by omega)]
          · show (u.indmap.set m none)[m]? = _
            rw [List.getElem?_set_self htm]
        · have := h8 m (by omega)
          show mode_post tt m _ _ (u.indmap.set t none)[m]?
          rw [List.getElem?_set_ne (fun e => hmt e.symm)]
          exact this
      · show nrem = removed_upto tt (t + 1)
        rw [removed_upto, if_pos hc, h9]
    · obtain ⟨imap, i1, i2, i3⟩ := e2 hc
      refine ⟨({ u with
                  dims := u.dims.set t (seen (tt.ind.getD t []) tt.nnz).card
                  ind := u.ind.set t
                    ((tt.ind.getD t []).map (slice_rank (seen (tt.ind.getD t []) tt.nnz)))
                  indmap := u.indmap.set t (some imap) },
            (nrem + (tt.dims.getD t 0 + idx_mod - (seen (tt.ind.getD t []) tt.nnz).card)
              % idx_mod) % idx_mod), ?_, ?_, ?_, ?_, ?_, ?_, ?_, fun m hm => ?_, fun m hm => ?_, ?_⟩
      · rw [List.range_succ, List.foldlM_append, h0]
        simp [i3]
      · exact h1
      · exact h2
      · exact h3
      · simp [h4]
      · simp [h5]
      · simp [h6]
      · obtain ⟨a, b, c⟩ := h7 m (by omega)
        refine ⟨?_, ?_, ?_⟩
        · show (u.dims.set t _)[m]? = _
          rw [List.getElem?_set_ne (by omega), a]
        · show (u.ind.set t _)[m]? = _
          rw [List.getElem?_set_ne (by omega), b]
        · show (u.indmap.set t _)[m]? = _
          rw [List.getElem?_set_ne (by omega), c]
      · by_cases hmt : m = t
        · subst hmt
          refine ⟨?_, fun he => absurd he hc, fun _ => ⟨?_, imap, ?_, i1, i2⟩⟩
          · show (u.dims.set m _)[m]? = _
            rw [List.getElem?_set_self htd]
          · show (u.ind.set m _)[m]? = _
            rw [List.getElem?_set_self hti]
          · show (u.indmap.set m _)[m]? = _
            rw [List.getElem?_set_self htm]
        · have := h8 m (by omega)
          have hne : t ≠ m := fun e => hmt e.symm
          show mode_post tt m (u.dims.set t _)[m]? (u.ind.set t _)[m]? (u.indmap.set t _)[m]?
          rw [List.getElem?_set_ne hne, List.getElem?_set_ne hne, List.getElem?_set_ne hne]
          exact this
      · show _ = removed_upto tt (t + 1)
        rw [removed_upto, if_neg hc, h9]

/-- What `tt_remove_empty` does to a well-formed tensor. -/
theorem tt_remove_empty_spec (tt : splatt_coo) (hs : shaped tt) (hr : in_range tt) :
    ∃ st, tt_remove_empty tt = some st ∧
      st.1.nnz = tt.nnz ∧ st.1.nmodes = tt.nmodes ∧ st.1.vals = tt.vals ∧
      st.1.dims.length = tt.dims.length ∧ st.1.ind.length = tt.ind.length ∧
      st.1.indmap.length = tt.indmap.length ∧
      (∀ m, tt.nmodes ≤ m → st.1.dims[m]? = tt.dims[m]? ∧ st.1.ind[m]? = tt.ind[m]? ∧
        st.1.indmap[m]? = tt.indmap[m]?) ∧
      (∀ m, m < tt.nmodes → mode_post tt m st.1.dims[m]? st.1.ind[m]? st.1.indmap[m]?) ∧
      st.2 = removed_upto tt tt.nmodes :=
  empty_loop tt hs hr tt.nmodes (le_refl _)

theorem populated_iff (tt : splatt_coo) (m : Nat)
    (hr : ∀ n, n < tt.nnz → rd tt.ind m n < tt.dims.getD m 0) :
    (∀ i, i < tt.dims.getD m 0 → ∃ n, n < tt.nnz ∧ rd tt.ind m n = i) ↔
      (seen (tt.ind.getD m []) tt.nnz).card = tt.dims.getD m 0 := by
  have hb : ∀ g ∈ seen (tt.ind.getD m []) tt.nnz, g < tt.dims.getD m 0 := by
    intro g hg
    obtain ⟨k, hk, rfl⟩ := mem_seen.mp hg
    exact hr k hk
  constructor
  · intro h
    have : seen (tt.ind.getD m []) tt.nnz = Finset.range (tt.dims.getD m 0) := by
      ext x
      rw [Finset.mem_range]
      exact ⟨hb x, fun hx => mem_seen.mpr (h x hx)⟩
    rw [this, Finset.card_range]
  · intro hc i hi
    have := seen_eq_range _ _ hb hc
    have hi' : i ∈ seen (tt.ind.getD m []) tt.nnz := by
      rw [this]; exact Finset.mem_range.mpr hi
    exact mem_seen.mp hi'

theorem getD_of_getElem?_some {α : Type} {l : List α} {m : Nat} {x : α} (d : α)
    (h : l[m]? = some x) : l.getD m d = x := by
  rw [List.getD_eq_getElem?_getD, h]
  rfl

/-! ## Claims on `tt_remove_empty` -/

/-- C4: on a well-formed tensor with in-range indices `tt_remove_empty` returns, and
for every mode the new `dims[m]` is the number of distinct values of the old
`ind[m]`, every new index is below it, and every value below it occurs as the new
index of some nonzero. -/
theorem tt_remove_empty_dims (tt : splatt_coo) (hs : shaped tt) (hr : in_range tt) :
    ∃ st, tt_remove_empty tt = some st ∧ st.1.nnz = tt.nnz ∧ st.1.nmodes = tt.nmodes ∧
      ∀ m, m < tt.nmodes →
        st.1.dims.getD m 0 = ((Finset.range tt.nnz).image (fun n => rd tt.ind m n)).card ∧
        (∀ n, n < tt.nnz → rd st.1.ind m n < st.1.dims.getD m 0) ∧
        (∀ v, v < st.1.dims.getD m 0 → ∃ n, n < tt.nnz ∧ rd st.1.ind m n = v) := by
  obtain ⟨st, h0, h1, h2, _, _, _, _, _, h8, _⟩ := tt_remove_empty_spec tt hs hr
  refine ⟨st, h0, h1, h2, fun m hm => ?_⟩
  obtain ⟨p1, p2, p3⟩ := h8 m hm
  have hd := getD_of_getElem?_some 0 p1
  have hrm : ∀ n, n < tt.nnz → rd tt.ind m n < tt.dims.getD m 0 := hr m hm
  have hlen := shaped_ind_length hs hm
  rw [hd]
  refine ⟨rfl, ?_⟩
  by_cases hc : (seen (tt.ind.getD m []) tt.nnz).card = tt.dims.getD m 0
  · have hi := getD_of_getElem?_some [] (p2 hc).1
    unfold rd
    rw [hi, hc]
    exact ⟨hrm, (populated_iff tt m hrm).mpr hc⟩
  · have hi := getD_of_getElem?_some [] (p3 hc).1
    have hnew : ∀ n, n < tt.nnz → rd st.1.ind m n =
        slice_rank (seen (tt.ind.getD m []) tt.nnz) (rd tt.ind m n) := by
      intro n hn
      unfold rd
      rw [hi, getD_map_nat _ _ _ (by omega)]
    constructor
    · intro n hn
      rw [hnew n hn]
      exact slice_rank_lt_card _ (mem_seen.mpr ⟨n, hn, rfl⟩)
    · intro v hv
      have hb : ∀ g ∈ seen (tt.ind.getD m []) tt.nnz, g < tt.dims.getD m 0 := by
        intro g hg
        obtain ⟨k, hk, rfl⟩ := mem_seen.mp hg
        exact hrm k hk
      rw [← slice_rank_of_bound _ _ hb] at hv
      obtain ⟨g, _, hg, hgv⟩ := slice_rank_surj _ _ v hv
      obtain ⟨k, hk, rfl⟩ := mem_seen.mp hg
      exact ⟨k, hk, by rw [hnew k hk]; exact hgv⟩

/-- C5: on a well-formed tensor with in-range indices, every mode with an empty slice
gets an `indmap[m]` whose length is the new `dims[m]` and which maps the new index of
every nonzero back to its old index. -/
theorem tt_remove_empty_indmap (tt : splatt_coo) (hs : shaped tt) (hr : in_range tt) :
    ∃ st, tt_remove_empty tt = some st ∧
      ∀ m, m < tt.nmodes →
        (∃ i, i < tt.dims.getD m 0 ∧ ∀ n, n < tt.nnz → rd tt.ind m n ≠ i) →
        ∃ imap, st.1.indmap[m]? = some (some imap) ∧ imap.length = st.1.dims.getD m 0 ∧
          ∀ n, n < tt.nnz → imap.getD (rd st.1.ind m n) 0 = rd tt.ind m n := by
  obtain ⟨st, h0, _, _, _, _, _, _, _, h8, _⟩ := tt_remove_empty_spec tt hs hr
  refine ⟨st, h0, fun m hm hempty => ?_⟩
  obtain ⟨p1, _, p3⟩ := h8 m hm
  have hrm : ∀ n, n < tt.nnz → rd tt.ind m n < tt.dims.getD m 0 := hr m hm
  have hlen := shaped_ind_length hs hm
  have hc : (seen (tt.ind.getD m []) tt.nnz).card ≠ tt.dims.getD m 0 := by
    intro hc
    obtain ⟨i, hi, hne⟩ := hempty
    obtain ⟨n, hn, hni⟩ := (populated_iff tt m hrm).mpr hc i hi
    exact hne n hn hni
  obtain ⟨q1, imap, q2, q3, q4⟩ := p3 hc
  refine ⟨imap, q2, by rw [q3, getD_of_getElem?_some 0 p1], fun n hn => ?_⟩
  have hi := getD_of_getElem?_some [] q1
  have : rd st.1.ind m n = slice_rank (seen (tt.ind.getD m []) tt.nnz) (rd tt.ind m n) := by
    unfold rd
    rw [hi, getD_map_nat _ _ _ (by omega)]
  rw [this]
  exact q4 _ (mem_seen.mpr ⟨n, hn, rfl⟩)

/-- C6: on a well-formed tensor with in-range indices, `tt_remove_empty` keeps `nnz`,
`nmodes` and `vals`, and in every mode all of whose slices are populated it keeps
`dims[m]` and `ind[m]` and leaves `indmap[m]` absent. -/
theorem tt_remove_empty_frame (tt : splatt_coo) (hs : shaped tt) (hr : in_range tt) :
    ∃ st, tt_remove_empty tt = some st ∧
      st.1.nnz = tt.nnz ∧ st.1.nmodes = tt.nmodes ∧ st.1.vals = tt.vals ∧
      ∀ m, m < tt.nmodes →
        (∀ i, i < tt.dims.getD m 0 → ∃ n, n < tt.nnz ∧ rd tt.ind m n = i) →
        st.1.dims[m]? = tt.dims[m]? ∧ st.1.ind[m]? = tt.ind[m]? ∧
        st.1.indmap[m]? = some none := by
  obtain ⟨st, h0, h1, h2, h3, _, _, _, _, h8, _⟩ := tt_remove_empty_spec tt hs hr
  refine ⟨st, h0, h1, h2, h3, fun m hm hpop => ?_⟩
  obtain ⟨p1, p2, _⟩ := h8 m hm
  have hc := (populated_iff tt m (hr m hm)).mp hpop
  obtain ⟨s1, s2, _, _, _⟩ := hs
  refine ⟨?_, ?_, (p2 hc).2⟩
  · rw [p1, hc]
    simp [List.getD_eq_getElem?_getD,
      List.getElem?_eq_getElem (show m < tt.dims.length by omega)]
  · rw [(p2 hc).1]
    simp [List.getD_eq_getElem?_getD,
      List.getElem?_eq_getElem (show m < tt.ind.length by omega)]

theorem tt_remove_empty_dims_witness :
    shaped empty_example ∧ in_range empty_example ∧
    ∃ st, tt_remove_empty empty_example = some st ∧ st.1.nnz = empty_example.nnz ∧
      st.1.nmodes = empty_example.nmodes ∧
      ∀ m, m < empty_example.nmodes →
        st.1.dims.getD m 0 =
          ((Finset.range empty_example.nnz).image (fun n => rd empty_example.ind m n)).card ∧
        (∀ n, n < empty_example.nnz → rd st.1.ind m n < st.1.dims.getD m 0) ∧
        (∀ v, v < st.1.dims.getD m 0 → ∃ n, n < empty_example.nnz ∧ rd st.1.ind m n = v) :=
  ⟨by decide, by decide, tt_remove_empty_dims empty_example (by decide) (by decide)⟩

theorem tt_remove_empty_indmap_witness :
    shaped empty_example ∧ in_range empty_example ∧
    (∃ st, tt_remove_empty empty_example = some st ∧
      ∀ m, m < empty_example.nmodes →
        (∃ i, i < empty_example.dims.getD m 0 ∧
          ∀ n, n < empty_example.nnz → rd empty_example.ind m n ≠ i) →
        ∃ imap, st.1.indmap[m]? = some (some imap) ∧ imap.length = st.1.dims.getD m 0 ∧
          ∀ n, n < empty_example.nnz →
            imap.getD (rd st.1.ind m n) 0 = rd empty_example.ind m n) ∧
    (tt_remove_empty empty_example).map (fun st => (st.1.dims, st.1.indmap, st.1.ind)) =
      some ([3, 3], [some [2, 5, 7], some [0, 1, 3]], [[1, 0, 2, 1], [0, 1, 0, 2]]) :=
  ⟨by decide, by decide, tt_remove_empty_indmap empty_example (by decide) (by decide),
    by decide⟩

theorem tt_remove_empty_frame_witness :
    shaped unfold_example ∧ in_range unfold_example ∧
    (∃ st, tt_remove_empty unfold_example = some st ∧
      st.1.nnz = unfold_example.nnz ∧ st.1.nmodes = unfold_example.nmodes ∧
      st.1.vals = unfold_example.vals ∧
      ∀ m, m < unfold_example.nmodes →
        (∀ i, i < unfold_example.dims.getD m 0 →
          ∃ n, n < unfold_example.nnz ∧ rd unfold_example.ind m n = i) →
        st.1.dims[m]? = unfold_example.dims[m]? ∧ st.1.ind[m]? = unfold_example.ind[m]? ∧
        st.1.indmap[m]? = some none) ∧
    tt_remove_empty unfold_example = some (unfold_example, 0) :=
  ⟨by decide, by decide, tt_remove_empty_frame unfold_example (by decide) (by decide),
    by with_unfolding_all decide⟩

/-! ## The loops of `tt_unfold` -/

/-- The inner `while` of `tt_unfold` leaves the loop with its condition false when it
gets `top + 1 - row` steps of fuel, after writing `n` to the rows `row .. top`. -/
theorem fill_rows_exit : ∀ (fuel : Nat) (st : List Nat × Nat) (top n : Nat),
    top + 1 - st.2 ≤ fuel → top < st.1.length →
    (fill_rows fuel st top n).2 = max st.2 (top + 1) ∧
    (fill_rows fuel st top n).1.length = st.1.length ∧
    ∀ i, (fill_rows fuel st top n).1.getD i 0 =
      if st.2 ≤ i ∧ i ≤ top then n else st.1.getD i 0
  | 0, st, top, n => by
    intro hf _
    have : ¬ st.2 ≤ top := by omega
    refine ⟨by simp only [fill_rows]; omega, rfl, fun i => ?_⟩
    simp only [fill_rows]
    rw [if_neg (by omega)]
  | fuel + 1, st, top, n => by
    intro hf hlen
    by_cases hle : st.2 ≤ top
    · have ih := fill_rows_exit fuel (st.1.set st.2 n, st.2 + 1) top n
        (by simp only; omega) (by simp only [List.length_set]; exact hlen)
      simp only [List.length_set] at ih
      obtain ⟨i1, i2, i3⟩ := ih
      simp only [fill_rows, if_pos hle]
      refine ⟨by rw [i1]; omega, i2, fun i => ?_⟩
      rw [i3, getD_set_nat _ _ _ _ (by omega)]
      by_cases h1 : st.2 + 1 ≤ i ∧ i ≤ top
      · rw [if_pos h1, if_pos ⟨by omega, h1.2⟩]
      · rw [if_neg h1]
        by_cases h2 : i = st.2
        · rw [if_pos h2, if_pos ⟨by omega, by omega⟩]
        · rw [if_neg h2, if_neg (by omega)]
    · have hf' : fill_rows (fuel + 1) st top n = st := by
        simp only [fill_rows, if_neg hle]
      rw [hf']
      refine ⟨by omega, rfl, fun i => ?_⟩
      rw [if_neg (by omega)]

theorem set_range_fold (v : Nat) : ∀ (len row : Nat) (rp : List Nat), row + len ≤ rp.length →
    ((List.range' row len).foldl (fun rp r => rp.set r v) rp).length = rp.length ∧
    ∀ i, ((List.range' row len).foldl (fun rp r => rp.set r v) rp).getD i 0 =
      if row ≤ i ∧ i < row + len then v else rp.getD i 0
  | 0, row, rp => by
    intro _
    refine ⟨rfl, fun i => ?_⟩
    rw [if_neg (by omega)]
    rfl
  | len + 1, row, rp => by
    intro h
    obtain ⟨i1, i2⟩ := set_range_fold v len (row + 1) (rp.set row v)
      (by simp only [List.length_set]; omega)
    simp only [List.length_set] at i1
    rw [List.range'_succ, List.foldl_cons]
    refine ⟨i1, fun i => ?_⟩
    rw [i2, getD_set_nat _ _ _ _ (by omega)]
    by_cases h1 : row + 1 ≤ i ∧ i < row + 1 + len
    · rw [if_pos h1, if_pos ⟨by omega, by omega⟩]
    · rw [if_neg h1]
      by_cases h2 : i = row
      · rw [if_pos h2, if_pos ⟨by omega, by omega⟩]
      · rw [if_neg h2, if_neg (by omega)]

theorem row_start_eq (T : splatt_coo) (mode r n : Nat) (hn : n ≤ T.nnz)
    (h1 : ∀ p, p < n → rd T.ind mode p < r) (h2 : ∀ p, n ≤ p → p < T.nnz → r ≤ rd T.ind mode p) :
    row_start T mode r = n := by
  unfold row_start
  have : (Finset.range T.nnz).filter (fun p => rd T.ind mode p < r) = Finset.range n := by
    ext p
    simp only [Finset.mem_filter, Finset.mem_range]
    constructor
    · rintro ⟨hp, hlt⟩
      by_contra hc
      have := h2 p (by omega) hp
      omega
    · intro hp
      exact ⟨by omega, h1 p hp⟩
  rw [this, Finset.card_range]

/-- The loop over the nonzeros in `tt_unfold`, after `n` iterations, on a tensor
sorted by its index in `mode`. -/
theorem unfold_loop (T : splatt_coo) (mode nrows ncols : Nat)
    (hsort : ∀ p q, p ≤ q → q < T.nnz → rd T.ind mode p ≤ rd T.ind mode q)
    (hrange : ∀ p, p < T.nnz → rd T.ind mode p < nrows) : ∀ n, n ≤ T.nnz →
    ((List.range n).foldl (unfold_body T mode) (spmat_alloc nrows ncols T.nnz, 0)).1.I = nrows ∧
    ((List.range n).foldl (unfold_body T mode) (spmat_alloc nrows ncols T.nnz, 0)).1.J = ncols ∧
    ((List.range n).foldl (unfold_body T mode) (spmat_alloc nrows ncols T.nnz, 0)).1.nnz = T.nnz ∧
    ((List.range n).foldl (unfold_body T mode)
      (spmat_alloc nrows ncols T.nnz, 0)).1.rowptr.length = nrows + 1 ∧
    ((List.range n).foldl (unfold_body T mode)
      (spmat_alloc nrows ncols T.nnz, 0)).1.colind.length = T.nnz ∧
    ((List.range n).foldl (unfold_body T mode)
      (spmat_alloc nrows ncols T.nnz, 0)).1.vals.length = T.nnz ∧
    (∀ p, p < n →
      ((List.range n).foldl (unfold_body T mode)
        (spmat_alloc nrows ncols T.nnz, 0)).1.colind.getD p 0 = unfold_col T mode p ∧
      ((List.range n).foldl (unfold_body T mode)
        (spmat_alloc nrows ncols T.nnz, 0)).1.vals.getD p 0 = T.vals.getD p 0) ∧
    ((List.range n).foldl (unfold_body T mode) (spmat_alloc nrows ncols T.nnz, 0)).2 ≤ nrows ∧
    (∀ p, p < n → rd T.ind mode p <
      ((List.range n).foldl (unfold_body T mode) (spmat_alloc nrows ncols T.nnz, 0)).2) ∧
    (∀ r, r < ((List.range n).foldl (unfold_body T mode)
        (spmat_alloc nrows ncols T.nnz, 0)).2 →
      ((List.range n).foldl (unfold_body T mode)
        (spmat_alloc nrows ncols T.nnz, 0)).1.rowptr.getD r 0 = row_start T mode r) := by
  intro n
  induction n with
  | zero =>
    intro _
    simp [spmat_alloc]
  | succ n ih =>
    intro hn
    obtain ⟨h1, h2, h3, h4, h5, h6, h7, h8, h9, h10⟩ := ih (by omega)
    rw [List.range_succ, List.foldl_append, List.foldl_cons, List.foldl_nil]
    generalize (List.range n).foldl (unfold_body T mode) (spmat_alloc nrows ncols T.nnz, 0) = st
      at h1 h2 h3 h4 h5 h6 h7 h8 h9 h10
    have htop := hrange n (by omega)
    obtain ⟨f1, f2, f3⟩ := fill_rows_exit (rd T.ind mode n + 1) (st.1.rowptr, st.2)
      (rd T.ind mode n) n (by simp only; omega) (by simp only; omega)
    simp only at f1 f2 f3
    refine ⟨h1, h2, h3, ?_, ?_, ?_, fun p hp => ⟨?_, ?_⟩, ?_, fun p hp => ?_, fun r hr => ?_⟩
    · show (fill_rows _ _ _ _).1.length = _
      rw [f2, h4]
    · show (st.1.colind.set _ _).length = _
      rw [List.length_set, h5]
    · show (st.1.vals.set _ _).length = _
      rw [List.length_set, h6]
    · show (st.1.colind.set _ _).getD p 0 = _
      rw [getD_set_nat _ _ _ _ (by omega)]
      by_cases hpn : p = n
      · rw [if_pos hpn, hpn]
      · rw [if_neg hpn]
        exact (h7 p (by omega)).1
    · show (st.1.vals.set _ _).getD p 0 = _
      rw [getD_set_rat _ _ _ _ (by omega)]
      by_cases hpn : p = n
      · rw [if_pos hpn, hpn]
      · rw [if_neg hpn]
        exact (h7 p (by omega)).2
    · show (fill_rows _ _ _ _).2 ≤ _
      rw [f1]
      omega
    · show _ < (fill_rows _ _ _ _).2
      rw [f1]
      by_cases hpn : p = n
      · rw [hpn]; omega
      · have := h9 p (by omega)
        omega
    · have hr' : r < (fill_rows (rd T.ind mode n + 1) (st.1.rowptr, st.2) (rd T.ind mode n) n).2 :=
        hr
      rw [f1] at hr'
      show (fill_rows _ _ _ _).1.getD r 0 = _
      rw [f3]
      by_cases hin : st.2 ≤ r ∧ r ≤ rd T.ind mode n
      · rw [if_pos hin]
        symm
        apply row_start_eq T mode r n (by omega)
        · intro p hp
          have := h9 p hp
          omega
        · intro p hp1 hp2
          have := hsort n p hp1 hp2
          omega
      · rw [if_neg hin]
        exact h10 r (by omega)

theorem sort_perm_getD_lt (tt : splatt_coo) (mode p : Nat) (hp : p < tt.nnz) :
    (sort_perm tt mode).getD p 0 < tt.nnz := by
  have hl := length_sort_perm tt mode
  have hmem : (sort_perm tt mode).getD p 0 ∈ sort_perm tt mode := by
    rw [List.getD_eq_getElem _ _ (by omega)]
    exact List.getElem_mem _
  exact List.mem_range.mp ((sort_perm_perm tt mode).mem_iff.mp hmem)

theorem tt_sort_in_range (tt : splatt_coo) (mode : Nat) (hr : in_range tt) :
    in_range (tt_sort tt mode) := by
  intro m hm n hn
  have hm' : m < tt.nmodes := hm
  have hn' : n < tt.nnz := hn
  rw [rd_tt_sort tt mode m n hm' hn']
  exact hr m hm' _ (sort_perm_getD_lt tt mode n hn')

theorem lex_le_head {a b : Nat} {as bs : List Nat} (h : lex_le (a :: as) (b :: bs) = true) :
    a ≤ b := by
  simp only [lex_le, Bool.or_eq_true, decide_eq_true_eq, Bool.and_eq_true, beq_iff_eq] at h
  rcases h with h | ⟨h, _⟩ <;> omega

theorem sort_key_cons (tt : splatt_coo) (mode n : Nat) (hm : mode < tt.nmodes) :
    ∃ rest, sort_key tt mode n = rd tt.ind mode n :: rest := by
  unfold sort_key
  obtain ⟨k, hk⟩ : ∃ k, tt.nmodes = k + 1 := ⟨tt.nmodes - 1, by omega⟩
  rw [hk, List.range_succ_eq_map, List.map_cons]
  refine ⟨List.map (fun m => rd tt.ind ((mode + m) % (k + 1)) n)
    (List.map Nat.succ (List.range k)), ?_⟩
  rw [Nat.add_zero, Nat.mod_eq_of_lt (by omega)]

theorem tt_sort_mode_sorted (tt : splatt_coo) (mode : Nat) (hm : mode < tt.nmodes) :
    ∀ p q, p ≤ q → q < tt.nnz →
      rd (tt_sort tt mode).ind mode p ≤ rd (tt_sort tt mode).ind mode q := by
  intro p q hpq hq
  rcases Nat.eq_or_lt_of_le hpq with rfl | hlt
  · exact le_refl _
  · have hl := length_sort_perm tt mode
    rw [rd_tt_sort tt mode mode p hm (by omega), rd_tt_sort tt mode mode q hm hq]
    have hs := List.pairwise_iff_getElem.mp (sort_perm_sorted tt mode) p q (by omega) (by omega) hlt
    rw [List.getD_eq_getElem _ _ (by omega : p < (sort_perm tt mode).length),
      List.getD_eq_getElem _ _ (by omega : q < (sort_perm tt mode).length)]
    obtain ⟨r1, e1⟩ := sort_key_cons tt mode (sort_perm tt mode)[p] hm
    obtain ⟨r2, e2⟩ := sort_key_cons tt mode (sort_perm tt mode)[q] hm
    rw [e1, e2] at hs
    exact lex_le_head hs

/-- What `tt_unfold` returns, in terms of the sorted tensor. -/
theorem tt_unfold_spec (tt : splatt_coo) (mode : Nat) (hm : mode < tt.nmodes)
    (hr : in_range tt) :
    (tt_unfold tt mode).1 = tt_sort tt mode ∧
    (tt_unfold tt mode).2.I = tt.dims.getD mode 0 ∧
    (tt_unfold tt mode).2.J = unfold_ncols tt mode ∧
    (tt_unfold tt mode).2.nnz = tt.nnz ∧
    (tt_unfold tt mode).2.rowptr.length = tt.dims.getD mode 0 + 1 ∧
    (tt_unfold tt mode).2.colind.length = tt.nnz ∧
    (tt_unfold tt mode).2.vals.length = tt.nnz ∧
    (∀ p, p < tt.nnz →
      (tt_unfold tt mode).2.colind.getD p 0 = unfold_col (tt_sort tt mode) mode p ∧
      (tt_unfold tt mode).2.vals.getD p 0 = (tt_sort tt mode).vals.getD p 0) ∧
    (∀ r, r ≤ tt.dims.getD mode 0 →
      (tt_unfold tt mode).2.rowptr.getD r 0 = row_start (tt_sort tt mode) mode r) := by
  have hrT : ∀ p, p < (tt_sort tt mode).nnz →
      rd (tt_sort tt mode).ind mode p < tt.dims.getD mode 0 :=
    fun p hp => tt_sort_in_range tt mode hr mode hm p hp
  obtain ⟨h1, h2, h3, h4, h5, h6, h7, h8, h9, h10⟩ :=
    unfold_loop (tt_sort tt mode) mode (tt.dims.getD mode 0) (unfold_ncols tt mode)
      (tt_sort_mode_sorted tt mode hm) hrT (tt_sort tt mode).nnz (le_refl _)
  generalize hst : (List.range (tt_sort tt mode).nnz).foldl (unfold_body (tt_sort tt mode) mode)
      (spmat_alloc (tt.dims.getD mode 0) (unfold_ncols tt mode) (tt_sort tt mode).nnz, 0) = st
    at h1 h2 h3 h4 h5 h6 h7 h8 h9 h10
  obtain ⟨g1, g2⟩ := set_range_fold (tt_sort tt mode).nnz (tt.dims.getD mode 0 + 1 - st.2) st.2
    st.1.rowptr (by omega)
  have hu : tt_unfold tt mode = (tt_sort tt mode,
      { st.1 with
        rowptr := List.foldl (fun rp r => rp.set r (tt_sort tt mode).nnz) st.1.rowptr
          (List.range' st.2 (tt.dims.getD mode 0 + 1 - st.2)) }) := by
    unfold tt_unfold
    simp only [hst]
  rw [hu]
  refine ⟨rfl, h1, h2, h3, by simp only [g1, h4], h5, h6, h7, fun r hr' => ?_⟩
  simp only [g2]
  by_cases hin : st.2 ≤ r ∧ r < st.2 + (tt.dims.getD mode 0 + 1 - st.2)
  · rw [if_pos hin]
    symm
    apply row_start_eq _ mode r _ (le_refl _)
    · intro p hp
      have := h9 p hp
      omega
    · intro p hp1 hp2
      omega
  · rw [if_neg hin]
    exact h10 r (by omega)

/-! ## Row pointers -/

theorem row_start_zero (T : splatt_coo) (mode : Nat) : row_start T mode 0 = 0 := by
  simp [row_start]

theorem row_start_mono (T : splatt_coo) (mode : Nat) {r s : Nat} (h : r ≤ s) :
    row_start T mode r ≤ row_start T mode s := by
  unfold row_start
  apply Finset.card_le_card
  intro p hp
  simp only [Finset.mem_filter, Finset.mem_range] at hp ⊢
  exact ⟨hp.1, by omega⟩

theorem row_start_top (T : splatt_coo) (mode D : Nat)
    (h : ∀ p, p < T.nnz → rd T.ind mode p < D) : row_start T mode D = T.nnz :=
  row_start_eq T mode D T.nnz (le_refl _) h (fun p h1 h2 => by omega)

theorem row_start_skip (T : splatt_coo) (mode : Nat) {r s : Nat} (h : r ≤ s)
    (hempty : ∀ r', r ≤ r' → r' < s → ∀ p, p < T.nnz → rd T.ind mode p ≠ r') :
    row_start T mode r = row_start T mode s := by
  unfold row_start
  congr 1
  ext p
  simp only [Finset.mem_filter, Finset.mem_range]
  constructor
  · rintro ⟨hp, hlt⟩
    exact ⟨hp, by omega⟩
  · rintro ⟨hp, hlt⟩
    refine ⟨hp, ?_⟩
    by_contra hc
    exact hempty (rd T.ind mode p) (by omega) hlt p hp rfl

theorem lt_row_start_iff (T : splatt_coo) (mode r p : Nat) (hp : p < T.nnz)
    (hsort : ∀ p q, p ≤ q → q < T.nnz → rd T.ind mode p ≤ rd T.ind mode q) :
    p < row_start T mode r ↔ rd T.ind mode p < r := by
  constructor
  · intro h
    by_contra hc
    have : row_start T mode r ≤ p := by
      unfold row_start
      calc ((Finset.range T.nnz).filter (fun q => rd T.ind mode q < r)).card
          ≤ (Finset.range p).card := by
            apply Finset.card_le_card
            intro q hq
            simp only [Finset.mem_filter, Finset.mem_range] at hq ⊢
            by_contra hqp
            have := hsort p q (by omega) hq.1
            omega
        _ = p := Finset.card_range p
    omega
  · intro h
    have : p + 1 ≤ row_start T mode r := by
      unfold row_start
      calc p + 1 = (Finset.range (p + 1)).card := (Finset.card_range _).symm
        _ ≤ ((Finset.range T.nnz).filter (fun q => rd T.ind mode q < r)).card := by
            apply Finset.card_le_card
            intro q hq
            simp only [Finset.mem_filter, Finset.mem_range] at hq ⊢
            have := hsort q p (by omega) hp
            exact ⟨by omega, by omega⟩
    omega

/-! ## Claims on the row pointers of `tt_unfold` -/

/-- C8: for in-range indices and `mode < nmodes`, the tensor left by `tt_unfold` is a
rearrangement of the input, and `rowptr` has `dims[mode] + 1` entries, starts at 0,
ends at `nnz`, is non-decreasing, delimits for every row `r` exactly the positions of
the sorted nonzeros whose index in `mode` is `r`, and is constant across empty rows
(so an empty row starts where the next populated row starts, or at `nnz`). -/
theorem tt_unfold_rowptr (tt : splatt_coo) (mode : Nat) (hm : mode < tt.nmodes)
    (hr : in_range tt) :
    (entries (tt_unfold tt mode).1).Perm (entries tt) ∧
    (tt_unfold tt mode).2.rowptr.length = tt.dims.getD mode 0 + 1 ∧
    (tt_unfold tt mode).2.rowptr.getD 0 0 = 0 ∧
    (tt_unfold tt mode).2.rowptr.getD (tt.dims.getD mode 0) 0 = tt.nnz ∧
    (∀ r s, r ≤ s → s ≤ tt.dims.getD mode 0 →
      (tt_unfold tt mode).2.rowptr.getD r 0 ≤ (tt_unfold tt mode).2.rowptr.getD s 0) ∧
    (∀ r p, r < tt.dims.getD mode 0 → p < tt.nnz →
      (((tt_unfold tt mode).2.rowptr.getD r 0 ≤ p ∧
          p < (tt_unfold tt mode).2.rowptr.getD (r + 1) 0) ↔
        rd (tt_unfold tt mode).1.ind mode p = r)) ∧
    (∀ r s, r ≤ s → s ≤ tt.dims.getD mode 0 →
      (∀ r', r ≤ r' → r' < s → ∀ p, p < tt.nnz → rd (tt_unfold tt mode).1.ind mode p ≠ r') →
      (tt_unfold tt mode).2.rowptr.getD r 0 = (tt_unfold tt mode).2.rowptr.getD s 0) := by
  obtain ⟨u1, _, _, _, u5, _, _, _, u9⟩ := tt_unfold_spec tt mode hm hr
  have hsort := tt_sort_mode_sorted tt mode hm
  have hrT : ∀ p, p < (tt_sort tt mode).nnz →
      rd (tt_sort tt mode).ind mode p < tt.dims.getD mode 0 :=
    fun p hp => tt_sort_in_range tt mode hr mode hm p hp
  rw [u1]
  refine ⟨entries_tt_sort_perm tt mode, u5, ?_, ?_, ?_, ?_, ?_⟩
  · rw [u9 0 (Nat.zero_le _), row_start_zero]
  · rw [u9 _ (le_refl _), row_start_top _ _ _ hrT]
    rfl
  · intro r s hrs hs
    rw [u9 r (by omega), u9 s hs]
    exact row_start_mono _ _ hrs
  · intro r p hr' hp
    rw [u9 r (by omega), u9 (r + 1) (by omega)]
    have a := lt_row_start_iff (tt_sort tt mode) mode r p hp hsort
    have b := lt_row_start_iff (tt_sort tt mode) mode (r + 1) p hp hsort
    constructor
    · rintro ⟨h1, h2⟩
      have := b.mp h2
      have : ¬ rd (tt_sort tt mode).ind mode p < r := fun h => by
        have := a.mpr h
        omega
      omega
    · intro h
      refine ⟨?_, b.mpr (by omega)⟩
      by_contra hc
      have := a.mp (by omega)
      omega
  · intro r s hrs hs hempty
    rw [u9 r (by omega), u9 s hs]
    exact row_start_skip _ _ hrs hempty

theorem tt_unfold_rowptr_witness :
    0 < sparse_example.nmodes ∧ in_range sparse_example ∧
    ((entries (tt_unfold sparse_example 0).1).Perm (entries sparse_example) ∧
    (tt_unfold sparse_example 0).2.rowptr.length = sparse_example.dims.getD 0 0 + 1 ∧
    (tt_unfold sparse_example 0).2.rowptr.getD 0 0 = 0 ∧
    (tt_unfold sparse_example 0).2.rowptr.getD (sparse_example.dims.getD 0 0) 0 =
      sparse_example.nnz ∧
    (∀ r s, r ≤ s → s ≤ sparse_example.dims.getD 0 0 →
      (tt_unfold sparse_example 0).2.rowptr.getD r 0 ≤
        (tt_unfold sparse_example 0).2.rowptr.getD s 0) ∧
    (∀ r p, r < sparse_example.dims.getD 0 0 → p < sparse_example.nnz →
      (((tt_unfold sparse_example 0).2.rowptr.getD r 0 ≤ p ∧
          p < (tt_unfold sparse_example 0).2.rowptr.getD (r + 1) 0) ↔
        rd (tt_unfold sparse_example 0).1.ind 0 p = r)) ∧
    (∀ r s, r ≤ s → s ≤ sparse_example.dims.getD 0 0 →
      (∀ r', r ≤ r' → r' < s → ∀ p, p < sparse_example.nnz →
        rd (tt_unfold sparse_example 0).1.ind 0 p ≠ r') →
      (tt_unfold sparse_example 0).2.rowptr.getD r 0 =
        (tt_unfold sparse_example 0).2.rowptr.getD s 0)) ∧
    (tt_unfold sparse_example 0).2.rowptr = [0, 2, 5, 5, 5, 5] ∧
    (tt_unfold sparse_example 0).1.ind = [[0, 0, 1, 1, 1], [0, 1, 0, 1, 1], [1, 1, 1, 0, 1]] :=
  ⟨by decide, by decide, tt_unfold_rowptr sparse_example 0 (by decide) (by decide),
    by decide, by decide⟩

/-! ## Column indices -/

theorem mul_mod_left_mod (a b M : Nat) : (a * (b % M)) % M = (a * b) % M := by
  rw [Nat.mul_mod, Nat.mod_mod, ← Nat.mul_mod]

theorem mod_mul_right_mod (a b M : Nat) : ((a % M) * b) % M = (a * b) % M := by
  rw [Nat.mul_mod, Nat.mod_mod, ← Nat.mul_mod]

/-- The column loop computes `col_upto` and `mult_upto` modulo `2 ^ 64`. -/
theorem col_loop_mod (T : splatt_coo) (mode n : Nat) : ∀ t,
    (List.range t).foldl (col_body T mode n) (0, 1) =
      (col_upto T mode n t % idx_mod, mult_upto T mode t % idx_mod) := by
  intro t
  induction t with
  | zero => rfl
  | succ t ih =>
    rw [List.range_succ, List.foldl_append, ih, List.foldl_cons, List.foldl_nil]
    unfold col_body
    by_cases h : T.nmodes - 1 - t = mode
    · simp only [h, if_true, col_upto, mult_upto]
    · simp only [h, if_false, col_upto, mult_upto]
      rw [mul_mod_left_mod, ← Nat.add_mod, mod_mul_right_mod]

theorem ico_filter_step (K t mode : Nat) (ht : t < K) :
    (Finset.Ico (K - (t + 1)) K).filter (fun j => j ≠ mode) =
      if K - 1 - t = mode then (Finset.Ico (K - t) K).filter (fun j => j ≠ mode)
      else insert (K - 1 - t) ((Finset.Ico (K - t) K).filter (fun j => j ≠ mode)) := by
  ext x
  by_cases h : K - 1 - t = mode
  · rw [if_pos h]
    simp only [Finset.mem_filter, Finset.mem_Ico]
    constructor
    · rintro ⟨⟨h1, h2⟩, h3⟩
      exact ⟨⟨by omega, h2⟩, h3⟩
    · rintro ⟨⟨h1, h2⟩, h3⟩
      exact ⟨⟨by omega, h2⟩, h3⟩
  · rw [if_neg h]
    simp only [Finset.mem_insert, Finset.mem_filter, Finset.mem_Ico]
    constructor
    · rintro ⟨⟨h1, h2⟩, h3⟩
      by_cases hx : x = K - 1 - t
      · exact Or.inl hx
      · exact Or.inr ⟨⟨by omega, h2⟩, h3⟩
    · rintro (hx | ⟨⟨h1, h2⟩, h3⟩)
      · exact ⟨⟨by omega, by omega⟩, by omega⟩
      · exact ⟨⟨by omega, h2⟩, h3⟩

theorem mult_upto_eq (T : splatt_coo) (mode : Nat) : ∀ t, t ≤ T.nmodes →
    mult_upto T mode t =
      ∏ j in (Finset.Ico (T.nmodes - t) T.nmodes).filter (fun j => j ≠ mode), T.dims.getD j 0 := by
  intro t
  induction t with
  | zero => intro _; simp [mult_upto]
  | succ t ih =>
    intro ht
    rw [mult_upto, ico_filter_step T.nmodes t mode (by omega), ih (by omega)]
    by_cases h : T.nmodes - 1 - t = mode
    · rw [if_pos h, if_pos h]
    · rw [if_neg h, if_neg h, Finset.prod_insert, Nat.mul_comm]
      simp only [Finset.mem_filter, Finset.mem_Ico]
      omega

theorem col_upto_eq (T : splatt_coo) (mode n : Nat) : ∀ t, t ≤ T.nmodes →
    col_upto T mode n t =
      ∑ k in (Finset.Ico (T.nmodes - t) T.nmodes).filter (fun j => j ≠ mode),
        rd T.ind k n *
          ∏ j in (Finset.Ico (k + 1) T.nmodes).filter (fun j => j ≠ mode), T.dims.getD j 0 := by
  intro t
  induction t with
  | zero => intro _; simp [col_upto]
  | succ t ih =>
    intro ht
    rw [col_upto, ico_filter_step T.nmodes t mode (by omega), ih (by omega)]
    by_cases h : T.nmodes - 1 - t = mode
    · rw [if_pos h, if_pos h]
    · rw [if_neg h, if_neg h, Finset.sum_insert, Nat.add_comm, mult_upto_eq T mode t (by omega)]
      · have : T.nmodes - 1 - t + 1 = T.nmodes - t := by omega
        rw [this]
      · simp only [Finset.mem_filter, Finset.mem_Ico]
        omega

theorem col_upto_lt (T : splatt_coo) (mode n : Nat) (hn : n < T.nnz) (hr : in_range T) :
    ∀ t, t ≤ T.nmodes → col_upto T mode n t < mult_upto T mode t := by
  intro t
  induction t with
  | zero => intro _; simp [col_upto, mult_upto]
  | succ t ih =>
    intro ht
    have := ih (by omega)
    rw [col_upto, mult_upto]
    by_cases h : T.nmodes - 1 - t = mode
    · rw [if_pos h, if_pos h]; exact this
    · rw [if_neg h, if_neg h]
      have hlt := hr (T.nmodes - 1 - t) (by omega) n hn
      calc col_upto T mode n t + rd T.ind (T.nmodes - 1 - t) n * mult_upto T mode t
          < mult_upto T mode t + rd T.ind (T.nmodes - 1 - t) n * mult_upto T mode t := by omega
        _ = (rd T.ind (T.nmodes - 1 - t) n + 1) * mult_upto T mode t := by ring
        _ ≤ T.dims.getD (T.nmodes - 1 - t) 0 * mult_upto T mode t :=
            Nat.mul_le_mul_right _ hlt
        _ = mult_upto T mode t * T.dims.getD (T.nmodes - 1 - t) 0 := Nat.mul_comm _ _

theorem foldl_mul_mod (g : Nat → Nat) (M : Nat) : ∀ (l : List Nat) (a : Nat),
    l.foldl (fun nc m => (nc * g m) % M) (a % M) = (a * (l.map g).prod) % M
  | [], a => by simp
  | x :: l, a => by
    rw [List.foldl_cons, foldl_mul_mod g M l, List.map_cons, List.prod_cons, Nat.mul_assoc,
      mod_mul_right_mod]

theorem rot_mod (K mode m : Nat) (hmode : mode < K) (hm : m < K) :
    (mode + m) % K = if mode + m < K then mode + m else mode + m - K := by
  by_cases h : mode + m < K
  · rw [if_pos h, Nat.mod_eq_of_lt h]
  · rw [if_neg h, Nat.mod_eq_sub_mod (by omega), Nat.mod_eq_of_lt (by omega)]

theorem prod_rot (f : Nat → Nat) (K mode : Nat) (hmode : mode < K) :
    ((List.range' 1 (K - 1)).map (fun m => f ((mode + m) % K))).prod =
      ∏ j in (Finset.range K).filter (fun j => j ≠ mode), f j := by
  rw [← List.prod_toFinset _ (List.nodup_range' 1 (K - 1))]
  apply Finset.prod_bij (fun m _ => (mode + m) % K)
  · intro m hm
    simp only [List.mem_toFinset, List.mem_range'_1] at hm
    simp only [Finset.mem_filter, Finset.mem_range]
    rw [rot_mod K mode m hmode (by omega)]
    split <;> omega
  · intro a ha b hb hab
    simp only [List.mem_toFinset, List.mem_range'_1] at ha hb
    rw [rot_mod K mode a hmode (by omega), rot_mod K mode b hmode (by omega)] at hab
    split at hab <;> split at hab <;> omega
  · intro j hj
    simp only [Finset.mem_filter, Finset.mem_range] at hj
    by_cases hlt : mode < j
    · refine ⟨j - mode, ?_, ?_⟩
      · simp only [List.mem_toFinset, List.mem_range'_1]
        omega
      · rw [rot_mod K mode (j - mode) hmode (by omega)]
        split <;> omega
    · refine ⟨j + K - mode, ?_, ?_⟩
      · simp only [List.mem_toFinset, List.mem_range'_1]
        omega
      · rw [rot_mod K mode (j + K - mode) hmode (by omega)]
        split <;> omega
  · intro m _
    rfl

theorem unfold_ncols_eq (tt : splatt_coo) (mode : Nat) (hm : mode < tt.nmodes) :
    unfold_ncols tt mode =
      (∏ j in (Finset.range tt.nmodes).filter (fun j => j ≠ mode), tt.dims.getD j 0) % idx_mod := by
  have h1 : (1 : Nat) = 1 % idx_mod := by decide
  have h2 := foldl_mul_mod (fun m => tt.dims.getD ((mode + m) % tt.nmodes) 0) idx_mod
    (List.range' 1 (tt.nmodes - 1)) 1
  rw [← h1, prod_rot (fun j => tt.dims.getD j 0) tt.nmodes mode hm, Nat.one_mul] at h2
  exact h2

theorem mult_upto_full (T : splatt_coo) (mode : Nat) :
    mult_upto T mode T.nmodes =
      ∏ j in (Finset.range T.nmodes).filter (fun j => j ≠ mode), T.dims.getD j 0 := by
  rw [mult_upto_eq T mode T.nmodes (le_refl _), Nat.sub_self, Finset.range_eq_Ico]

theorem col_upto_full (T : splatt_coo) (mode n : Nat) :
    col_upto T mode n T.nmodes =
      ∑ k in (Finset.range T.nmodes).filter (fun j => j ≠ mode),
        rd T.ind k n *
          ∏ j in (Finset.range T.nmodes).filter (fun j => k < j ∧ j ≠ mode), T.dims.getD j 0 := by
  rw [col_upto_eq T mode n T.nmodes (le_refl _), Nat.sub_self, Finset.range_eq_Ico]
  apply Finset.sum_congr rfl
  intro k _
  congr 1
  apply Finset.prod_congr _ (fun _ _ => rfl)
  ext j
  simp only [Finset.mem_filter, Finset.mem_Ico]
  constructor
  · rintro ⟨⟨h1, h2⟩, h3⟩
    exact ⟨⟨by omega, h2⟩, by omega, h3⟩
  · rintro ⟨⟨_, h2⟩, h3, h4⟩
    exact ⟨⟨by omega, h2⟩, h4⟩

/-- Without overflow of the column count, the column index of a nonzero is the
mixed-radix number `col_upto` and lies below the column count. -/
theorem unfold_col_eq (T : splatt_coo) (mode n : Nat) (hn : n < T.nnz) (hr : in_range T)
    (hov : mult_upto T mode T.nmodes < idx_mod) :
    unfold_col T mode n = col_upto T mode n T.nmodes ∧
    unfold_col T mode n < mult_upto T mode T.nmodes := by
  have hlt := col_upto_lt T mode n hn hr T.nmodes (le_refl _)
  have : unfold_col T mode n = col_upto T mode n T.nmodes := by
    unfold unfold_col
    rw [col_loop_mod]
    exact Nat.mod_eq_of_lt (by omega)
  rw [this]
  exact ⟨rfl, hlt⟩

/-! ## Claims on the shape and the columns of `tt_unfold` -/

/-- C7: for in-range indices, `mode < nmodes` and a column count that fits `idx_t`,
`tt_unfold` returns a matrix with `dims[mode]` rows and `∏_{k ≠ mode} dims[k]`
columns; the tensor it leaves is a rearrangement of the input, and entry `p` of the
matrix carries the value of nonzero `p` and the column
`∑_{k ≠ mode} ind[k][p] * ∏_{j > k, j ≠ mode} dims[j]`, which is below the column
count. -/
theorem tt_unfold_columns (tt : splatt_coo) (mode : Nat) (hm : mode < tt.nmodes)
    (hr : in_range tt)
    (hov : (∏ j in (Finset.range tt.nmodes).filter (fun j => j ≠ mode), tt.dims.getD j 0)
      < idx_mod) :
    (entries (tt_unfold tt mode).1).Perm (entries tt) ∧
    (tt_unfold tt mode).2.I = tt.dims.getD mode 0 ∧
    (tt_unfold tt mode).2.J =
      ∏ j in (Finset.range tt.nmodes).filter (fun j => j ≠ mode), tt.dims.getD j 0 ∧
    ∀ p, p < tt.nnz →
      (tt_unfold tt mode).2.colind.getD p 0 =
        ∑ k in (Finset.range tt.nmodes).filter (fun j => j ≠ mode),
          rd (tt_unfold tt mode).1.ind k p *
            ∏ j in (Finset.range tt.nmodes).filter (fun j => k < j ∧ j ≠ mode),
              tt.dims.getD j 0 ∧
      (tt_unfold tt mode).2.colind.getD p 0 < (tt_unfold tt mode).2.J ∧
      (tt_unfold tt mode).2.vals.getD p 0 = (tt_unfold tt mode).1.vals.getD p 0 := by
  obtain ⟨u1, u2, u3, _, _, _, _, u8, _⟩ := tt_unfold_spec tt mode hm hr
  have hJ : (tt_unfold tt mode).2.J =
      ∏ j in (Finset.range tt.nmodes).filter (fun j => j ≠ mode), tt.dims.getD j 0 := by
    rw [u3, unfold_ncols_eq tt mode hm, Nat.mod_eq_of_lt hov]
  have hfull := mult_upto_full (tt_sort tt mode) mode
  have hov' : mult_upto (tt_sort tt mode) mode (tt_sort tt mode).nmodes < idx_mod := by
    rw [hfull]; exact hov
  refine ⟨by rw [u1]; exact entries_tt_sort_perm tt mode, u2, hJ, fun p hp => ?_⟩
  obtain ⟨c1, c2⟩ := unfold_col_eq (tt_sort tt mode) mode p hp (tt_sort_in_range tt mode hr) hov'
  rw [hJ, (u8 p hp).1, (u8 p hp).2, u1]
  refine ⟨?_, ?_, rfl⟩
  · rw [c1, col_upto_full]
    rfl
  · rw [hfull] at c2
    exact c2

theorem tt_unfold_columns_witness :
    0 < unfold_example.nmodes ∧ in_range unfold_example ∧
    (∏ j in (Finset.range unfold_example.nmodes).filter (fun j => j ≠ 0),
      unfold_example.dims.getD j 0) < idx_mod ∧
    ((entries (tt_unfold unfold_example 0).1).Perm (entries unfold_example) ∧
    (tt_unfold unfold_example 0).2.I = unfold_example.dims.getD 0 0 ∧
    (tt_unfold unfold_example 0).2.J =
      ∏ j in (Finset.range unfold_example.nmodes).filter (fun j => j ≠ 0),
        unfold_example.dims.getD j 0 ∧
    ∀ p, p < unfold_example.nnz →
      (tt_unfold unfold_example 0).2.colind.getD p 0 =
        ∑ k in (Finset.range unfold_example.nmodes).filter (fun j => j ≠ 0),
          rd (tt_unfold unfold_example 0).1.ind k p *
            ∏ j in (Finset.range unfold_example.nmodes).filter (fun j => k < j ∧ j ≠ 0),
              unfold_example.dims.getD j 0 ∧
      (tt_unfold unfold_example 0).2.colind.getD p 0 < (tt_unfold unfold_example 0).2.J ∧
      (tt_unfold unfold_example 0).2.vals.getD p 0 =
        (tt_unfold unfold_example 0).1.vals.getD p 0) ∧
    (tt_unfold unfold_example 0).2 =
      { I := 2, J := 4, nnz := 8, rowptr := [0, 4, 8], colind := [0, 1, 2, 3, 0, 1, 2, 3],
        vals := [0, 1, 2, 3, 4, 5, 6, 7] } :=
  ⟨by decide, by decide, by decide,
    tt_unfold_columns unfold_example 0 (by decide) (by decide) (by decide),
    by with_unfolding_all decide⟩

/-! ## Decoding a column index -/

theorem col_high_split (T : splatt_coo) (mode n : Nat) : ∀ t, t ≤ T.nmodes →
    col_upto T mode n t + mult_upto T mode t * col_high T mode n (T.nmodes - t) =
      col_high T mode n T.nmodes := by
  intro t
  induction t with
  | zero => intro _; simp [col_upto, mult_upto]
  | succ t ih =>
    intro ht
    rw [← ih (by omega)]
    have hk : T.nmodes - t = (T.nmodes - 1 - t) + 1 := by omega
    have hk' : T.nmodes - (t + 1) = T.nmodes - 1 - t := by omega
    rw [hk, hk', col_upto, mult_upto, col_high]
    by_cases h : T.nmodes - 1 - t = mode
    · rw [if_pos h, if_pos h, if_pos h]
    · rw [if_neg h, if_neg h, if_neg h]
      ring

theorem col_high_full (T : splatt_coo) (mode n : Nat) :
    col_high T mode n T.nmodes = col_upto T mode n T.nmodes := by
  have := col_high_split T mode n T.nmodes (le_refl _)
  rw [Nat.sub_self] at this
  simp only [col_high, Nat.mul_zero, Nat.add_zero] at this
  exact this.symm

/-- The inverse mixed-radix loop, after `t` steps, started on the column of
nonzero `n`. -/
theorem decode_loop (T : splatt_coo) (mode n : Nat) (hn : n < T.nnz) (hr : in_range T)
    (c0 : List Nat) (hc0 : c0.length = T.nmodes) : ∀ t, t ≤ T.nmodes →
    ((List.range t).foldl (decode_body T.dims T.nmodes mode)
      (col_high T mode n T.nmodes, c0)).1 = col_high T mode n (T.nmodes - t) ∧
    ((List.range t).foldl (decode_body T.dims T.nmodes mode)
      (col_high T mode n T.nmodes, c0)).2.length = T.nmodes ∧
    ∀ k, ((List.range t).foldl (decode_body T.dims T.nmodes mode)
      (col_high T mode n T.nmodes, c0)).2.getD k 0 =
        if T.nmodes - t ≤ k ∧ k < T.nmodes ∧ k ≠ mode then rd T.ind k n else c0.getD k 0 := by
  intro t
  induction t with
  | zero =>
    intro _
    refine ⟨rfl, hc0, fun k => ?_⟩
    rw [if_neg (by omega)]
    rfl
  | succ t ih =>
    intro ht
    obtain ⟨h1, h2, h3⟩ := ih (by omega)
    rw [List.range_succ, List.foldl_append, List.foldl_cons, List.foldl_nil]
    generalize (List.range t).foldl (decode_body T.dims T.nmodes mode)
      (col_high T mode n T.nmodes, c0) = st at h1 h2 h3
    have hk : T.nmodes - t = (T.nmodes - 1 - t) + 1 := by omega
    have hk' : T.nmodes - (t + 1) = T.nmodes - 1 - t := by omega
    rw [hk, col_high] at h1
    unfold decode_body
    by_cases h : T.nmodes - 1 - t = mode
    · rw [if_pos h] at h1
      simp only [h, if_true]
      refine ⟨by rw [h1, hk', h], h2, fun k => ?_⟩
      rw [h3]
      by_cases hc : T.nmodes - t ≤ k ∧ k < T.nmodes ∧ k ≠ mode
      · rw [if_pos hc, if_pos ⟨by omega, hc.2⟩]
      · rw [if_neg hc, if_neg (by omega)]
    · rw [if_neg h] at h1
      have hlt := hr (T.nmodes - 1 - t) (by omega) n hn
      simp only [h, if_false]
      refine ⟨?_, by simp [h2], fun k => ?_⟩
      · rw [h1, hk', Nat.add_mul_div_left _ _ (by omega), Nat.div_eq_of_lt hlt, Nat.zero_add]
      · rw [getD_set_nat _ _ _ _ (by omega), h3]
        by_cases hko : k = T.nmodes - 1 - t
        · rw [if_pos hko, if_pos ⟨by omega, by omega, by omega⟩, h1,
            Nat.add_mul_mod_self_left, Nat.mod_eq_of_lt hlt, hko]
        · rw [if_neg hko]
          by_cases hc : T.nmodes - t ≤ k ∧ k < T.nmodes ∧ k ≠ mode
          · rw [if_pos hc, if_pos ⟨by omega, hc.2⟩]
          · rw [if_neg hc, if_neg (by omega)]

/-- Decoding the column of nonzero `n` recovers its index in every mode but `mode`,
and puts the row at `mode`. -/
theorem decode_coord_col (T : splatt_coo) (mode n row : Nat) (hm : mode < T.nmodes)
    (hn : n < T.nnz) (hr : in_range T) :
    (decode_coord T.dims T.nmodes mode row (col_high T mode n T.nmodes)).length = T.nmodes ∧
    ∀ k, k < T.nmodes →
      (decode_coord T.dims T.nmodes mode row (col_high T mode n T.nmodes)).getD k 0 =
        if k = mode then row else rd T.ind k n := by
  obtain ⟨_, h2, h3⟩ := decode_loop T mode n hn hr ((List.replicate T.nmodes 0).set mode row)
    (by simp) T.nmodes (le_refl _)
  refine ⟨h2, fun k hk => ?_⟩
  unfold decode_coord
  rw [h3]
  by_cases hkm : k = mode
  · rw [if_neg (by omega), if_pos hkm, getD_set_nat _ _ _ _ (by simp; omega), if_pos hkm]
  · rw [if_pos ⟨by omega, hk, hkm⟩, if_neg hkm]

theorem countP_lt_range (a : Nat) : ∀ I, (List.range I).countP (fun r => decide (r < a)) = min a I := by
  intro I
  induction I with
  | zero => simp
  | succ I ih =>
    rw [List.range_succ, List.countP_append, ih]
    by_cases h : I < a
    · simp [List.countP_cons, h]
      omega
    · simp [List.countP_cons, h]
      omega

theorem csr_row_eq (tt : splatt_coo) (mode p : Nat) (hm : mode < tt.nmodes) (hr : in_range tt)
    (hp : p < tt.nnz) :
    csr_row (tt_unfold tt mode).2 p = rd (tt_sort tt mode).ind mode p := by
  obtain ⟨_, u2, _, _, _, _, _, _, u9⟩ := tt_unfold_spec tt mode hm hr
  have hsort := tt_sort_mode_sorted tt mode hm
  have hlt : rd (tt_sort tt mode).ind mode p < tt.dims.getD mode 0 :=
    tt_sort_in_range tt mode hr mode hm p hp
  unfold csr_row
  rw [u2]
  have : (List.range (tt.dims.getD mode 0)).countP
      (fun r => decide ((tt_unfold tt mode).2.rowptr.getD (r + 1) 0 ≤ p)) =
      (List.range (tt.dims.getD mode 0)).countP
        (fun r => decide (r < rd (tt_sort tt mode).ind mode p)) := by
    apply List.countP_congr
    intro r hr'
    have hr'' := List.mem_range.mp hr'
    rw [u9 (r + 1) (by omega)]
    have := lt_row_start_iff (tt_sort tt mode) mode (r + 1) p hp hsort
    simp only [decide_eq_true_eq]
    constructor
    · intro h
      by_contra hc
      have := this.mpr (by omega)
      omega
    · intro h
      by_contra hc
      have := this.mp (by omega)
      omega
  rw [this, countP_lt_range]
  omega

theorem getD_coord (T : splatt_coo) (n k : Nat) (hk : k < T.nmodes) :
    (coord T n).getD k 0 = rd T.ind k n := by
  unfold coord
  simp [List.getD_eq_getElem?_getD, List.getElem?_range hk]

theorem rebuild_tt_unfold (tt : splatt_coo) (mode : Nat) (hm : mode < tt.nmodes)
    (hr : in_range tt)
    (hov : (∏ j in (Finset.range tt.nmodes).filter (fun j => j ≠ mode), tt.dims.getD j 0)
      < idx_mod) :
    rebuild tt.dims tt.nmodes mode (tt_unfold tt mode).2 = entries (tt_sort tt mode) := by
  obtain ⟨_, _, _, u4, _, _, _, u8, _⟩ := tt_unfold_spec tt mode hm hr
  have hrT := tt_sort_in_range tt mode hr
  have hov' : mult_upto (tt_sort tt mode) mode (tt_sort tt mode).nmodes < idx_mod := by
    rw [mult_upto_full]; exact hov
  unfold rebuild entries
  rw [u4]
  apply List.map_congr_left
  intro p hp
  have hp' : p < tt.nnz := List.mem_range.mp hp
  obtain ⟨c1, _⟩ := unfold_col_eq (tt_sort tt mode) mode p hp' hrT hov'
  have hd := decode_coord_col (tt_sort tt mode) mode p
    (rd (tt_sort tt mode).ind mode p) hm hp' hrT
  have d1 : (decode_coord tt.dims tt.nmodes mode (rd (tt_sort tt mode).ind mode p)
      (col_high (tt_sort tt mode) mode p tt.nmodes)).length = tt.nmodes := hd.1
  have d2 : ∀ k, k < tt.nmodes →
      (decode_coord tt.dims tt.nmodes mode (rd (tt_sort tt mode).ind mode p)
        (col_high (tt_sort tt mode) mode p tt.nmodes)).getD k 0 =
        if k = mode then rd (tt_sort tt mode).ind mode p else rd (tt_sort tt mode).ind k p :=
    hd.2
  have c1' : unfold_col (tt_sort tt mode) mode p = col_high (tt_sort tt mode) mode p tt.nmodes :=
    c1.trans (col_high_full (tt_sort tt mode) mode p).symm
  rw [(u8 p hp').1, (u8 p hp').2, csr_row_eq tt mode p hm hr hp', c1']
  unfold entry
  congr 1
  apply list_ext_getD
  · rw [d1]
    simp [coord, tt_sort]
  · intro k hk
    have hk' : k < tt.nmodes := d1 ▸ hk
    have hc : (coord (tt_sort tt mode) p).getD k 0 = rd (tt_sort tt mode).ind k p :=
      getD_coord (tt_sort tt mode) p k hk'
    rw [hc, d2 k hk']
    by_cases hkm : k = mode
    · rw [if_pos hkm, hkm]
    · rw [if_neg hkm]

/-! ## Claims on rebuilding the tensor from its unfolding -/

/-- C9 (amended): for in-range indices, `mode < nmodes` and a column count that fits
`idx_t`, the (coordinate, value) pairs rebuilt from the unfolding, the row read off
`rowptr` and the column decoded by successive `mod`/`div`, are the nonzeros of the
input up to order; and two entries with the same column agree in every mode but
`mode`. -/
theorem tt_unfold_round_trip (tt : splatt_coo) (mode : Nat) (hm : mode < tt.nmodes)
    (hr : in_range tt)
    (hov : (∏ j in (Finset.range tt.nmodes).filter (fun j => j ≠ mode), tt.dims.getD j 0)
      < idx_mod) :
    (rebuild tt.dims tt.nmodes mode (tt_unfold tt mode).2).Perm (entries tt) ∧
    ∀ p q, p < tt.nnz → q < tt.nnz →
      (tt_unfold tt mode).2.colind.getD p 0 = (tt_unfold tt mode).2.colind.getD q 0 →
      ∀ k, k < tt.nmodes → k ≠ mode →
        rd (tt_unfold tt mode).1.ind k p = rd (tt_unfold tt mode).1.ind k q := by
  constructor
  · rw [rebuild_tt_unfold tt mode hm hr hov]
    exact entries_tt_sort_perm tt mode
  · intro p q hp hq hcol k hk hkm
    obtain ⟨u1, _, _, _, _, _, _, u8, _⟩ := tt_unfold_spec tt mode hm hr
    have hrT := tt_sort_in_range tt mode hr
    have hov' : mult_upto (tt_sort tt mode) mode (tt_sort tt mode).nmodes < idx_mod := by
      rw [mult_upto_full]; exact hov
    rw [(u8 p hp).1, (u8 q hq).1, (unfold_col_eq (tt_sort tt mode) mode p hp hrT hov').1,
      (unfold_col_eq (tt_sort tt mode) mode q hq hrT hov').1, ← col_high_full,
      ← col_high_full] at hcol
    have dp := (decode_coord_col (tt_sort tt mode) mode p 0 hm hp hrT).2 k hk
    have dq := (decode_coord_col (tt_sort tt mode) mode q 0 hm hq hrT).2 k hk
    rw [if_neg hkm] at dp dq
    rw [u1, ← dp, ← dq, hcol]

theorem tt_unfold_round_trip_witness :
    1 < unfold_example.nmodes ∧ in_range unfold_example ∧
    (∏ j in (Finset.range unfold_example.nmodes).filter (fun j => j ≠ 1),
      unfold_example.dims.getD j 0) < idx_mod ∧
    ((rebuild unfold_example.dims unfold_example.nmodes 1 (tt_unfold unfold_example 1).2).Perm
      (entries unfold_example) ∧
    ∀ p q, p < unfold_example.nnz → q < unfold_example.nnz →
      (tt_unfold unfold_example 1).2.colind.getD p 0 =
        (tt_unfold unfold_example 1).2.colind.getD q 0 →
      ∀ k, k < unfold_example.nmodes → k ≠ 1 →
        rd (tt_unfold unfold_example 1).1.ind k p = rd (tt_unfold unfold_example 1).1.ind k q) ∧
    (rebuild unfold_example.dims unfold_example.nmodes 1 (tt_unfold unfold_example 1).2).map
        Prod.fst =
      [[0, 0, 0], [1, 0, 0], [0, 0, 1], [1, 0, 1], [0, 1, 0], [1, 1, 0], [0, 1, 1], [1, 1, 1]] :=
  ⟨by decide, by decide, by decide,
    tt_unfold_round_trip unfold_example 1 (by decide) (by decide) (by decide), by decide⟩

/-- C9 as stated fails when the column count overflows `idx_t`: in the unfolding of
`wide_example` along mode 0 the two nonzeros `(0,0,0)` and `(0,2^32,0)` both get
column 0, and the rebuilt pairs are not the nonzeros of the input. -/
theorem wide_unfold_loses_nonzero :
    shaped wide_example ∧ in_range wide_example ∧ 0 < wide_example.nmodes ∧
    (tt_unfold wide_example 0).2.colind.getD 0 0 = (tt_unfold wide_example 0).2.colind.getD 1 0 ∧
    rd (tt_unfold wide_example 0).1.ind 1 0 ≠ rd (tt_unfold wide_example 0).1.ind 1 1 ∧
    ¬ (rebuild wide_example.dims wide_example.nmodes 0 (tt_unfold wide_example 0).2).Perm
      (entries wide_example) := by
  refine ⟨by decide, by decide, by decide, by decide, by decide, fun h => ?_⟩
  have h1 := (h.map Prod.fst).mem_iff (a := [0, 2 ^ 32, 0])
  have h2 : [0, 2 ^ 32, 0] ∈ (entries wide_example).map Prod.fst := by decide
  have h3 : [0, 2 ^ 32, 0] ∉
      (rebuild wide_example.dims wide_example.nmodes 0 (tt_unfold wide_example 0).2).map
        Prod.fst := by decide
  exact h3 (h1.mpr h2)

/-! ## The predictor -/

/-- A loop that rewrites `buffer[f]` for `f < R` from its old value. -/
theorem buffer_loop (h : Nat → ℚ → ℚ) : ∀ (R : Nat) (buf : List ℚ), R ≤ buf.length →
    ((List.range R).foldl (fun b f => b.set f (h f (b.getD f 0))) buf).length = buf.length ∧
    ∀ f, ((List.range R).foldl (fun b f => b.set f (h f (b.getD f 0))) buf).getD f 0 =
      if f < R then h f (buf.getD f 0) else buf.getD f 0 := by
  intro R
  induction R with
  | zero =>
    intro buf _
    exact ⟨rfl, fun f => by rw [if_neg (by omega)]; rfl⟩
  | succ R ih =>
    intro buf hR
    obtain ⟨i1, i2⟩ := ih buf (by omega)
    rw [List.range_succ, List.foldl_append, List.foldl_cons, List.foldl_nil]
    generalize (List.range R).foldl (fun b f => b.set f (h f (b.getD f 0))) buf = acc
      at i1 i2
    refine ⟨by rw [List.length_set, i1], fun f => ?_⟩
    show (acc.set R (h R (acc.getD R 0))).getD f 0 = _
    rw [getD_set_rat acc R f _ (by omega), i2 R, if_neg (Nat.lt_irrefl R), i2 f]
    by_cases hf : f = R
    · rw [if_pos hf, if_pos (by omega), hf]
    · rw [if_neg hf]
      by_cases hlt : f < R
      · rw [if_pos hlt, if_pos (by omega)]
      · rw [if_neg hlt, if_neg (by omega)]

theorem sum_loop (g : Nat → ℚ) : ∀ R : Nat,
    (List.range R).foldl (fun est f => est + g f) 0 = ∑ f in Finset.range R, g f := by
  intro R
  induction R with
  | zero => rfl
  | succ R ih =>
    rw [List.range_succ, List.foldl_append, ih, Finset.sum_range_succ]
    rfl

/-- The loop over the modes `1 .. n` of the general path: every `buffer[f]` with
`f < R` is multiplied by the entries of the factor rows. -/
theorem modes_loop (model : tc_model) (test : splatt_coo) (index R : Nat) :
    ∀ (n : Nat) (buf : List ℚ), R ≤ buf.length →
    ((List.range' 1 n).foldl
      (fun b m => (List.range R).foldl
        (fun b f => b.set f (b.getD f 0 * fac model m (rd test.ind m index * R + f))) b)
      buf).length = buf.length ∧
    ∀ f, f < R → ((List.range' 1 n).foldl
      (fun b m => (List.range R).foldl
        (fun b f => b.set f (b.getD f 0 * fac model m (rd test.ind m index * R + f))) b)
      buf).getD f 0 =
        buf.getD f 0 * ∏ m in Finset.Ico 1 (1 + n), fac model m (rd test.ind m index * R + f) := by
  intro n
  induction n with
  | zero =>
    intro buf _
    exact ⟨rfl, fun f _ => by simp⟩
  | succ n ih =>
    intro buf hR
    obtain ⟨i1, i2⟩ := ih buf hR
    rw [List.range'_concat, List.foldl_append, List.foldl_cons, List.foldl_nil]
    obtain ⟨b1, b2⟩ := buffer_loop
      (fun f x => x * fac model (1 + 1 * n) (rd test.ind (1 + 1 * n) index * R + f)) R _
      (by rw [i1]; exact hR)
    refine ⟨by rw [b1, i1], fun f hf => ?_⟩
    rw [b2 f, if_pos hf, i2 f hf, ← Nat.add_assoc, Finset.prod_Ico_succ_top (by omega),
      Nat.one_mul, mul_assoc]

/-- The general path returns `Σ_f Π_m factors[m][ind[m][index] * R + f]`, whatever the
number of modes. -/
theorem tc_predict_val_loop_eq (model : tc_model) (test : splatt_coo) (index : Nat)
    (buffer : List ℚ) (hn : model.nmodes = test.nmodes) (h1 : 1 ≤ test.nmodes)
    (hb : model.rank ≤ buffer.length) :
    tc_predict_val_loop model test index buffer =
      ∑ f in Finset.range model.rank, ∏ m in Finset.range test.nmodes,
        fac model m (rd test.ind m index * model.rank + f) := by
  unfold tc_predict_val_loop
  simp only []
  obtain ⟨a1, a2⟩ := buffer_loop
    (fun f _ => fac model 0 (rd test.ind 0 index * model.rank + f)) model.rank buffer hb
  obtain ⟨m1, m2⟩ := modes_loop model test index model.rank (model.nmodes - 1) _
    (by rw [a1]; exact hb)
  rw [sum_loop]
  apply Finset.sum_congr rfl
  intro f hf
  have hf' := Finset.mem_range.mp hf
  rw [m2 f hf', a2 f, if_pos hf', Finset.range_eq_Ico,
    Finset.prod_eq_prod_Ico_succ_bot (by omega : 0 < test.nmodes)]
  have : 1 + (model.nmodes - 1) = test.nmodes := by omega
  rw [this]

/-- On every tensor whose mode count is not 3, `tc_predict_val` returns
`Σ_f Π_m factors[m][ind[m][index] * R + f]`. -/
theorem tc_predict_val_general (model : tc_model) (test : splatt_coo) (index : Nat)
    (buffer : List ℚ) (hn : model.nmodes = test.nmodes) (h1 : 1 ≤ test.nmodes)
    (h3 : test.nmodes ≠ 3) (hb : model.rank ≤ buffer.length) :
    tc_predict_val model test index buffer =
      some (∑ f in Finset.range model.rank, ∏ m in Finset.range test.nmodes,
        fac model m (rd test.ind m index * model.rank + f)) := by
  unfold tc_predict_val
  simp only [h3, if_false]
  rw [tc_predict_val_loop_eq model test index buffer hn h1 hb]

/-- On every tensor with three modes `tc_predict_val` stops at the assertion of
`p_predict_val3`. -/
theorem tc_predict_val_three (model : tc_model) (test : splatt_coo) (index : Nat)
    (buffer : List ℚ) (h3 : test.nmodes = 3) :
    tc_predict_val model test index buffer = none := by
  simp [tc_predict_val, p_predict_val3, h3]

/-- Past its assertion, `p_predict_val3` computes `Σ_f Π_{m<3} factors[m][ind[m][index] * R + f]`. -/
theorem p_predict_val3_body_eq (model : tc_model) (test : splatt_coo) (index : Nat) :
    p_predict_val3_body model test index =
      ∑ f in Finset.range model.rank, ∏ m in Finset.range 3,
        fac model m (rd test.ind m index * model.rank + f) := by
  unfold p_predict_val3_body
  simp only []
  rw [sum_loop]
  apply Finset.sum_congr rfl
  intro f _
  simp [Finset.prod_range_succ]

/-! ## Claims on `tc_predict_val` -/

/-- C10 (defect): on the three-mode model `model_example` and the three-mode tensor
`dup_example`, nonzero 2, `tc_predict_val` fails the assertion `test->nmodes == 0` of
`p_predict_val3` instead of returning `Σ_f Π_m factors[m][ind[m][index] * R + f] = 297`;
with two modes it does return that sum. -/
theorem predict_three_modes_assert_fails :
    model_example.nmodes = dup_example.nmodes ∧ dup_example.nmodes = 3 ∧
    tc_predict_val model_example dup_example 2 [0, 0] = none ∧
    (∑ f in Finset.range model_example.rank, ∏ m in Finset.range dup_example.nmodes,
      fac model_example m (rd dup_example.ind m 2 * model_example.rank + f)) = 297 ∧
    p_predict_val3_body model_example dup_example 2 = 297 ∧
    tc_predict_val { model_example with nmodes := 2 } { dup_example with nmodes := 2 } 2 [0, 0] =
      some (∑ f in Finset.range model_example.rank, ∏ m in Finset.range 2,
        fac model_example m (rd dup_example.ind m 2 * model_example.rank + f)) := by
  refine ⟨rfl, rfl, tc_predict_val_three _ _ _ _ rfl, ?_, ?_, ?_⟩
  · with_unfolding_all decide
  · with_unfolding_all decide
  · exact tc_predict_val_general { model_example with nmodes := 2 }
      { dup_example with nmodes := 2 } 2 [0, 0] rfl (by decide) (by decide) (by decide)

/-! ## Claims on `coo_frobsq` and `tt_get_hist` -/

/-- C11: in exact arithmetic `coo_frobsq` returns the sum of the squares of the `nnz`
stored values; the result is never negative, and it is 0 when `nnz` is 0. -/
theorem coo_frobsq_sum_squares (tensor : splatt_coo) :
    coo_frobsq tensor = ∑ n in Finset.range tensor.nnz, tensor.vals.getD n 0 ^ 2 ∧
    0 ≤ coo_frobsq tensor ∧
    coo_frobsq { tensor with nnz := 0 } = 0 := by
  have h : coo_frobsq tensor = ∑ n in Finset.range tensor.nnz, tensor.vals.getD n 0 ^ 2 := by
    unfold coo_frobsq
    rw [sum_loop (fun n => tensor.vals.getD n 0 * tensor.vals.getD n 0)]
    apply Finset.sum_congr rfl
    intro n _
    ring
  refine ⟨h, ?_, rfl⟩
  rw [h]
  exact Finset.sum_nonneg (fun n _ => sq_nonneg _)

theorem sum_set_succ : ∀ (l : List Nat) (i : Nat), i < l.length →
    (l.set i (l.getD i 0 + 1)).sum = l.sum + 1
  | [], i, h => by simp at h
  | a :: l, 0, _ => by
    simp only [List.set_cons_zero, List.sum_cons, List.getD_cons_zero]
    omega
  | a :: l, i + 1, h => by
    simp only [List.set_cons_succ, List.sum_cons, List.getD_cons_succ]
    rw [sum_set_succ l i (by simpa using h)]
    omega

theorem getD_replicate_zero (D i : Nat) : (List.replicate D 0).getD i 0 = 0 := by
  rw [List.getD_eq_getElem?_getD, List.getElem?_replicate]
  by_cases h : i < D <;> simp [h]

/-- The loop of `tt_get_hist` after `n` steps. -/
theorem hist_loop (tt : splatt_coo) (mode : Nat) : ∀ n,
    (∀ x, x < n → rd tt.ind mode x < tt.dims.getD mode 0) →
    ((List.range n).foldl
      (fun hist x => hist.set (rd tt.ind mode x) (hist.getD (rd tt.ind mode x) 0 + 1))
      (List.replicate (tt.dims.getD mode 0) 0)).length = tt.dims.getD mode 0 ∧
    (∀ i, ((List.range n).foldl
      (fun hist x => hist.set (rd tt.ind mode x) (hist.getD (rd tt.ind mode x) 0 + 1))
      (List.replicate (tt.dims.getD mode 0) 0)).getD i 0 =
        ((Finset.range n).filter (fun x => rd tt.ind mode x = i)).card) ∧
    ((List.range n).foldl
      (fun hist x => hist.set (rd tt.ind mode x) (hist.getD (rd tt.ind mode x) 0 + 1))
      (List.replicate (tt.dims.getD mode 0) 0)).sum = n := by
  intro n
  induction n with
  | zero =>
    intro _
    refine ⟨by simp, fun i => ?_, by simp⟩
    simp only [List.range_zero, List.foldl_nil, Finset.range_zero, Finset.filter_empty,
      Finset.card_empty]
    exact getD_replicate_zero _ i
  | succ n ih =>
    intro hb
    obtain ⟨h1, h2, h3⟩ := ih (fun x hx => hb x (by omega))
    rw [List.range_succ, List.foldl_append, List.foldl_cons, List.foldl_nil]
    generalize (List.range n).foldl
      (fun hist x => hist.set (rd tt.ind mode x) (hist.getD (rd tt.ind mode x) 0 + 1))
      (List.replicate (tt.dims.getD mode 0) 0) = hist at h1 h2 h3
    have hlt := hb n (by omega)
    refine ⟨by rw [List.length_set, h1], fun i => ?_, ?_⟩
    · rw [getD_set_nat _ _ _ _ (by omega), Finset.range_succ, Finset.filter_insert]
      by_cases hi : i = rd tt.ind mode n
      · rw [if_pos hi, if_pos hi.symm, Finset.card_insert_of_not_mem (by simp), h2, hi]
      · rw [if_neg hi, if_neg (fun e => hi e.symm), h2]
    · rw [sum_set_succ _ _ (by omega), h3]

/-- C13: for in-range indices and `mode < nmodes`, `tt_get_hist` returns an array of
`dims[mode]` entries whose entry `i` is the number of nonzeros with index `i` in
`mode`; the entries sum to `nnz`. -/
theorem tt_get_hist_counts (tt : splatt_coo) (mode : Nat) (hm : mode < tt.nmodes)
    (hr : in_range tt) :
    (tt_get_hist tt mode).length = tt.dims.getD mode 0 ∧
    (∀ i, i < tt.dims.getD mode 0 → (tt_get_hist tt mode).getD i 0 =
      ((Finset.range tt.nnz).filter (fun n => rd tt.ind mode n = i)).card) ∧
    (tt_get_hist tt mode).sum = tt.nnz := by
  obtain ⟨h1, h2, h3⟩ := hist_loop tt mode tt.nnz (fun x hx => hr mode hm x hx)
  exact ⟨h1, fun i _ => h2 i, h3⟩

theorem tt_get_hist_counts_witness :
    0 < empty_example.nmodes ∧ in_range empty_example ∧
    ((tt_get_hist empty_example 0).length = empty_example.dims.getD 0 0 ∧
    (∀ i, i < empty_example.dims.getD 0 0 → (tt_get_hist empty_example 0).getD i 0 =
      ((Finset.range empty_example.nnz).filter (fun n => rd empty_example.ind 0 n = i)).card) ∧
    (tt_get_hist empty_example 0).sum = empty_example.nnz) ∧
    tt_get_hist empty_example 0 = [0, 0, 1, 0, 0, 2, 0, 1, 0, 0] :=
  ⟨by decide, by decide, tt_get_hist_counts empty_example 0 (by decide) (by decide), by decide⟩

/-! ## The loops of `tt_get_slices` -/

theorem minmax_loop (inds : List Nat) (D : Nat) : ∀ n,
    ((List.range n).foldl (minmax_body inds) (D, 0)).1 ≤ D ∧
    (∀ k, k < n → ((List.range n).foldl (minmax_body inds) (D, 0)).1 ≤ inds.getD k 0 ∧
      inds.getD k 0 ≤ ((List.range n).foldl (minmax_body inds) (D, 0)).2) ∧
    (∀ U, (∀ k, k < n → inds.getD k 0 ≤ U) →
      ((List.range n).foldl (minmax_body inds) (D, 0)).2 ≤ U) := by
  intro n
  induction n with
  | zero =>
    exact ⟨le_refl _, fun k hk => absurd hk (Nat.not_lt_zero k), fun U _ => Nat.zero_le U⟩
  | succ n ih =>
    obtain ⟨h1, h2, h3⟩ := ih
    rw [List.range_succ, List.foldl_append, List.foldl_cons, List.foldl_nil]
    generalize (List.range n).foldl (minmax_body inds) (D, 0) = st at h1 h2 h3
    simp only [minmax_body, SS_MIN, SS_MAX]
    refine ⟨by split <;> omega, fun k hk => ?_, fun U hU => ?_⟩
    · by_cases hkn : k = n
      · subst hkn
        constructor
        · split <;> omega
        · split <;> omega
      · have := h2 k (by omega)
        constructor
        · split <;> omega
        · split <;> omega
    · have a := h3 U (fun k hk => hU k (by omega))
      have b := hU n (by omega)
      split <;> omega

/-- While its assertion holds, the marking loop of `tt_get_slices` is the marking
loop of `tt_remove_empty` on the indices shifted down by `minidx`. -/
theorem slice_mark_loop (inds sh : List Nat) (minidx : Nat) (init : List Nat × Nat) : ∀ n,
    (∀ k, k < n → minidx ≤ inds.getD k 0 ∧ sh.getD k 0 = inds.getD k 0 - minidx) →
    (List.range n).foldlM (slice_mark_body inds minidx) init =
      some ((List.range n).foldl (mark_body sh) init) := by
  intro n
  induction n with
  | zero => intro _; rfl
  | succ n ih =>
    intro h
    obtain ⟨a, b⟩ := h n (by omega)
    have hstep : ∀ st, slice_mark_body inds minidx st n = some (mark_body sh st n) := by
      intro st
      simp only [slice_mark_body, mark_body, b, ge_iff_le, a, if_true]
      split <;> rfl
    rw [List.range_succ, List.foldlM_append, ih (fun k hk => h k (by omega)), List.foldl_append]
    simp [hstep]

/-- The copying loop of `tt_get_slices` after `t` steps: the members of `S` below
`t` have been written, in order, from position 0 on. -/
theorem slice_copy_loop (mk : List Nat) (S : Finset Nat) (minidx : Nat)
    (hmk : ∀ i, mk.getD i 0 = if i ∈ S then 1 else 0) : ∀ t,
    ((List.range t).foldl (slice_copy_body mk minidx) (List.replicate S.card 0, 0)).1.length =
      S.card ∧
    ((List.range t).foldl (slice_copy_body mk minidx) (List.replicate S.card 0, 0)).2 =
      slice_rank S t ∧
    ∀ i, i < t → i ∈ S →
      ((List.range t).foldl (slice_copy_body mk minidx)
        (List.replicate S.card 0, 0)).1.getD (slice_rank S i) 0 = (i + minidx) % idx_mod := by
  intro t
  induction t with
  | zero =>
    exact ⟨by simp, by simp [slice_rank], fun i hi => absurd hi (Nat.not_lt_zero i)⟩
  | succ t ih =>
    obtain ⟨h1, h2, h3⟩ := ih
    rw [List.range_succ, List.foldl_append, List.foldl_cons, List.foldl_nil, slice_rank_succ]
    generalize (List.range t).foldl (slice_copy_body mk minidx) (List.replicate S.card 0, 0) = st
      at h1 h2 h3
    unfold slice_copy_body
    rw [hmk t]
    by_cases hs : t ∈ S
    · rw [if_pos hs, if_pos rfl]
      have hlt : st.2 < st.1.length := by
        rw [h1, h2]; exact slice_rank_lt_card S hs
      refine ⟨by simp [h1], by simp [h2], fun i hi hiS => ?_⟩
      show (st.1.set st.2 _).getD _ 0 = _
      rw [getD_set_nat _ _ _ _ hlt, h2]
      by_cases hit : i = t
      · rw [hit, if_pos rfl]
      · have := slice_rank_lt S hiS (show i < t by omega)
        rw [if_neg (by omega)]
        exact h3 i (by omega) hiS
    · rw [if_neg hs, if_neg (by simp)]
      refine ⟨h1, by simp [h2], fun i hi hiS => ?_⟩
      have : i ≠ t := fun e => hs (e ▸ hiS)
      exact h3 i (by omega) hiS

theorem slice_rank_lt_imp {S : Finset Nat} {i j : Nat} (h : slice_rank S i < slice_rank S j) :
    i < j := by
  by_contra hc
  have := slice_rank_mono S (show j ≤ i by omega)
  omega

/-! ## Claims on `tt_get_slices` -/

/-- C12: for a tensor with at least one nonzero, in-range indices and `dims[m]` an
`idx_t` value, `tt_get_slices` returns (its assertion holds); the returned array is
strictly ascending, holds exactly the values occurring in `ind[m]`, and `*nunique` is
its length. -/
theorem tt_get_slices_distinct (tt : splatt_coo) (m : Nat) (hn : 1 ≤ tt.nnz)
    (hm : m < tt.nmodes) (hr : in_range tt) (hD : tt.dims.getD m 0 < idx_mod) :
    ∃ slices, tt_get_slices tt m = some (slices, slices.length) ∧
      slices.Pairwise (fun a b => a < b) ∧
      ∀ v, v ∈ slices ↔ ∃ n, n < tt.nnz ∧ rd tt.ind m n = v := by
  have hrm : ∀ k, k < tt.nnz → (tt.ind.getD m []).getD k 0 < tt.dims.getD m 0 :=
    fun k hk => hr m hm k hk
  obtain ⟨_, a2, a3⟩ := minmax_loop (tt.ind.getD m []) (tt.dims.getD m 0) tt.nnz
  generalize hmm : (List.range tt.nnz).foldl (minmax_body (tt.ind.getD m []))
    (tt.dims.getD m 0, 0) = mm at a2 a3
  have hmx : mm.2 ≤ tt.dims.getD m 0 - 1 := a3 _ (fun k hk => by have := hrm k hk; omega)
  have h0 := a2 0 (by omega)
  have h00 := hrm 0 (by omega)
  have hR : ((1 + mm.2) % idx_mod + idx_mod - mm.1) % idx_mod = 1 + mm.2 - mm.1 := by
    have e1 : (1 + mm.2) % idx_mod = 1 + mm.2 := Nat.mod_eq_of_lt (by omega)
    have e2 : 1 + mm.2 + idx_mod - mm.1 = (1 + mm.2 - mm.1) + idx_mod := by omega
    rw [e1, e2, Nat.add_mod_right]
    exact Nat.mod_eq_of_lt (by omega)
  have hsh : ∀ k, k < tt.nnz →
      ((List.range tt.nnz).map (fun n => (tt.ind.getD m []).getD n 0 - mm.1)).getD k 0 =
        (tt.ind.getD m []).getD k 0 - mm.1 := by
    intro k hk
    simp [List.getD_eq_getElem?_getD, List.getElem?_range hk]
  generalize hshd : (List.range tt.nnz).map (fun n => (tt.ind.getD m []).getD n 0 - mm.1) = sh
    at hsh
  have hmark := slice_mark_loop (tt.ind.getD m []) sh mm.1 (List.replicate (1 + mm.2 - mm.1) 0, 0)
    tt.nnz (fun k hk => ⟨(a2 k hk).1, hsh k hk⟩)
  obtain ⟨k1, k2, k3⟩ := mark_loop sh (1 + mm.2 - mm.1) tt.nnz (fun k hk => by
    rw [hsh k hk]
    have := a2 k hk
    omega)
  generalize hmk : (List.range tt.nnz).foldl (mark_body sh) (List.replicate (1 + mm.2 - mm.1) 0, 0)
    = mk at hmark k1 k2 k3
  obtain ⟨c1, _, c3⟩ := slice_copy_loop mk.1 (seen sh tt.nnz) mm.1 k2 (1 + mm.2 - mm.1)
  generalize hcp : (List.range (1 + mm.2 - mm.1)).foldl (slice_copy_body mk.1 mm.1)
    (List.replicate (seen sh tt.nnz).card 0, 0) = cp at c1 c3
  have hSmem : ∀ i, i ∈ seen sh tt.nnz ↔ ∃ k, k < tt.nnz ∧ (tt.ind.getD m []).getD k 0 - mm.1 = i := by
    intro i
    rw [mem_seen]
    constructor
    · rintro ⟨k, hk, e⟩
      exact ⟨k, hk, by rw [← hsh k hk]; exact e⟩
    · rintro ⟨k, hk, e⟩
      exact ⟨k, hk, by rw [hsh k hk]; exact e⟩
  have hSlt : ∀ i, i ∈ seen sh tt.nnz → i < 1 + mm.2 - mm.1 := by
    intro i hi
    obtain ⟨k, hk, e⟩ := (hSmem i).mp hi
    have := a2 k hk
    omega
  have hval : ∀ i, i ∈ seen sh tt.nnz →
      cp.1.getD (slice_rank (seen sh tt.nnz) i) 0 = i + mm.1 := by
    intro i hi
    rw [c3 i (hSlt i hi) hi]
    obtain ⟨k, hk, e⟩ := (hSmem i).mp hi
    have := a2 k hk
    have := hrm k hk
    exact Nat.mod_eq_of_lt (by omega)
  have hres : tt_get_slices tt m = some (cp.1, cp.1.length) := by
    unfold tt_get_slices
    simp only [hmm, hR, hmark, Option.map_some', k3, hcp, c1]
  have hsurj : ∀ j, j < cp.1.length → ∃ i, i ∈ seen sh tt.nnz ∧
      slice_rank (seen sh tt.nnz) i = j ∧ cp.1.getD j 0 = i + mm.1 := by
    intro j hj
    rw [c1, ← slice_rank_of_bound _ _ hSlt] at hj
    obtain ⟨i, _, hi, hij⟩ := slice_rank_surj _ _ j hj
    exact ⟨i, hi, hij, by rw [← hij]; exact hval i hi⟩
  refine ⟨cp.1, hres, ?_, fun v => ?_⟩
  · rw [List.pairwise_iff_getElem]
    intro a b ha hb hab
    obtain ⟨ia, _, ra, va⟩ := hsurj a ha
    obtain ⟨ib, _, rb, vb⟩ := hsurj b hb
    rw [List.getD_eq_getElem _ _ ha] at va
    rw [List.getD_eq_getElem _ _ hb] at vb
    rw [va, vb]
    have : ia < ib := slice_rank_lt_imp (by rw [ra, rb]; exact hab)
    omega
  · constructor
    · intro hv
      obtain ⟨j, hj, e⟩ := List.getElem_of_mem hv
      obtain ⟨i, hi, _, vi⟩ := hsurj j hj
      rw [List.getD_eq_getElem _ _ hj, e] at vi
      obtain ⟨k, hk, e'⟩ := (hSmem i).mp hi
      have := a2 k hk
      exact ⟨k, hk, by show (tt.ind.getD m []).getD k 0 = v; omega⟩
    · rintro ⟨k, hk, e⟩
      have e' : (tt.ind.getD m []).getD k 0 = v := e
      have hi : v - mm.1 ∈ seen sh tt.nnz := (hSmem _).mpr ⟨k, hk, by rw [e']⟩
      have hj : slice_rank (seen sh tt.nnz) (v - mm.1) < cp.1.length := by
        rw [c1]; exact slice_rank_lt_card _ hi
      have hv := hval _ hi
      rw [List.getD_eq_getElem _ _ hj] at hv
      have := a2 k hk
      have hv' : cp.1[slice_rank (seen sh tt.nnz) (v - mm.1)] = v := by omega
      rw [← hv']
      exact List.getElem_mem _

theorem tt_get_slices_distinct_witness :
    1 ≤ empty_example.nnz ∧ 0 < empty_example.nmodes ∧ in_range empty_example ∧
    empty_example.dims.getD 0 0 < idx_mod ∧
    (∃ slices, tt_get_slices empty_example 0 = some (slices, slices.length) ∧
      slices.Pairwise (fun a b => a < b) ∧
      ∀ v, v ∈ slices ↔ ∃ n, n < empty_example.nnz ∧ rd empty_example.ind 0 n = v) ∧
    tt_get_slices empty_example 0 = some ([2, 5, 7], 3) :=
  ⟨by decide, by decide, by decide, by decide,
    tt_get_slices_distinct empty_example 0 (by decide) (by decide) (by decide) (by decide),
    by decide⟩

/-! ## Claims on `splatt_tucker_cmd` -/

theorem write_loop_freed (tt : tt_ref) (h : tt.live = false) (nfactors : List Nat)
    (ev : List tucker_event) : ∀ n : Nat,
    (List.range n).foldl (write_body tt nfactors) (true, ev) = (decide (n = 0), ev)
  | 0 => rfl
  | n + 1 => by
    rw [List.range_succ, List.foldl_append, write_loop_freed tt h nfactors ev n]
    by_cases hn : n = 0
    · subst hn
      simp [write_body, read_dims, h]
    · simp [write_body, hn]

theorem write_loop_live (tt : tt_ref) (h : tt.live = true) (nfactors : List Nat)
    (ev : List tucker_event) : ∀ n : Nat,
    (List.range n).foldl (write_body tt nfactors) (true, ev) =
      (true, ev ++ (List.range n).map (fun m =>
        tucker_event.mat_write (m + 1) (tt.obj.dims.getD m 0) (nfactors.getD m 0) 1))
  | 0 => by simp
  | n + 1 => by
    rw [List.range_succ, List.foldl_append, write_loop_live tt h nfactors ev n]
    simp [write_body, read_dims, h]

/-- The end of a run in which the tensor was read and HOOI succeeded: the tensor is
freed before the factor matrices are written, so with writing enabled and at least
one mode the run is undefined; otherwise it returns `EXIT_SUCCESS`. -/
theorem splatt_tucker_cmd_after_hooi (env : tucker_env) (t : splatt_coo)
    (hread : env.read_result = some t) (hh : env.hooi_ret = env.SPLATT_SUCCESS) :
    (splatt_tucker_cmd env).1 =
      if env.write = 1 ∧ 0 < t.nmodes then tucker_outcome.undefined
      else tucker_outcome.returned EXIT_SUCCESS := by
  unfold splatt_tucker_cmd
  simp only [hread, hh, ne_eq, not_true_eq_false, if_false]
  by_cases hw : env.write = 1
  · simp only [hw, if_true, true_and]
    rw [write_loop_freed _ rfl]
    by_cases hn : t.nmodes = 0
    · simp [hn]
    · have : 0 < t.nmodes := Nat.pos_of_ne_zero hn
      simp [hn, this]
  · simp [hw]

theorem splatt_tucker_cmd_failures (env : tucker_env) :
    (env.read_result = none →
      (splatt_tucker_cmd env).1 = tucker_outcome.returned EXIT_FAILURE ∧
      ∀ nf nm, tucker_event.splatt_tucker_hooi nf nm ∉ (splatt_tucker_cmd env).2) ∧
    (env.hooi_ret ≠ env.SPLATT_SUCCESS →
      (splatt_tucker_cmd env).1 = tucker_outcome.returned EXIT_FAILURE ∧
      (∀ len, tucker_event.vec_write len ∉ (splatt_tucker_cmd env).2) ∧
      ∀ k I J r, tucker_event.mat_write k I J r ∉ (splatt_tucker_cmd env).2) := by
  unfold splatt_tucker_cmd
  cases hread : env.read_result with
  | none => simp
  | some t =>
    by_cases hh : env.hooi_ret = env.SPLATT_SUCCESS
    · simp [hh]
    · by_cases hv : env.verbose = true
      · simp [hh, hv]
      · simp [hh, hv]

/-- C14 (defect): when the read fails `splatt_tucker_cmd` returns the nonzero
`EXIT_FAILURE` and never calls `splatt_tucker_hooi`, and when HOOI does not report
success it returns `EXIT_FAILURE` and writes nothing, as claimed. But a read tensor
and a successful HOOI do not make it return `EXIT_SUCCESS`: it does so only if
writing is disabled or the tensor has no mode. With `args.write == 1` and at least
one mode the run reads `tt->dims[0]` after `tt_free(tt)` and is undefined; the run on
`dup_example` with writing enabled and a successful HOOI is such a run. -/
theorem splatt_tucker_cmd_status (env : tucker_env) :
    EXIT_FAILURE ≠ 0 ∧
    (env.read_result = none →
      (splatt_tucker_cmd env).1 = tucker_outcome.returned EXIT_FAILURE ∧
      ∀ nf nm, tucker_event.splatt_tucker_hooi nf nm ∉ (splatt_tucker_cmd env).2) ∧
    (env.hooi_ret ≠ env.SPLATT_SUCCESS →
      (splatt_tucker_cmd env).1 = tucker_outcome.returned EXIT_FAILURE ∧
      (∀ len, tucker_event.vec_write len ∉ (splatt_tucker_cmd env).2) ∧
      ∀ k I J r, tucker_event.mat_write k I J r ∉ (splatt_tucker_cmd env).2) ∧
    ((splatt_tucker_cmd env).1 = tucker_outcome.returned EXIT_SUCCESS ↔
      ∃ t, env.read_result = some t ∧ env.hooi_ret = env.SPLATT_SUCCESS ∧
        (env.write ≠ 1 ∨ t.nmodes = 0)) ∧
    ((splatt_tucker_cmd env).1 = tucker_outcome.undefined ↔
      ∃ t, env.read_result = some t ∧ env.hooi_ret = env.SPLATT_SUCCESS ∧
        env.write = 1 ∧ 0 < t.nmodes) ∧
    (tucker_example.read_result = some dup_example ∧
      tucker_example.hooi_ret = tucker_example.SPLATT_SUCCESS ∧
      (splatt_tucker_cmd tucker_example).1 = tucker_outcome.undefined) := by
  have hne : tucker_outcome.returned EXIT_FAILURE ≠ tucker_outcome.returned EXIT_SUCCESS := by
    decide
  refine ⟨by decide, (splatt_tucker_cmd_failures env).1, (splatt_tucker_cmd_failures env).2,
    ?_, ?_, rfl, rfl, rfl⟩
  · cases hread : env.read_result with
    | none =>
      rw [((splatt_tucker_cmd_failures env).1 hread).1]
      simp [hne]
    | some t =>
      by_cases hh : env.hooi_ret = env.SPLATT_SUCCESS
      · rw [splatt_tucker_cmd_after_hooi env t hread hh]
        by_cases hc : env.write = 1 ∧ 0 < t.nmodes
        · rw [if_pos hc]
          simp only [Option.some.injEq, exists_eq_left', hh, true_and]
          constructor
          · intro h
            cases h
          · intro h
            omega
        · rw [if_neg hc]
          simp only [Option.some.injEq, exists_eq_left', hh, true_and, true_iff]
          by_cases hw : env.write = 1
          · exact Or.inr (by
              have := fun h0 => hc ⟨hw, h0⟩
              omega)
          · exact Or.inl hw
      · rw [((splatt_tucker_cmd_failures env).2 hh).1]
        simp [hne, hh]
  · cases hread : env.read_result with
    | none =>
      rw [((splatt_tucker_cmd_failures env).1 hread).1]
      simp
    | some t =>
      by_cases hh : env.hooi_ret = env.SPLATT_SUCCESS
      · rw [splatt_tucker_cmd_after_hooi env t hread hh]
        by_cases hc : env.write = 1 ∧ 0 < t.nmodes
        · rw [if_pos hc]
          simp only [Option.some.injEq, exists_eq_left', hh, true_and, true_iff]
          exact hc
        · rw [if_neg hc]
          simp only [Option.some.injEq, exists_eq_left', hh, true_and]
          constructor
          · intro h
            cases h
          · intro h
            exact absurd h hc
      · rw [((splatt_tucker_cmd_failures env).2 hh).1]
        simp [hh]

/-- C15 (defect): on a three-mode tensor with `dims = (2, 1, 1)`, rank 2, writing
enabled and a successful HOOI, `splatt_tucker_cmd` writes `core.mat` with `2^3 = 8`
entries, but then reads the row count of `mode1.mat` through `tt` after
`tt_free(tt)`: the read is undefined and so is the run, and no factor matrix with the
row count `dims[m]` is written. The writing loop itself, run on the tensor before it
is freed, writes `mode1.mat`, `mode2.mat`, `mode3.mat` with `dims[m]` rows and 2
columns each. -/
theorem tucker_cmd_rows_read_after_free :
    dup_example.dims = [2, 1, 1] ∧
    (tt_free { live := true, obj := dup_example }).live = false ∧
    read_dims (tt_free { live := true, obj := dup_example }) 0 = none ∧
    splatt_tucker_cmd tucker_example =
      (tucker_outcome.undefined, [tucker_event.print_header, tucker_event.tt_read,
        tucker_event.splatt_tucker_hooi [2, 2, 2, 0, 0, 0, 0, 0] 3, tucker_event.tt_free,
        tucker_event.vec_write 8]) ∧
    (List.range 3).foldl (write_body { live := true, obj := dup_example }
        [2, 2, 2, 0, 0, 0, 0, 0]) (true, []) =
      (true, [tucker_event.mat_write 1 2 2 1, tucker_event.mat_write 2 1 2 1,
        tucker_event.mat_write 3 1 2 1]) :=
  ⟨rfl, rfl, rfl, rfl, rfl⟩

/-! ## Claims on the edge cases of `tt_remove_dups` and on the predictor -/

/-- C16 (defect): on a tensor with `nnz = 0` the scan of `tt_remove_dups` does not
run, `newnnz` is incremented to 1 all the same, and the unsigned difference `0 - 1`
wraps: the function returns `2^64 - 1` and leaves `nnz = 1`. -/
theorem tt_remove_dups_no_nonzeros (tt : splatt_coo) :
    (tt_remove_dups { tt with nnz := 0 }).2 = 2 ^ 64 - 1 ∧
    (tt_remove_dups { tt with nnz := 0 }).1.nnz = 1 ∧
    tt_remove_dups zero_example = ({ zero_example with nnz := 1 }, 18446744073709551615) := by
  refine ⟨?_, ?_, ?_⟩
  · simp [tt_remove_dups, tt_sort, idx_mod]
  · simp [tt_remove_dups, tt_sort]
  · with_unfolding_all decide

/-- The statements of `p_predict_val3` after its assertion compute what the general
path computes on a three-mode tensor. -/
theorem p_predict_val3_body_eq_loop (model : tc_model) (test : splatt_coo) (index : Nat)
    (buffer : List ℚ) (hn : model.nmodes = test.nmodes) (h3 : test.nmodes = 3)
    (hb : model.rank ≤ buffer.length) :
    p_predict_val3_body model test index = tc_predict_val_loop model test index buffer := by
  rw [p_predict_val3_body_eq, tc_predict_val_loop_eq model test index buffer hn (by omega) hb, h3]

/-- C17 (defect): on the three-mode model `model_example` and nonzero 2 of the
three-mode tensor `dup_example`, the general scratch-buffer loop returns 297, and so
would the statements of `p_predict_val3` after its assertion, but `p_predict_val3`
itself computes no value: its assertion `test->nmodes == 0` fails. -/
theorem predict_three_modes_no_value :
    model_example.nmodes = 3 ∧ dup_example.nmodes = 3 ∧
    tc_predict_val_loop model_example dup_example 2 [0, 0] = 297 ∧
    p_predict_val3_body model_example dup_example 2 =
      tc_predict_val_loop model_example dup_example 2 [0, 0] ∧
    p_predict_val3 model_example dup_example 2 = none := by
  refine ⟨rfl, rfl, ?_, ?_, rfl⟩
  · with_unfolding_all decide
  · exact p_predict_val3_body_eq_loop model_example dup_example 2 [0, 0] rfl rfl (by decide)

/-- C18 (defect): whenever `tc_predict_val` calls `p_predict_val3`, that is on every
tensor with `nmodes = 3`, the assertion `test->nmodes == 0` at the top of
`p_predict_val3` is false and the call fails; on a tensor with another number of
modes no assertion is executed. -/
theorem predict_assert_fails_on_every_call (model : tc_model) (test : splatt_coo)
    (index : Nat) (buffer : List ℚ) :
    (({ test with nmodes := 3 } : splatt_coo).nmodes = 0 ↔ False) ∧
    p_predict_val3 model { test with nmodes := 3 } index = none ∧
    tc_predict_val model { test with nmodes := 3 } index buffer = none ∧
    tc_predict_val model { test with nmodes := 4 } index buffer =
      some (tc_predict_val_loop model { test with nmodes := 4 } index buffer) := by
  refine ⟨by simp, ?_, ?_, ?_⟩
  · simp [p_predict_val3]
  · simp [tc_predict_val, p_predict_val3]
  · simp [tc_predict_val]

/-! ## The loops of `tt_fill` -/

theorem fill_inner_loop (inds : List (List Nat)) (m : Nat) (tt : splatt_coo)
    (hm : m < tt.dims.length) : ∀ k,
    (List.range' 1 k).foldl (fill_body inds m)
        { tt with dims := tt.dims.set m (fill_dim inds m 0) } =
      { tt with dims := tt.dims.set m (fill_dim inds m k) } := by
  intro k
  induction k with
  | zero => rfl
  | succ k ih =>
    rw [List.range'_concat, List.foldl_append, ih, List.foldl_cons, List.foldl_nil]
    simp only [fill_body, List.set_set, fill_dim]
    have : (tt.dims.set m (fill_dim inds m k)).getD m 0 = fill_dim inds m k := by
      rw [getD_set_nat _ _ _ _ hm, if_pos rfl]
    rw [this, Nat.one_mul, Nat.add_comm 1 k]

theorem fill_mode_eq (inds : List (List Nat)) (nnz m : Nat) (tt : splatt_coo)
    (hm : m < tt.dims.length) :
    fill_mode inds nnz tt m =
      { tt with indmap := tt.indmap.set m none,
                dims := tt.dims.set m (fill_dim inds m (nnz - 1)) } := by
  unfold fill_mode
  exact fill_inner_loop inds m { tt with indmap := tt.indmap.set m none } hm (nnz - 1)

/-- When no `1 + inds[m][n]` wraps, `fill_dim` is one more than some index among the
first `k + 1` and above all of them. -/
theorem fill_dim_spec (inds : List (List Nat)) (m : Nat) : ∀ k,
    (∀ n, n < k + 1 → rd inds m n + 1 < idx_mod) →
    (∃ n, n < k + 1 ∧ fill_dim inds m k = 1 + rd inds m n) ∧
    ∀ n, n < k + 1 → rd inds m n < fill_dim inds m k := by
  intro k
  induction k with
  | zero =>
    intro hw
    have h0 := hw 0 (by omega)
    have e : fill_dim inds m 0 = 1 + rd inds m 0 := by
      simp only [fill_dim]
      exact Nat.mod_eq_of_lt (by omega)
    refine ⟨⟨0, by omega, e⟩, fun n hn => ?_⟩
    have : n = 0 := by omega
    rw [this, e]
    omega
  | succ k ih =>
    intro hw
    obtain ⟨⟨n0, hn0, e0⟩, hall⟩ := ih (fun n hn => hw n (by omega))
    have hk := hw (k + 1) (by omega)
    have e : (1 + rd inds m (k + 1)) % idx_mod = 1 + rd inds m (k + 1) :=
      Nat.mod_eq_of_lt (by omega)
    simp only [fill_dim, e, SS_MAX]
    by_cases hgt : fill_dim inds m k > 1 + rd inds m (k + 1)
    · rw [if_pos hgt]
      refine ⟨⟨n0, by omega, e0⟩, fun n hn => ?_⟩
      by_cases hnk : n = k + 1
      · rw [hnk]; omega
      · exact hall n (by omega)
    · rw [if_neg hgt]
      refine ⟨⟨k + 1, by omega, rfl⟩, fun n hn => ?_⟩
      by_cases hnk : n = k + 1
      · rw [hnk]; omega
      · have := hall n (by omega)
        omega

/-- The loop over the modes of `tt_fill` after `t` iterations. -/
theorem fill_loop (inds : List (List Nat)) (nnz : Nat) (tt : splatt_coo) : ∀ t,
    t ≤ tt.dims.length → t ≤ tt.indmap.length →
    ((List.range t).foldl (fill_mode inds nnz) tt).tiled = tt.tiled ∧
    ((List.range t).foldl (fill_mode inds nnz) tt).nnz = tt.nnz ∧
    ((List.range t).foldl (fill_mode inds nnz) tt).nmodes = tt.nmodes ∧
    ((List.range t).foldl (fill_mode inds nnz) tt).ind = tt.ind ∧
    ((List.range t).foldl (fill_mode inds nnz) tt).vals = tt.vals ∧
    ((List.range t).foldl (fill_mode inds nnz) tt).dims.length = tt.dims.length ∧
    ((List.range t).foldl (fill_mode inds nnz) tt).indmap.length = tt.indmap.length ∧
    ∀ m, m < t →
      ((List.range t).foldl (fill_mode inds nnz) tt).dims.getD m 0 =
        fill_dim inds m (nnz - 1) ∧
      ((List.range t).foldl (fill_mode inds nnz) tt).indmap[m]? = some none := by
  intro t
  induction t with
  | zero =>
    intro _ _
    exact ⟨rfl, rfl, rfl, rfl, rfl, rfl, rfl, fun m hm => absurd hm (Nat.not_lt_zero m)⟩
  | succ t ih =>
    intro hd hi
    obtain ⟨h1, h2, h3, h4, h5, h6, h7, h8⟩ := ih (by omega) (by omega)
    rw [List.range_succ, List.foldl_append, List.foldl_cons, List.foldl_nil]
    generalize (List.range t).foldl (fill_mode inds nnz) tt = r at h1 h2 h3 h4 h5 h6 h7 h8
    rw [fill_mode_eq inds nnz t r (by omega)]
    refine ⟨h1, h2, h3, h4, h5, by simp [h6], by simp [h7], fun m hm => ?_⟩
    by_cases hmt : m = t
    · subst hmt
      constructor
      · show (r.dims.set m _).getD m 0 = _
        rw [getD_set_nat _ _ _ _ (by omega), if_pos rfl]
      · show (r.indmap.set m none)[m]? = _
        rw [List.getElem?_set_self (by omega)]
    · obtain ⟨a, b⟩ := h8 m (by omega)
      constructor
      · show (r.dims.set t _).getD m 0 = _
        rw [getD_set_nat _ _ _ _ (by omega), if_neg hmt, a]
      · show (r.indmap.set t none)[m]? = _
        rw [List.getElem?_set_ne (fun e => hmt e.symm), b]

/-! ## Claims on `tt_fill` -/

/-- C19 (amended): for `nnz ≥ 1` and index arrays all of whose entries are below
`2^64 - 1`, `tt_fill` marks the tensor untiled, installs `nnz`, `nmodes`, `inds` and
`vals`, and for every mode `m` sets `dims[m]` to one more than some index of the
mode, above every index of the mode and no larger than any other such bound (so
`dims[m] = 1 + max_n inds[m][n]`), and leaves `indmap[m]` absent. -/
theorem tt_fill_dims (tt : splatt_coo) (nnz nmodes : Nat) (inds : List (List Nat))
    (vals : List ℚ) (hn : 1 ≤ nnz) (hmap : nmodes ≤ tt.indmap.length)
    (hw : ∀ m, m < nmodes → ∀ n, n < nnz → rd inds m n + 1 < idx_mod) :
    (tt_fill tt nnz nmodes inds vals).tiled = splatt_tile_type.SPLATT_NOTILE ∧
    (tt_fill tt nnz nmodes inds vals).nnz = nnz ∧
    (tt_fill tt nnz nmodes inds vals).nmodes = nmodes ∧
    (tt_fill tt nnz nmodes inds vals).ind = inds ∧
    (tt_fill tt nnz nmodes inds vals).vals = vals ∧
    ∀ m, m < nmodes →
      (∃ n, n < nnz ∧ (tt_fill tt nnz nmodes inds vals).dims.getD m 0 = 1 + rd inds m n) ∧
      (∀ n, n < nnz →
        rd (tt_fill tt nnz nmodes inds vals).ind m n <
          (tt_fill tt nnz nmodes inds vals).dims.getD m 0) ∧
      (∀ d, (∀ n, n < nnz → rd inds m n < d) →
        (tt_fill tt nnz nmodes inds vals).dims.getD m 0 ≤ d) ∧
      (tt_fill tt nnz nmodes inds vals).indmap[m]? = some none := by
  obtain ⟨h1, h2, h3, h4, h5, _, _, h8⟩ := fill_loop inds nnz
    { tt with
      tiled := splatt_tile_type.SPLATT_NOTILE, nnz := nnz, vals := vals, ind := inds,
      nmodes := nmodes, dims := List.replicate nmodes 0 }
    nmodes (by simp) hmap
  refine ⟨h1, h2, h3, h4, h5, fun m hm => ?_⟩
  obtain ⟨a, b⟩ := h8 m hm
  have hk : nnz - 1 + 1 = nnz := by omega
  obtain ⟨⟨n0, hn0, e0⟩, hall⟩ := fill_dim_spec inds m (nnz - 1)
    (fun n hn' => hw m hm n (by omega))
  have hd : (tt_fill tt nnz nmodes inds vals).dims.getD m 0 = fill_dim inds m (nnz - 1) := a
  have hi : (tt_fill tt nnz nmodes inds vals).ind = inds := h4
  rw [hd, hi]
  refine ⟨⟨n0, by omega, e0⟩, fun n hn' => hall n (by omega), fun d hd' => ?_, b⟩
  have := hd' n0 (by omega)
  omega

theorem tt_fill_dims_witness :
    1 ≤ 4 ∧ 2 ≤ dup_example.indmap.length ∧
    (∀ m, m < 2 → ∀ n, n < 4 → rd empty_example.ind m n + 1 < idx_mod) ∧
    ((tt_fill dup_example 4 2 empty_example.ind empty_example.vals).tiled =
      splatt_tile_type.SPLATT_NOTILE ∧
    (tt_fill dup_example 4 2 empty_example.ind empty_example.vals).nnz = 4 ∧
    (tt_fill dup_example 4 2 empty_example.ind empty_example.vals).nmodes = 2 ∧
    (tt_fill dup_example 4 2 empty_example.ind empty_example.vals).ind = empty_example.ind ∧
    (tt_fill dup_example 4 2 empty_example.ind empty_example.vals).vals = empty_example.vals ∧
    ∀ m, m < 2 →
      (∃ n, n < 4 ∧ (tt_fill dup_example 4 2 empty_example.ind empty_example.vals).dims.getD m 0 =
        1 + rd empty_example.ind m n) ∧
      (∀ n, n < 4 →
        rd (tt_fill dup_example 4 2 empty_example.ind empty_example.vals).ind m n <
          (tt_fill dup_example 4 2 empty_example.ind empty_example.vals).dims.getD m 0) ∧
      (∀ d, (∀ n, n < 4 → rd empty_example.ind m n < d) →
        (tt_fill dup_example 4 2 empty_example.ind empty_example.vals).dims.getD m 0 ≤ d) ∧
      (tt_fill dup_example 4 2 empty_example.ind empty_example.vals).indmap[m]? = some none) ∧
    (tt_fill dup_example 4 2 empty_example.ind empty_example.vals).dims = [8, 4] :=
  ⟨by decide, by decide, by decide,
    tt_fill_dims dup_example 4 2 empty_example.ind empty_example.vals (by decide) (by decide)
      (by decide),
    by decide⟩

/-- C19 as stated fails when an index is the largest `idx_t`: `1 + inds[m][0]` wraps
to 0, so `tt_fill` sets `dims[0] = 0`, which is neither `1 + max` nor above the
index. -/
theorem tt_fill_top_index_wraps :
    rd top_index_example 0 0 = 2 ^ 64 - 1 ∧
    (tt_fill zero_example 1 1 top_index_example [1]).dims = [0] ∧
    ¬ (rd (tt_fill zero_example 1 1 top_index_example [1]).ind 0 0 <
        (tt_fill zero_example 1 1 top_index_example [1]).dims.getD 0 0) ∧
    (tt_fill zero_example 1 1 top_index_example [1]).dims.getD 0 0 ≠
      1 + rd top_index_example 0 0 := by
  refine ⟨by decide, by decide, by decide, by decide⟩

/-! ## The count returned by `tt_remove_empty` -/

theorem card_seen_le (tt : splatt_coo) (m : Nat)
    (hr : ∀ n, n < tt.nnz → rd tt.ind m n < tt.dims.getD m 0) :
    (seen (tt.ind.getD m []) tt.nnz).card ≤ tt.dims.getD m 0 := by
  have : seen (tt.ind.getD m []) tt.nnz ⊆ Finset.range (tt.dims.getD m 0) := by
    intro g hg
    obtain ⟨k, hk, rfl⟩ := mem_seen.mp hg
    exact Finset.mem_range.mpr (hr k hk)
  simpa using Finset.card_le_card this

/-- Without wrap-around `nremoved` is the sum of the differences. -/
theorem removed_upto_eq (tt : splatt_coo) (hr : in_range tt)
    (hd : ∀ m, m < tt.nmodes → tt.dims.getD m 0 < idx_mod) : ∀ t, t ≤ tt.nmodes →
    (∑ m in Finset.range t,
      (tt.dims.getD m 0 - (seen (tt.ind.getD m []) tt.nnz).card)) < idx_mod →
    removed_upto tt t =
      ∑ m in Finset.range t, (tt.dims.getD m 0 - (seen (tt.ind.getD m []) tt.nnz).card) := by
  intro t
  induction t with
  | zero => intro _ _; rfl
  | succ t ih =>
    intro ht hsum
    rw [Finset.sum_range_succ] at hsum ⊢
    have hc := card_seen_le tt t (hr t (by omega))
    have hdt := hd t (by omega)
    rw [removed_upto, ih (by omega) (by omega)]
    by_cases he : (seen (tt.ind.getD t []) tt.nnz).card = tt.dims.getD t 0
    · rw [if_pos he, he, Nat.sub_self, Nat.add_zero]
    · rw [if_neg he]
      have e1 : tt.dims.getD t 0 + idx_mod - (seen (tt.ind.getD t []) tt.nnz).card =
          (tt.dims.getD t 0 - (seen (tt.ind.getD t []) tt.nnz).card) + idx_mod := by omega
      have e2 : (tt.dims.getD t 0 - (seen (tt.ind.getD t []) tt.nnz).card) % idx_mod =
          tt.dims.getD t 0 - (seen (tt.ind.getD t []) tt.nnz).card :=
        Nat.mod_eq_of_lt (by omega)
      rw [e1, Nat.add_mod_right, e2, Nat.mod_eq_of_lt hsum]

theorem sum_dims_le (tt : splatt_coo) :
    (∑ m in Finset.range tt.nmodes, tt.dims.getD m 0) ≤ tt.nmodes * max_dim tt := by
  have := Finset.sum_le_card_nsmul (Finset.range tt.nmodes) (fun m => tt.dims.getD m 0)
    (max_dim tt) (fun m hm => le_max_dim tt m (Finset.mem_range.mp hm))
  simpa using this

/-! ## Claims on the count returned by `tt_remove_empty` -/

/-- C20: on a well-formed tensor with in-range indices that `tt_remove_empty` can hold
in memory (at most `MAX_NMODES` modes for its array `dim_sizes`, and a byte count for
`scounts` that fits 64 bits), the call returns the sum over the modes of old `dims[m]`
minus new `dims[m]`, no new `dims[m]` exceeds the old one, and the result is 0 exactly
when every slice of every mode is populated. -/
theorem tt_remove_empty_count (tt : splatt_coo) (hs : shaped tt) (hr : in_range tt)
    (hmax : tt.nmodes ≤ MAX_NMODES) (hfit : scounts_bytes tt < idx_mod) :
    ∃ st, tt_remove_empty tt = some st ∧
      st.2 = ∑ m in Finset.range tt.nmodes, (tt.dims.getD m 0 - st.1.dims.getD m 0) ∧
      (∀ m, m < tt.nmodes → st.1.dims.getD m 0 ≤ tt.dims.getD m 0) ∧
      (st.2 = 0 ↔
        ∀ m, m < tt.nmodes → ∀ i, i < tt.dims.getD m 0 → ∃ n, n < tt.nnz ∧ rd tt.ind m n = i) := by
  obtain ⟨st, h0, _, _, _, _, _, _, _, h8, h9⟩ := tt_remove_empty_spec tt hs hr
  have hdim : ∀ m, m < tt.nmodes →
      st.1.dims.getD m 0 = (seen (tt.ind.getD m []) tt.nnz).card :=
    fun m hm => getD_of_getElem?_some 0 (h8 m hm).1
  have hle : ∀ m, m < tt.nmodes →
      (seen (tt.ind.getD m []) tt.nnz).card ≤ tt.dims.getD m 0 :=
    fun m hm => card_seen_le tt m (hr m hm)
  have hd : ∀ m, m < tt.nmodes → tt.dims.getD m 0 < idx_mod := by
    intro m hm
    have := le_max_dim tt m hm
    unfold scounts_bytes at hfit
    omega
  have hsum : (∑ m in Finset.range tt.nmodes,
      (tt.dims.getD m 0 - (seen (tt.ind.getD m []) tt.nnz).card)) < idx_mod := by
    have h1 : (∑ m in Finset.range tt.nmodes,
        (tt.dims.getD m 0 - (seen (tt.ind.getD m []) tt.nnz).card)) ≤
        ∑ m in Finset.range tt.nmodes, tt.dims.getD m 0 :=
      Finset.sum_le_sum (fun m _ => Nat.sub_le _ _)
    have h2 := sum_dims_le tt
    have h3 : tt.nmodes * max_dim tt ≤ 8 * max_dim tt := Nat.mul_le_mul_right _ hmax
    unfold scounts_bytes at hfit
    omega
  have hret : st.2 = ∑ m in Finset.range tt.nmodes,
      (tt.dims.getD m 0 - (seen (tt.ind.getD m []) tt.nnz).card) := by
    rw [h9, removed_upto_eq tt hr hd tt.nmodes (le_refl _) hsum]
  refine ⟨st, h0, ?_, fun m hm => by rw [hdim m hm]; exact hle m hm, ?_⟩
  · rw [hret]
    apply Finset.sum_congr rfl
    intro m hm
    rw [hdim m (Finset.mem_range.mp hm)]
  · rw [hret, Finset.sum_eq_zero_iff]
    constructor
    · intro h m hm
      have := h m (Finset.mem_range.mpr hm)
      have := hle m hm
      exact (populated_iff tt m (hr m hm)).mpr (by omega)
    · intro h m hm
      have hm' := Finset.mem_range.mp hm
      have := (populated_iff tt m (hr m hm')).mp (h m hm')
      omega

theorem tt_remove_empty_count_witness :
    shaped empty_example ∧ in_range empty_example ∧ empty_example.nmodes ≤ MAX_NMODES ∧
    scounts_bytes empty_example < idx_mod ∧
    (∃ st, tt_remove_empty empty_example = some st ∧
      st.2 = ∑ m in Finset.range empty_example.nmodes,
        (empty_example.dims.getD m 0 - st.1.dims.getD m 0) ∧
      (∀ m, m < empty_example.nmodes → st.1.dims.getD m 0 ≤ empty_example.dims.getD m 0) ∧
      (st.2 = 0 ↔
        ∀ m, m < empty_example.nmodes → ∀ i, i < empty_example.dims.getD m 0 →
          ∃ n, n < empty_example.nnz ∧ rd empty_example.ind m n = i)) ∧
    (tt_remove_empty empty_example).map Prod.snd = some 14 ∧
    (tt_remove_empty unfold_example).map Prod.snd = some 0 :=
  ⟨by decide, by decide, by decide, by decide,
    tt_remove_empty_count empty_example (by decide) (by decide) (by decide) (by decide),
    by decide, by decide⟩

/-! ## The relabelling of `tt_remove_empty` -/

/-- The tensor after `tt_remove_empty`: in every mode the new extent is the number of
populated slices, and the index array is either untouched (no empty slice) or holds
the rank of each old index among the populated slices. -/
theorem tt_remove_empty_relabel (tt : splatt_coo) (hs : shaped tt) (hr : in_range tt) :
    ∃ st, tt_remove_empty tt = some st ∧
      st.1.nnz = tt.nnz ∧ st.1.nmodes = tt.nmodes ∧ st.1.vals = tt.vals ∧
      st.1.dims.length = tt.dims.length ∧ st.1.ind.length = tt.ind.length ∧
      st.1.indmap.length = tt.indmap.length ∧
      ∀ m, m < tt.nmodes →
        st.1.dims.getD m 0 = (seen (tt.ind.getD m []) tt.nnz).card ∧
        (st.1.ind.getD m []).length = tt.nnz ∧
        (((seen (tt.ind.getD m []) tt.nnz).card = tt.dims.getD m 0 ∧
            st.1.ind.getD m [] = tt.ind.getD m []) ∨
          ∀ n, n < tt.nnz →
            rd st.1.ind m n = slice_rank (seen (tt.ind.getD m []) tt.nnz) (rd tt.ind m n)) := by
  obtain ⟨st, h0, h1, h2, h3, h4, h5, h6, _, h8, _⟩ := tt_remove_empty_spec tt hs hr
  refine ⟨st, h0, h1, h2, h3, h4, h5, h6, fun m hm => ?_⟩
  obtain ⟨p1, p2, p3⟩ := h8 m hm
  have hlen := shaped_ind_length hs hm
  refine ⟨getD_of_getElem?_some 0 p1, ?_⟩
  by_cases hc : (seen (tt.ind.getD m []) tt.nnz).card = tt.dims.getD m 0
  · have hi := getD_of_getElem?_some [] (p2 hc).1
    exact ⟨by rw [hi, hlen], Or.inl ⟨hc, hi⟩⟩
  · have hi := getD_of_getElem?_some [] (p3 hc).1
    refine ⟨by rw [hi, List.length_map, hlen], Or.inr fun n hn => ?_⟩
    unfold rd
    rw [hi, getD_map_nat _ _ _ (by omega)]

theorem lex_le_map_congr (f g f' g' : Nat → Nat) : ∀ l : List Nat,
    (∀ m ∈ l, (f m < g m ↔ f' m < g' m) ∧ (f m = g m ↔ f' m = g' m)) →
    lex_le (l.map f) (l.map g) = lex_le (l.map f') (l.map g')
  | [], _ => rfl
  | m :: l, h => by
    have h1 := h m (List.mem_cons_self _ _)
    have ih := lex_le_map_congr f g f' g' l (fun k hk => h k (List.mem_cons_of_mem _ hk))
    have ha : decide (f m < g m) = decide (f' m < g' m) := decide_eq_decide.mpr h1.1
    have hb : (f m == g m) = (f' m == g' m) := by
      rw [Bool.eq_iff_iff]
      simp [h1.2]
    simp only [List.map_cons, lex_le, ih, ha, hb]

theorem coord_eq_iff (T : splatt_coo) (a b : Nat) :
    coord T a = coord T b ↔ ∀ m, m < T.nmodes → rd T.ind m a = rd T.ind m b := by
  unfold coord
  rw [List.map_inj_left]
  exact ⟨fun h m hm => h m (List.mem_range.mpr hm), fun h m hm => h m (List.mem_range.mp hm)⟩

/-- C23: on a well-formed tensor with in-range indices `tt_remove_empty` returns, and
its relabelling is strictly order-preserving in every mode: for nonzeros `a`, `b` the
old `ind[m][a]` is below the old `ind[m][b]` exactly when the new ones are so
ordered, and they are equal exactly when the new ones are equal. Hence a tensor whose
coordinates are in lexicographic order stays so, and a tensor without duplicate
coordinates still has none. -/
theorem tt_remove_empty_order (tt : splatt_coo) (hs : shaped tt) (hr : in_range tt) :
    ∃ st, tt_remove_empty tt = some st ∧
      (∀ m a b, m < tt.nmodes → a < tt.nnz → b < tt.nnz →
        (rd tt.ind m a < rd tt.ind m b ↔ rd st.1.ind m a < rd st.1.ind m b) ∧
        (rd tt.ind m a = rd tt.ind m b ↔ rd st.1.ind m a = rd st.1.ind m b)) ∧
      (((List.range tt.nnz).map (coord tt)).Pairwise (fun x y => lex_le x y = true) →
        ((List.range st.1.nnz).map (coord st.1)).Pairwise (fun x y => lex_le x y = true)) ∧
      (((List.range tt.nnz).map (coord tt)).Nodup →
        ((List.range st.1.nnz).map (coord st.1)).Nodup) := by
  obtain ⟨st, h0, h1, h2, _, _, _, _, h8⟩ := tt_remove_empty_relabel tt hs hr
  have hord : ∀ m a b, m < tt.nmodes → a < tt.nnz → b < tt.nnz →
      (rd tt.ind m a < rd tt.ind m b ↔ rd st.1.ind m a < rd st.1.ind m b) ∧
      (rd tt.ind m a = rd tt.ind m b ↔ rd st.1.ind m a = rd st.1.ind m b) := by
    intro m a b hm ha hb
    obtain ⟨_, _, hcase⟩ := h8 m hm
    rcases hcase with ⟨_, hi⟩ | hnew
    · unfold rd
      rw [hi]
      exact ⟨Iff.rfl, Iff.rfl⟩
    · have hSa : rd tt.ind m a ∈ seen (tt.ind.getD m []) tt.nnz := mem_seen.mpr ⟨a, ha, rfl⟩
      have hSb : rd tt.ind m b ∈ seen (tt.ind.getD m []) tt.nnz := mem_seen.mpr ⟨b, hb, rfl⟩
      rw [hnew a ha, hnew b hb]
      exact ⟨⟨fun h => slice_rank_lt _ hSa h, fun h => slice_rank_lt_imp h⟩,
        ⟨fun h => by rw [h], fun h => slice_rank_inj _ hSa hSb h⟩⟩
  have hlex : ∀ a b, a < tt.nnz → b < tt.nnz →
      lex_le (coord st.1 a) (coord st.1 b) = lex_le (coord tt a) (coord tt b) := by
    intro a b ha hb
    unfold coord
    rw [h2]
    apply lex_le_map_congr
    intro m hm
    have := hord m a b (List.mem_range.mp hm) ha hb
    exact ⟨this.1.symm, this.2.symm⟩
  have heq : ∀ a b, a < tt.nnz → b < tt.nnz →
      (coord st.1 a = coord st.1 b ↔ coord tt a = coord tt b) := by
    intro a b ha hb
    rw [coord_eq_iff, coord_eq_iff, h2]
    exact ⟨fun h m hm => (hord m a b hm ha hb).2.mpr (h m hm),
      fun h m hm => (hord m a b hm ha hb).2.mp (h m hm)⟩
  refine ⟨st, h0, hord, ?_, ?_⟩
  · intro hsorted
    rw [h1, List.pairwise_map]
    rw [List.pairwise_map] at hsorted
    refine List.Pairwise.imp_of_mem ?_ hsorted
    intro a b ha hb hab
    rw [hlex a b (List.mem_range.mp ha) (List.mem_range.mp hb)]
    exact hab
  · intro hnd
    rw [h1]
    unfold List.Nodup at hnd ⊢
    rw [List.pairwise_map] at hnd ⊢
    refine List.Pairwise.imp_of_mem ?_ hnd
    intro a b ha hb hab hst
    exact hab ((heq a b (List.mem_range.mp ha) (List.mem_range.mp hb)).mp hst)

theorem tt_remove_empty_order_witness :
    shaped empty_example ∧ in_range empty_example ∧
    ∃ st, tt_remove_empty empty_example = some st ∧
      (∀ m a b, m < empty_example.nmodes → a < empty_example.nnz → b < empty_example.nnz →
        (rd empty_example.ind m a < rd empty_example.ind m b ↔
          rd st.1.ind m a < rd st.1.ind m b) ∧
        (rd empty_example.ind m a = rd empty_example.ind m b ↔
          rd st.1.ind m a = rd st.1.ind m b)) ∧
      (((List.range empty_example.nnz).map (coord empty_example)).Pairwise
          (fun x y => lex_le x y = true) →
        ((List.range st.1.nnz).map (coord st.1)).Pairwise (fun x y => lex_le x y = true)) ∧
      (((List.range empty_example.nnz).map (coord empty_example)).Nodup →
        ((List.range st.1.nnz).map (coord st.1)).Nodup) :=
  ⟨by decide, by decide, tt_remove_empty_order empty_example (by decide) (by decide)⟩


/-! ## `tt_remove_empty` applied twice -/

/-- The tensor that `tt_remove_empty` leaves is well formed, has in-range indices and
has no empty slice in any mode. -/
theorem tt_remove_empty_full (tt : splatt_coo) (hs : shaped tt) (hr : in_range tt) :
    ∃ st, tt_remove_empty tt = some st ∧ st.1.nmodes = tt.nmodes ∧
      shaped st.1 ∧ in_range st.1 ∧
      ∀ m, m < st.1.nmodes →
        (seen (st.1.ind.getD m []) st.1.nnz).card = st.1.dims.getD m 0 := by
  obtain ⟨st, h0, h1, h2, h3, h4, h5, h6, h8⟩ := tt_remove_empty_relabel tt hs hr
  have hs' := hs
  obtain ⟨s1, s2, _, s4, s5⟩ := hs'
  have hin : ∀ m, m < tt.nmodes → ∀ n, n < tt.nnz → rd st.1.ind m n < st.1.dims.getD m 0 := by
    intro m hm n hn
    obtain ⟨hd, _, hcase⟩ := h8 m hm
    rw [hd]
    rcases hcase with ⟨hc, hi⟩ | hnew
    · unfold rd
      rw [hi, hc]
      exact hr m hm n hn
    · rw [hnew n hn]
      exact slice_rank_lt_card _ (mem_seen.mpr ⟨n, hn, rfl⟩)
  have hsur : ∀ m, m < tt.nmodes → ∀ v, v < st.1.dims.getD m 0 →
      ∃ n, n < tt.nnz ∧ rd st.1.ind m n = v := by
    intro m hm v hv
    obtain ⟨hd, _, hcase⟩ := h8 m hm
    rw [hd] at hv
    have hrm : ∀ n, n < tt.nnz → rd tt.ind m n < tt.dims.getD m 0 := hr m hm
    rcases hcase with ⟨hc, hi⟩ | hnew
    · rw [hc] at hv
      obtain ⟨n, hn, hv'⟩ := (populated_iff tt m hrm).mpr hc v hv
      refine ⟨n, hn, ?_⟩
      unfold rd at hv' ⊢
      rw [hi]
      exact hv'
    · have hb : ∀ g ∈ seen (tt.ind.getD m []) tt.nnz, g < tt.dims.getD m 0 := by
        intro g hg
        obtain ⟨k, hk, rfl⟩ := mem_seen.mp hg
        exact hrm k hk
      rw [← slice_rank_of_bound _ _ hb] at hv
      obtain ⟨g, _, hg, hgv⟩ := slice_rank_surj _ _ v hv
      obtain ⟨k, hk, rfl⟩ := mem_seen.mp hg
      exact ⟨k, hk, by rw [hnew k hk]; exact hgv⟩
  refine ⟨st, h0, h2, ⟨by omega, by omega, ?_, by rw [h3, h1]; exact s4, by omega⟩, ?_, ?_⟩
  · intro l hl
    obtain ⟨k, hk, rfl⟩ := List.getElem_of_mem hl
    have := (h8 k (by omega)).2.1
    rw [List.getD_eq_getElem _ _ hk] at this
    rw [this, h1]
  · intro m hm n hn
    rw [h2] at hm
    rw [h1] at hn
    exact hin m hm n hn
  · intro m hm
    rw [h2] at hm
    apply (populated_iff st.1 m (by rw [h1]; exact hin m hm)).mp
    rw [h1]
    exact hsur m hm

theorem removed_upto_full (tt : splatt_coo) : ∀ n : Nat,
    (∀ m, m < n → (seen (tt.ind.getD m []) tt.nnz).card = tt.dims.getD m 0) →
    removed_upto tt n = 0
  | 0, _ => rfl
  | n + 1, h => by
    rw [removed_upto, if_pos (h n (Nat.lt_succ_self n))]
    exact removed_upto_full tt n (fun m hm => h m (Nat.lt_succ_of_lt hm))

theorem getElem?_of_getD_lt {α : Type} (l : List α) (m : Nat) (d : α) (h : m < l.length) :
    l[m]? = some (l.getD m d) := by
  rw [List.getD_eq_getElem _ _ h, List.getElem?_eq_getElem h]

/-- C21, amended: on a well-formed tensor with in-range indices `tt_remove_empty`
returns, and a second application right after it returns too, with the count 0, and
leaves `nnz`, `nmodes`, `dims`, `ind` and `vals` exactly as the first application
left them; `indmap[m]` is absent after the second application for every mode `m`
of the tensor, and the entries of `indmap` past the modes are untouched. -/
theorem tt_remove_empty_twice (tt : splatt_coo) (hs : shaped tt) (hr : in_range tt) :
    ∃ st1, tt_remove_empty tt = some st1 ∧
      ∃ st2, tt_remove_empty st1.1 = some st2 ∧ st2.2 = 0 ∧
        st2.1.nnz = st1.1.nnz ∧ st2.1.nmodes = st1.1.nmodes ∧
        st2.1.dims = st1.1.dims ∧ st2.1.ind = st1.1.ind ∧ st2.1.vals = st1.1.vals ∧
        (∀ m, m < tt.nmodes → st2.1.indmap[m]? = some none) ∧
        (∀ m, tt.nmodes ≤ m → st2.1.indmap[m]? = st1.1.indmap[m]?) := by
  obtain ⟨st1, h0, hn, hs1, hr1, hfull⟩ := tt_remove_empty_full tt hs hr
  obtain ⟨st2, g0, g1, g2, g3, _, _, _, g7, g8, g9⟩ := tt_remove_empty_spec st1.1 hs1 hr1
  have hs1' := hs1
  obtain ⟨s1, s2, _, _, _⟩ := hs1'
  refine ⟨st1, h0, st2, g0, ?_, g1, g2, ?_, ?_, g3, ?_, ?_⟩
  · rw [g9]
    exact removed_upto_full st1.1 st1.1.nmodes hfull
  · apply List.ext_getElem?
    intro m
    by_cases hm : m < st1.1.nmodes
    · rw [(g8 m hm).1, hfull m hm]
      exact (getElem?_of_getD_lt _ _ _ (by omega)).symm
    · exact (g7 m (by omega)).1
  · apply List.ext_getElem?
    intro m
    by_cases hm : m < st1.1.nmodes
    · rw [((g8 m hm).2.1 (hfull m hm)).1]
      exact (getElem?_of_getD_lt _ _ _ (by omega)).symm
    · exact (g7 m (by omega)).2.1
  · intro m hm
    rw [← hn] at hm
    exact ((g8 m hm).2.1 (hfull m hm)).2
  · intro m hm
    rw [← hn] at hm
    exact (g7 m hm).2.2

theorem tt_remove_empty_twice_witness :
    shaped empty_example ∧ in_range empty_example ∧
    ∃ st1, tt_remove_empty empty_example = some st1 ∧
      ∃ st2, tt_remove_empty st1.1 = some st2 ∧ st2.2 = 0 ∧
        st2.1.nnz = st1.1.nnz ∧ st2.1.nmodes = st1.1.nmodes ∧
        st2.1.dims = st1.1.dims ∧ st2.1.ind = st1.1.ind ∧ st2.1.vals = st1.1.vals ∧
        (∀ m, m < empty_example.nmodes → st2.1.indmap[m]? = some none) ∧
        (∀ m, empty_example.nmodes ≤ m → st2.1.indmap[m]? = st1.1.indmap[m]?) :=
  ⟨by decide, by decide, tt_remove_empty_twice empty_example (by decide) (by decide)⟩

/-- C21, counterexample: on the tensor of scenario 5 the first application of
`tt_remove_empty` builds the maps `[2, 5, 7]` and `[0, 1, 3]`; the second application
returns 0 and keeps `dims` and `ind`, but finds no empty slice and clears both
`indmap` entries, so `indmap` is not as the first application left it. -/
theorem tt_remove_empty_twice_drops_indmap :
    tt_remove_empty empty_example = some (compacted_example, 14) ∧
    compacted_example.indmap = [some [2, 5, 7], some [0, 1, 3]] ∧
    ∃ st2, tt_remove_empty compacted_example = some st2 ∧ st2.2 = 0 ∧
      st2.1.dims = compacted_example.dims ∧ st2.1.ind = compacted_example.ind ∧
      st2.1.indmap = [none, none] ∧ st2.1.indmap ≠ compacted_example.indmap :=
  ⟨by with_unfolding_all decide, rfl,
    ({ compacted_example with indmap := [none, none] }, 0),
    by with_unfolding_all decide, rfl, rfl, rfl, by decide⟩


/-! ## `tt_remove_dups` applied twice -/

theorem collapse_from_of_distinct : ∀ (es : List (List Nat × ℚ)) (cur : List Nat × ℚ),
    ((cur :: es).map Prod.fst).Pairwise lex_lt → collapse_from es cur = cur :: es
  | [], _, _ => rfl
  | e :: rest, cur, h => by
    rw [List.map_cons, List.pairwise_cons] at h
    have hne : cur.1 ≠ e.1 := (h.1 e.1 (by simp)).2
    rw [collapse_from, if_neg hne, collapse_from_of_distinct rest e h.2]

theorem sort_perm_of_sorted (tt : splatt_coo)
    (h : ((entries tt).map Prod.fst).Pairwise lex_lt) :
    sort_perm tt 0 = List.range tt.nnz := by
  unfold sort_perm
  apply List.Sorted.insertionSort_eq
  unfold entries at h
  rw [List.map_map, List.pairwise_map] at h
  refine h.imp ?_
  intro a b hab
  rw [sort_key_zero, sort_key_zero]
  exact hab.1

/-- On a tensor whose coordinates are already strictly ascending `tt_remove_dups`
changes no entry and returns 0. -/
theorem tt_remove_dups_of_sorted (tt : splatt_coo) (h : 1 ≤ tt.nnz)
    (hsorted : ((entries tt).map Prod.fst).Pairwise lex_lt) :
    entries (tt_remove_dups tt).1 = entries tt ∧ (tt_remove_dups tt).1.nnz = tt.nnz ∧
      (tt_remove_dups tt).2 = 0 := by
  obtain ⟨_, _, _, hent, hret⟩ := tt_remove_dups_frame tt h
  have hsort : entries (tt_sort tt 0) = entries tt := by
    rw [entries_tt_sort, sort_perm_of_sorted tt hsorted]
    rfl
  have hpos : entries (tt_sort tt 0) =
      entry (tt_sort tt 0) 0 :: (List.range' 1 (tt.nnz - 1)).map (entry (tt_sort tt 0)) :=
    entries_pos (tt_sort tt 0) h
  have hE : entries (tt_remove_dups tt).1 = entries tt := by
    rw [hent, collapse_from_of_distinct, ← hpos, hsort]
    rw [← hpos, hsort]
    exact hsorted
  have hnnz : (tt_remove_dups tt).1.nnz = tt.nnz := by
    rw [← length_entries (tt_remove_dups tt).1, hE, length_entries]
  refine ⟨hE, hnnz, ?_⟩
  rw [hret, hnnz]
  have : tt.nnz + idx_mod - tt.nnz = idx_mod := by omega
  rw [this, Nat.mod_self]

/-- C22: on a tensor with at least one nonzero, applying `tt_remove_dups` a second
time right after the first returns 0 and leaves `nnz`, `nmodes`, every `ind[m][n]`
and every `vals[n]` of the `nnz` entries unchanged. -/
theorem tt_remove_dups_twice (tt : splatt_coo) (h : 1 ≤ tt.nnz) :
    (tt_remove_dups (tt_remove_dups tt).1).2 = 0 ∧
    (tt_remove_dups (tt_remove_dups tt).1).1.nnz = (tt_remove_dups tt).1.nnz ∧
    (tt_remove_dups (tt_remove_dups tt).1).1.nmodes = (tt_remove_dups tt).1.nmodes ∧
    ∀ n, n < (tt_remove_dups tt).1.nnz →
      (∀ m, m < (tt_remove_dups tt).1.nmodes →
        rd (tt_remove_dups (tt_remove_dups tt).1).1.ind m n = rd (tt_remove_dups tt).1.ind m n) ∧
      (tt_remove_dups (tt_remove_dups tt).1).1.vals.getD n 0 =
        (tt_remove_dups tt).1.vals.getD n 0 := by
  have h1 := (tt_remove_dups_nnz_le tt h).1
  obtain ⟨hE, hnnz, hret⟩ :=
    tt_remove_dups_of_sorted (tt_remove_dups tt).1 h1 (tt_remove_dups_sorted tt h)
  have hmodes := (tt_remove_dups_frame (tt_remove_dups tt).1 h1).1
  refine ⟨hret, hnnz, hmodes, fun n hn => ?_⟩
  unfold entries at hE
  rw [hnnz, List.map_inj_left] at hE
  have he := hE n (List.mem_range.mpr hn)
  have hc : coord (tt_remove_dups (tt_remove_dups tt).1).1 n = coord (tt_remove_dups tt).1 n :=
    congrArg Prod.fst he
  refine ⟨fun m hm => ?_, congrArg Prod.snd he⟩
  rw [← getD_coord _ n m (by rw [hmodes]; exact hm), ← getD_coord _ n m hm, hc]

theorem tt_remove_dups_twice_witness :
    1 ≤ dup_example.nnz ∧
    (tt_remove_dups (tt_remove_dups dup_example).1).2 = 0 ∧
    (tt_remove_dups (tt_remove_dups dup_example).1).1.nnz = (tt_remove_dups dup_example).1.nnz ∧
    (tt_remove_dups (tt_remove_dups dup_example).1).1.nmodes =
      (tt_remove_dups dup_example).1.nmodes ∧
    ∀ n, n < (tt_remove_dups dup_example).1.nnz →
      (∀ m, m < (tt_remove_dups dup_example).1.nmodes →
        rd (tt_remove_dups (tt_remove_dups dup_example).1).1.ind m n =
          rd (tt_remove_dups dup_example).1.ind m n) ∧
      (tt_remove_dups (tt_remove_dups dup_example).1).1.vals.getD n 0 =
        (tt_remove_dups dup_example).1.vals.getD n 0 :=
  ⟨by decide, tt_remove_dups_twice dup_example (by decide)⟩


end Splatt
